import Mathlib

/-!
# Vespa: bit vectors, enum attributes, docsums, configs and helpers

A shallow embedding of

* `searchlib/common/allocatedbitvector.cpp` (constructors, `cleanup`, `resize`, `grow`),
* `searchlib/attribute/multienumattribute.h` (`getEnum`, `get`),
* `searchcore/proton/docsummary/docsumcontext.cpp` (`initState`, `createSlimeReply`),
* `searchcore/proton/server/documentdbconfig.cpp` (`operator==`, `compare`, `valid`,
  `makeReplayConfig`, `preferOriginalConfig`),
* `vsm/vsm/flattendocsumwriter.cpp`, `vespamalloc/util/traceutil.cpp` and
  `vbench/core/handler_thread.hpp`.

Storage is modelled as a list of 64-bit words held in `Nat`.  Bit `i` of a vector lives in
word `i / 64` at position `i % 64`, counted from the word `_words` points at.  The helpers of
the base classes `BitWord` and `BitVector` are declared in headers that are not among the
sources; they are modelled here and marked as such.  `Index` values are kept in `Nat` and are
not truncated when stored; the subtractions of the sources wrap as in the code (`size_t` at
`2 ^ 64` in `computeCapacity`, `Index` at `2 ^ 32`).
-/

namespace search

/-! ## Failures -/

/-- The assertions that can stop the modelled code. -/
inductive Failure where
  /-- `assert(newCapacity >= newSize)` in `AllocatedBitVector::grow`. -/
  | growCapacity
  /-- `assert(possibleCapacity >= capacity)` in `computeCapacity`. -/
  | possibleCapacity
  /-- `assert(capacity >= end)` in `BitVector::allocatePaddedAndAligned`. -/
  | allocCapacity
  /-- `assert(testBit(size()))` in `AllocatedBitVector::operator=`. -/
  | guardBit
  deriving DecidableEq, Repr

/-! ## BitWord -/

/-- Modelled from the spec: `BitWord::WordLen`, the number of bits of a storage word
(`bitword.h` is not among the sources). -/
def WordLen : Nat := 64

/-- Modelled from the spec: `BitWord::allBits()`, the word with every bit set. -/
def allBits : Nat := 2 ^ 64 - 1

/-- Modelled from the spec: `BitWord::bitNum(idx)`, the position of bit `idx` inside its word. -/
def bitNum (idx : Nat) : Nat := idx % WordLen

/-- Modelled from the spec: `BitWord::wordNum(idx)`, the number of the word holding bit `idx`. -/
def wordNum (idx : Nat) : Nat := idx / WordLen

/-- Modelled from the spec: `BitWord::mask(idx)`, the word with only bit `bitNum(idx)` set. -/
def mask (idx : Nat) : Nat := 1 <<< bitNum idx

/-- Modelled from the spec: `BitWord::startBits(idx)`, the bits strictly below `bitNum(idx)`. -/
def startBits (idx : Nat) : Nat := (allBits >>> 1) >>> (WordLen - 1 - bitNum idx)

/-- Modelled from the spec: `BitWord::endBits(idx)`, the bits strictly above `bitNum(idx)`. -/
def endBits (idx : Nat) : Nat := ((allBits - 1) <<< bitNum idx) % 2 ^ 64

/-- Bitwise complement `~w` of a 64-bit word. -/
def notWord (w : Nat) : Nat := allBits ^^^ w

/-! ## Raw memory helpers -/

/-- The effect of `memset(p + from, 0, 8 * count)` on a block of words. -/
def zeroWords : List Nat → Nat → Nat → List Nat
  | buf, _, 0 => buf
  | buf, start, count + 1 => zeroWords (buf.set start 0) (start + 1) count

/-- The effect of `memcpy(dst + dstAt, src + srcAt, 8 * count)` on two blocks of words. -/
def copyWords : List Nat → List Nat → Nat → Nat → Nat → List Nat
  | dst, _, _, _, 0 => dst
  | dst, src, dstAt, srcAt, count + 1 =>
      copyWords (dst.set dstAt (src.getD srcAt 0)) src (dstAt + 1) (srcAt + 1) count

/-! ## BitVector -/

/-- Modelled from the spec: the state of the base class `BitVector` (`bitvector.h` is not among
the sources).  `mem` is the block of memory `_words` points into, as 64-bit words, and `words`
is the position inside `mem` of the word `_words[0]`. -/
structure BitVector where
  mem : List Nat
  words : Nat
  startOffset : Nat
  sz : Nat
  numTrueBits : Nat
  deriving Repr, DecidableEq

namespace BitVector

/-- Modelled from the spec: `BitVector::invalidCount()`, the marker of a stale cached count. -/
def invalidCount : Nat := 2 ^ 32 - 1

/-- Modelled from the spec: `BitVector::numWords(bits)`, the words needed for `bits` bits and
the guard bit. -/
def numWords (bits : Nat) : Nat := wordNum (bits + 1 + (WordLen - 1))

/-- Modelled from the spec: `BitVector::numBytes(bits)`. -/
def numBytes (bits : Nat) : Nat := numWords bits * 8

/-- Modelled from the spec: `BitVector::numActiveWords(start, end)`. -/
def numActiveWords (start end_ : Nat) : Nat :=
  if end_ ≥ start then numWords end_ - wordNum start else 0

/-- The default constructor `BitVector()`: no storage, size zero. -/
def empty : BitVector :=
  { mem := [], words := 0, startOffset := 0, sz := 0, numTrueBits := invalidCount }

/-- The word `_words[k]`. -/
def word (b : BitVector) (k : Nat) : Nat := b.mem.getD (b.words + k) 0

/-- The assignment `_words[k] = w`. -/
def setWord (b : BitVector) (k w : Nat) : BitVector :=
  { b with mem := b.mem.set (b.words + k) w }

/-- Modelled from the spec: `BitVector::testBit(idx)`. -/
def testBit (b : BitVector) (idx : Nat) : Bool :=
  (b.word (wordNum idx) &&& mask idx) != 0

/-- Modelled from the spec: `BitVector::setBit(idx)`. -/
def setBit (b : BitVector) (idx : Nat) : BitVector :=
  b.setWord (wordNum idx) (b.word (wordNum idx) ||| mask idx)

/-- Modelled from the spec: `BitVector::clearBit(idx)`. -/
def clearBit (b : BitVector) (idx : Nat) : BitVector :=
  b.setWord (wordNum idx) (b.word (wordNum idx) &&& notWord (mask idx))

/-- Modelled from the spec: `BitVector::init(buf, start, end)`; `bufAt` is the position of
`buf` inside the block `mem`. -/
def init (b : BitVector) (mem : List Nat) (bufAt start end_ : Nat) : BitVector :=
  { b with mem := mem, words := bufAt - wordNum start, startOffset := start, sz := end_,
           numTrueBits := invalidCount }

/-- Modelled from the spec: `BitVector::count()`, the number of set bits in
`[startOffset, size)`. -/
def count (b : BitVector) : Nat :=
  ((List.range b.sz).filter (fun i => decide (b.startOffset ≤ i) && b.testBit i)).length

/-- Modelled from the spec: `BitVector::updateCount()`. -/
def updateCount (b : BitVector) : BitVector := { b with numTrueBits := b.count }

/-- Modelled from the spec: `BitVector::invalidateCachedCount()`. -/
def invalidateCachedCount (b : BitVector) : BitVector := { b with numTrueBits := invalidCount }

/-- Modelled from the spec: `BitVector::decNumBits()`, on a 32-bit counter. -/
def decNumBits (b : BitVector) : BitVector :=
  if b.numTrueBits = invalidCount then b
  else { b with numTrueBits := (b.numTrueBits + 2 ^ 32 - 1) % 2 ^ 32 }

/-- Modelled from the spec: `BitVector::clearBitAndMaintainCount(idx)`. -/
def clearBitAndMaintainCount (b : BitVector) (idx : Nat) : BitVector :=
  if b.testBit idx then (b.clearBit idx).decNumBits else b

/-- Modelled from the spec: `BitVector::clear()`: zero the active words, set the guard bit,
reset the count. -/
def clear (b : BitVector) : BitVector :=
  let b1 := { b with mem := zeroWords b.mem (b.words + wordNum b.startOffset)
                              (numActiveWords b.startOffset b.sz) }
  let b2 := b1.setBit b1.sz
  { b2 with numTrueBits := 0 }

/-- Modelled from the spec: `BitVector::setSize(sz)`: the guard bit moves to `sz`.  The new
guard bit is placed first, the guard bit at the old size is removed when that is another
position, so that no bit beyond the guard stays set, and then the size is published. -/
def setSize (b : BitVector) (sz : Nat) : BitVector :=
  let b1 := b.setBit sz
  let b2 := if sz ≠ b.sz then b1.clearBit b.sz else b1
  { b2 with sz := sz }

/-- Modelled from the spec: `BitVector::clearIntervalNoInvalidation(range)`: clear the bits of
`[start, end)` after clipping the range to `[startOffset, size)`. -/
def clearIntervalNoInvalidation (b : BitVector) (start end_ : Nat) : BitVector :=
  let s := max start b.startOffset
  let e := min end_ b.sz
  if e ≤ s then b
  else
    let last := e - 1
    let startw := wordNum s
    let endw := wordNum last
    if endw > startw then
      let b1 := b.setWord startw (b.word startw &&& startBits s)
      let b2 := { b1 with mem := zeroWords b1.mem (b1.words + startw + 1) (endw - (startw + 1)) }
      b2.setWord endw (b2.word endw &&& endBits last)
    else
      b.setWord startw (b.word startw &&& (startBits s ||| endBits last))

/-- Modelled from the spec: `BitVector::clearInterval(start, end)`. -/
def clearInterval (b : BitVector) (start end_ : Nat) : BitVector :=
  (b.clearIntervalNoInvalidation start end_).invalidateCachedCount

/-- Modelled from the spec: `BitVector::allocatePaddedAndAligned(start, end, capacity)`: it
asserts `capacity >= end` and returns a block of `numActiveWords(start, capacity)` words rounded
up to a multiple of 16, whose words past the used ones are zeroed.  `junk i` is what the
allocator left in word `i`. -/
def allocatePaddedAndAligned (junk : Nat → Nat) (start end_ capacity : Nat) :
    Except Failure (List Nat) :=
  if capacity < end_ then .error .allocCapacity
  else
    let words := numActiveWords start capacity
    let words := words + (16 - words % 16) % 16
    let usedWords := numWords (end_ - start)
    .ok ((List.range words).map (fun i => if i < usedWords then junk i % 2 ^ 64 else 0))

end BitVector

/-! ## AllocatedBitVector -/

/-- An `AllocatedBitVector`: a `BitVector` that owns its block (`_alloc` is the block `mem`)
and records its capacity in bits. -/
structure AllocatedBitVector extends BitVector where
  capacityBits : Nat
  deriving Repr, DecidableEq

/-- `GenerationHeldAlloc<Alloc>`: the deferred-free handle owning a released allocation. -/
structure GenerationHeldAlloc where
  alloc : List Nat
  deriving Repr, DecidableEq

/-- `computeCapacity(capacity, allocatedBytes)` of `allocatedbitvector.cpp`. -/
def computeCapacity (capacity allocatedBytes : Nat) : Except Failure Nat :=
  let possibleCapacity := (allocatedBytes * 8 + 2 ^ 64 - 1) % 2 ^ 64
  if possibleCapacity ≥ capacity then .ok possibleCapacity else .error .possibleCapacity

/-- `extract_size_size(bv)` of `allocatedbitvector.cpp`: the size, read once, twice. -/
def extract_size_size (bv : BitVector) : Nat × Nat := (bv.sz, bv.sz)

/-- `extract_size_capacity(bv)` of `allocatedbitvector.cpp`.  The source vector may be resized by
another thread, so `reads k` is what the `k`-th round of reading `bv.size()` and `bv.capacity()`
returns; the loop starts at round `k` and gives `none` if it has not ended within `fuel`
rounds. -/
def extract_size_capacity (reads : Nat → Nat × Nat) : Nat → Nat → Option (Nat × Nat)
  | 0, _ => none
  | fuel + 1, k =>
      if (reads k).2 < (reads k).1 then extract_size_capacity reads fuel (k + 1)
      else some (reads k)

namespace AllocatedBitVector

/-- Modelled from the spec: `Alloc::size()` of the owned block, in bytes; a block has exactly
the size that was asked for. -/
def allocSize (mem : List Nat) : Nat := mem.length * 8

/-- `AllocatedBitVector::capacity()`. -/
def capacity (bv : AllocatedBitVector) : Nat := bv.capacityBits

/-- `AllocatedBitVector::AllocatedBitVector(Index numberOfElements)`. -/
def create (junk : Nat → Nat) (numberOfElements : Nat) : Except Failure AllocatedBitVector := do
  let alloc ← BitVector.allocatePaddedAndAligned junk 0 numberOfElements numberOfElements
  let capacityBits ← computeCapacity numberOfElements (allocSize alloc)
  let b := (BitVector.empty.init alloc 0 0 numberOfElements).clear
  pure { toBitVector := b, capacityBits := capacityBits }

/-- `AllocatedBitVector::AllocatedBitVector(Index numberOfElements, Alloc buffer, size_t offset)`:
the vector views `buffer` from byte `offset` on (a whole number of words). -/
def createFromAlloc (numberOfElements : Nat) (buffer : List Nat) (offset : Nat) :
    AllocatedBitVector :=
  { toBitVector := { mem := buffer, words := offset / 8, startOffset := 0,
                     sz := numberOfElements, numTrueBits := BitVector.invalidCount },
    capacityBits := numberOfElements }

/-- `AllocatedBitVector::AllocatedBitVector(Index numberOfElements, Index capacityBits,
const void * rhsBuf, size_t rhsSize)`. -/
def createFromBuf (junk : Nat → Nat) (numberOfElements capacityBits : Nat) (rhsBuf : List Nat)
    (rhsSize : Nat) : Except Failure AllocatedBitVector := do
  let alloc ← BitVector.allocatePaddedAndAligned junk 0 numberOfElements capacityBits
  let capacityBits ← computeCapacity capacityBits (allocSize alloc)
  let b := (BitVector.empty.init alloc 0 0 numberOfElements).clear
  let b :=
    if rhsSize > 0 then
      let minCount := min numberOfElements rhsSize
      let b1 := { b with mem := copyWords b.mem rhsBuf b.words 0 (BitVector.numBytes minCount / 8) }
      let b2 :=
        if minCount / 8 = numberOfElements / 8 then
          b1.setWord (BitVector.numWords b1.sz - 1)
            (b1.word (BitVector.numWords b1.sz - 1) &&& notWord (endBits minCount))
        else b1
      b2.setBit b2.sz
    else b
  pure { toBitVector := b.updateCount, capacityBits := capacityBits }

/-- `AllocatedBitVector::AllocatedBitVector(const BitVector & rhs, std::pair<Index, Index>
size_capacity)`.  The subtraction of the start index is one of 32-bit `Index` values. -/
def createCopy (junk : Nat → Nat) (rhs : BitVector) (size_capacity : Nat × Nat) :
    Except Failure AllocatedBitVector := do
  let alloc ← BitVector.allocatePaddedAndAligned junk 0 size_capacity.1 size_capacity.2
  let capacityBits ← computeCapacity size_capacity.2 (allocSize alloc)
  let alloc := copyWords alloc rhs.mem 0 rhs.words
    (BitVector.numBytes ((size_capacity.1 + 2 ^ 32 - rhs.startOffset) % 2 ^ 32) / 8)
  let b := BitVector.empty.init alloc 0 0 size_capacity.1
  let b := b.setBit b.sz
  pure { toBitVector := b.updateCount, capacityBits := capacityBits }

/-- `AllocatedBitVector::AllocatedBitVector(const AllocatedBitVector & rhs)`, copying a vector
nobody resizes meanwhile: every round of reads returns the same size and capacity.  `none` if
the retry loop of `extract_size_capacity` does not end within `fuel` rounds. -/
def copyAllocated (junk : Nat → Nat) (rhs : AllocatedBitVector) (fuel : Nat) :
    Option (Except Failure AllocatedBitVector) :=
  (extract_size_capacity (fun _ => (rhs.sz, rhs.capacityBits)) fuel 0).map
    (createCopy junk rhs.toBitVector)

/-- `AllocatedBitVector::AllocatedBitVector(const BitVector & rhs)`. -/
def copyBitVector (junk : Nat → Nat) (rhs : BitVector) : Except Failure AllocatedBitVector :=
  createCopy junk rhs (extract_size_size rhs)

/-- `AllocatedBitVector::operator=(const AllocatedBitVector & rhs)`: the vector assigned to
takes over the copy `tmp` of `rhs` (its former state goes away with `tmp`) and the guard bit is
asserted.  `none` if the retry loop of the copy does not end within `fuel` rounds. -/
def assign (junk : Nat → Nat) (rhs : AllocatedBitVector) (fuel : Nat) :
    Option (Except Failure AllocatedBitVector) :=
  (copyAllocated junk rhs fuel).map fun r => do
    let tmp ← r
    if tmp.testBit tmp.sz then pure tmp else .error .guardBit

/-- `AllocatedBitVector::operator=(const BitVector & rhs)`. -/
def assignBitVector (junk : Nat → Nat) (rhs : BitVector) : Except Failure AllocatedBitVector := do
  let tmp ← copyBitVector junk rhs
  if tmp.testBit tmp.sz then pure tmp else .error .guardBit

/-- `AllocatedBitVector::cleanup()`. -/
def cleanup (bv : AllocatedBitVector) : AllocatedBitVector :=
  { toBitVector := bv.toBitVector.init [] 0 0 0, capacityBits := 0 }

/-- `AllocatedBitVector::resize(Index newLength)`. -/
def resize (junk : Nat → Nat) (bv : AllocatedBitVector) (newLength : Nat) :
    Except Failure AllocatedBitVector := do
  let alloc ← BitVector.allocatePaddedAndAligned junk 0 newLength newLength
  let capacityBits ← computeCapacity newLength (allocSize alloc)
  let b := (bv.toBitVector.init alloc 0 0 newLength).clear
  pure { toBitVector := b, capacityBits := capacityBits }

/-- `AllocatedBitVector::grow(Index newSize, Index newCapacity)`.  The result is the vector
after the call together with the returned handle (`none` for a null `GenerationHeldBase::UP`). -/
def grow (junk : Nat → Nat) (bv : AllocatedBitVector) (newSize newCapacity : Nat) :
    Except Failure (AllocatedBitVector × Option GenerationHeldAlloc) :=
  if newCapacity < newSize then .error .growCapacity
  else if newCapacity ≠ bv.capacity then do
    let tbv ← createFromBuf junk newSize newCapacity bv.mem bv.sz
    let tbv :=
      if newSize > bv.sz then
        { tbv with toBitVector := tbv.toBitVector.clearBitAndMaintainCount bv.sz }
      else tbv
    pure (tbv, some { alloc := bv.mem })
  else
    if newSize > bv.sz then
      let b1 := bv.toBitVector.setSize newSize
      let b2 := b1.clearIntervalNoInvalidation bv.sz newSize
      .ok ({ bv with toBitVector := b2 }, none)
    else
      let b1 := bv.toBitVector.clearInterval newSize bv.sz
      .ok ({ bv with toBitVector := b1.setSize newSize }, none)

/-- A vector whose storage covers its capacity: the active range starts at bit 0, the size does
not exceed the capacity, and the block holds every bit up to the one at position `capacity()`. -/
def Valid (bv : AllocatedBitVector) : Prop :=
  bv.startOffset = 0 ∧ bv.sz ≤ bv.capacityBits ∧
    bv.words + wordNum bv.capacityBits < bv.mem.length

instance (bv : AllocatedBitVector) : Decidable bv.Valid := by
  unfold Valid; infer_instance

/-- A vector that owns a block made by `allocatePaddedAndAligned`: `_words` is the start of
`_alloc` and `capacity()` is the last bit of the block. -/
def Owned (bv : AllocatedBitVector) : Prop :=
  bv.words = 0 ∧ bv.startOffset = 0 ∧ bv.sz ≤ bv.capacityBits ∧
    bv.mem.length * 64 = bv.capacityBits + 1

instance (bv : AllocatedBitVector) : Decidable bv.Owned := by
  unfold Owned; infer_instance

/-- The capacity is padded out to the allocation: `capacity() + 1` is the number of bits of the
owned block, and the block is a whole number of units of 16 words. -/
def CapacityIsAllocation (bv : AllocatedBitVector) : Prop :=
  bv.capacityBits + 1 = allocSize bv.mem * 8 ∧ bv.mem.length % 16 = 0

instance (bv : AllocatedBitVector) : Decidable bv.CapacityIsAllocation := by
  unfold CapacityIsAllocation; infer_instance

/-- A vector of size 10 with bits 3 and 7 set, its guard bit at 10, in a block of 16 words
(capacity 1023). -/
def sample10 : AllocatedBitVector :=
  { mem := [1160, 0, 0, 0, 0, 0, 0, 0, 0, 0, 0, 0, 0, 0, 0, 0], words := 0, startOffset := 0,
    sz := 10, numTrueBits := 2, capacityBits := 1023 }

end AllocatedBitVector

/-! ## MultiValueEnumAttribute -/

/-- `IEnumStore::Index`: the reference to a unique value of the enum store; `ref` is the
32-bit handle `ref()` returns. -/
structure EnumIndex where
  ref : Nat
  deriving DecidableEq, Repr, Inhabited

/-- The multi-value type `M` of the attribute: every stored entry has an enum index and a
weight (`value()` and `weight()`). -/
class MultiValueType (M : Type) where
  value : M → EnumIndex
  weight : M → Int

/-- `multivalue::Value<IEnumStore::Index>`: an entry of an array attribute; its weight is 1. -/
structure Value where
  value : EnumIndex
  deriving DecidableEq, Repr, Inhabited

/-- `multivalue::WeightedValue<IEnumStore::Index>`: an entry of a weighted set. -/
structure WeightedValue where
  value : EnumIndex
  weight : Int
  deriving DecidableEq, Repr, Inhabited

instance : MultiValueType Value := ⟨Value.value, fun _ => 1⟩

instance : MultiValueType WeightedValue := ⟨WeightedValue.value, WeightedValue.weight⟩

/-- `WeightedEnum`: an enum handle with its weight. -/
structure WeightedEnum where
  value : Nat
  weight : Int
  deriving DecidableEq, Repr, Inhabited

/-- The part of `MultiValueEnumAttribute<B, M>` the read API uses: `_mvMapping.get(doc)` gives
the stored entries of `doc`. -/
structure MultiValueEnumAttribute (M : Type) where
  mvMapping : Nat → List M

namespace MultiValueEnumAttribute

variable {M : Type} [MultiValueType M] [Inhabited M]

/-- `MultiValueEnumAttribute::getEnum(DocId doc)`. -/
def getEnum (a : MultiValueEnumAttribute M) (doc : Nat) : Nat :=
  let indices := a.mvMapping doc
  if indices.length = 0 then 2 ^ 32 - 1
  else (MultiValueType.value (indices.getD 0 default)).ref

/-- `MultiValueEnumAttribute::get(DocId doc, EnumHandle * e, uint32_t sz)`: the buffer after
the call (`e i` is the entry `e[i]`) and the returned count. -/
def get (a : MultiValueEnumAttribute M) (doc : Nat) (e : Nat → Nat) (sz : Nat) :
    (Nat → Nat) × Nat :=
  let indices := a.mvMapping doc
  let valueCount := indices.length % 2 ^ 32
  let m := min sz valueCount
  let e := (List.range m).foldl
    (fun e i => Function.update e i (MultiValueType.value (indices.getD i default)).ref) e
  (e, valueCount)

/-- `MultiValueEnumAttribute::get(DocId doc, WeightedEnum * e, uint32_t sz)`. -/
def getWeighted (a : MultiValueEnumAttribute M) (doc : Nat) (e : Nat → WeightedEnum) (sz : Nat) :
    (Nat → WeightedEnum) × Nat :=
  let indices := a.mvMapping doc
  let valueCount := indices.length % 2 ^ 32
  let m := min sz valueCount
  let e := (List.range m).foldl
    (fun e i => Function.update e i
      ⟨(MultiValueType.value (indices.getD i default)).ref,
       MultiValueType.weight (indices.getD i default)⟩) e
  (e, valueCount)

/-- A weighted-set attribute in which document 7 holds three entries and every other document
none. -/
def sampleAttr : MultiValueEnumAttribute WeightedValue :=
  { mvMapping := fun doc => if doc = 7 then [⟨⟨11⟩, 3⟩, ⟨⟨22⟩, 5⟩, ⟨⟨33⟩, 1⟩] else [] }

end MultiValueEnumAttribute

/-! ## SummaryEngine handler registry -/

namespace proton

/-- Modelled from the spec: the search-handler registry of `SummaryEngine`
(`summaryengine.h` and `summaryengine.cpp` are not among the sources, only the test
`requireThatHandlersAreStored` is): a map from document type name to handler. -/
structure SummaryEngine (H : Type) where
  handlers : String → Option H

namespace SummaryEngine

variable {H : Type}

/-- Modelled from the spec: a `SummaryEngine` right after construction, with no handler. -/
def empty : SummaryEngine H := { handlers := fun _ => none }

/-- Modelled from the spec: `SummaryEngine::getSearchHandler(docTypeName)`. -/
def getSearchHandler (e : SummaryEngine H) (docTypeName : String) : Option H :=
  e.handlers docTypeName

/-- Modelled from the spec: `SummaryEngine::putSearchHandler(docTypeName, handler)`: the handler
stored before, and the engine afterwards. -/
def putSearchHandler (e : SummaryEngine H) (docTypeName : String) (handler : H) :
    Option H × SummaryEngine H :=
  (e.handlers docTypeName, { handlers := Function.update e.handlers docTypeName (some handler) })

/-- Modelled from the spec: `SummaryEngine::removeSearchHandler(docTypeName)`: the handler
stored before, and the engine afterwards. -/
def removeSearchHandler (e : SummaryEngine H) (docTypeName : String) :
    Option H × SummaryEngine H :=
  (e.handlers docTypeName, { handlers := Function.update e.handlers docTypeName none })

end SummaryEngine

/-! ## DocsumContext -/

/-- `DocsumRequest::Hit`: the local document id of a requested summary (the global id is not
read by the code modelled here). -/
structure Hit where
  docid : Nat
  deriving DecidableEq, Repr, Inhabited

/-- The part of `DocsumRequest` that `DocsumContext` reads.  Time passes while the reply is
built, so `expired k` is what the call number `k` of `expired()` returns, and `timeLeftUs`
is `count_us(getTimeLeft())` at the call made after the loop. -/
structure DocsumRequest where
  hits : List Hit
  expired : Nat → Bool
  timeLeftUs : Int

/-- Modelled from the spec: the part of `ResultClass` used here (`resultclass.h` is not among
the sources). -/
structure ResultClass where
  omit_summary_features : Bool
  deriving DecidableEq, Repr

/-- Modelled from the spec: `IDocsumWriter::ResolveClassInfo` (`docsumwriter.h` is not among
the sources): `outputClass` is a pointer, `none` when it is null. -/
structure ResolveClassInfo where
  mustSkip : Bool
  outputClass : Option ResultClass
  deriving DecidableEq, Repr

/-- Modelled from the spec: the docsum writer `IDocsumWriter`, an external collaborator.  `σ` is
the state the writer keeps in `GetDocsumsState`, `D` what `insertDocsum` puts into the reply
under the symbol `docsum`. -/
structure DocsumWriter (σ D : Type) where
  InitState : σ → σ
  resolveClassInfo : ResolveClassInfo
  insertDocsum : ResolveClassInfo → σ → Nat → σ × D

/-- The fields of `GetDocsumsState` that `DocsumContext` sets, and the writer's part of it. -/
structure GetDocsumsState (σ : Type) where
  docsumcnt : Nat
  docsumbuf : List Nat
  omit_summary_features : Bool
  writer : σ

/-- The arguments of `make_string("Timed out %d summaries with %" PRId64 "us left.", ...)`. -/
structure TimeoutMessage where
  numTimedOut : Int
  timeLeftUs : Int
  deriving DecidableEq, Repr

/-- The text `make_string` builds for the timeout message. -/
def TimeoutMessage.text (m : TimeoutMessage) : String :=
  "Timed out " ++ toString m.numTimedOut ++ " summaries with " ++ toString m.timeLeftUs
    ++ "us left."

/-- An object of the `errors` array: its `type` and its `message`. -/
structure ErrorObject where
  type : String
  message : TimeoutMessage
  deriving DecidableEq, Repr

/-- The Slime reply: the `docsums` array, whose entries are objects that are empty (`none`) or
hold what the writer inserted, and the `errors` array when the root has that field. -/
structure SlimeReply (D : Type) where
  docsums : List (Option D)
  errors : Option (List ErrorObject)

/-- What `%d` prints for a 32-bit unsigned argument. -/
def asInt32 (x : Nat) : Int := if x < 2 ^ 31 then (x : Int) else (x : Int) - 2 ^ 32

/-- The timed-out count a reply reports: the count of its `errors` entry, 0 without one. -/
def SlimeReply.reportedTimedOut {D : Type} (r : SlimeReply D) : Int :=
  match r.errors with
  | some (e :: _) => e.message.numTimedOut
  | _ => 0

/-- `DocsumContext`: the request, the writer and the docsum state. -/
structure DocsumContext (σ D : Type) where
  request : DocsumRequest
  docsumWriter : DocsumWriter σ D
  docsumState : GetDocsumsState σ

namespace DocsumContext

variable {σ D : Type}

/-- `DocsumContext::initState()`: the count of hits, as a 32-bit value, and their document
ids. -/
def initState (ctx : DocsumContext σ D) : DocsumContext σ D :=
  let docsumcnt := ctx.request.hits.length % 2 ^ 32
  { ctx with docsumState :=
      { ctx.docsumState with
        docsumcnt := docsumcnt
        docsumbuf := (List.range docsumcnt).map fun i => (ctx.request.hits.getD i default).docid } }

/-- The constructor `DocsumContext::DocsumContext(...)`, which ends with `initState()`;
`writerState` is the writer's part of the fresh `GetDocsumsState`. -/
def create (request : DocsumRequest) (docsumWriter : DocsumWriter σ D) (writerState : σ) :
    DocsumContext σ D :=
  initState
    { request := request, docsumWriter := docsumWriter,
      docsumState := { docsumcnt := 0, docsumbuf := [], omit_summary_features := false,
                       writer := writerState } }

/-- The loop of `DocsumContext::createSlimeReply()`.  The state is the index `i`, the number of
calls of `expired()` made so far, the `docsums` array and the writer's state; `endDocId` is
`search::endDocId`. -/
def docsumLoop (endDocId : Nat) (request : DocsumRequest) (w : DocsumWriter σ D)
    (rci : ResolveClassInfo) (docsumcnt : Nat) (docsumbuf : List Nat) :
    Nat → Nat → Nat → List (Option D) → σ → Nat × Nat × List (Option D) × σ
  | 0, i, polls, array, ws => (i, polls, array, ws)
  | fuel + 1, i, polls, array, ws =>
      if i < docsumcnt then
        if request.expired polls then (i, polls + 1, array, ws)
        else
          let docId := docsumbuf.getD i 0
          if docId ≠ endDocId ∧ rci.mustSkip = false then
            let r := w.insertDocsum rci ws docId
            docsumLoop endDocId request w rci docsumcnt docsumbuf fuel (i + 1) (polls + 1)
              (array ++ [some r.2]) r.1
          else
            docsumLoop endDocId request w rci docsumcnt docsumbuf fuel (i + 1) (polls + 1)
              (array ++ [none]) ws
      else (i, polls, array, ws)

/-- `DocsumContext::createSlimeReply()`: the reply, the docsum state afterwards and the number
of calls of `expired()`; `none` when the null `rci.outputClass` is dereferenced. -/
def createSlimeReply (endDocId : Nat) (ctx : DocsumContext σ D) :
    Option (SlimeReply D × GetDocsumsState σ × Nat) :=
  let st := { ctx.docsumState with writer := ctx.docsumWriter.InitState ctx.docsumState.writer }
  let rci := ctx.docsumWriter.resolveClassInfo
  match rci.outputClass with
  | none => none
  | some outputClass =>
    let st := { st with omit_summary_features := outputClass.omit_summary_features }
    let r := docsumLoop endDocId ctx.request ctx.docsumWriter rci st.docsumcnt st.docsumbuf
      st.docsumcnt 0 0 [] st.writer
    let i := r.1
    let errors :=
      if i ≠ st.docsumcnt then
        let numTimedOut := (st.docsumcnt + 2 ^ 32 - i) % 2 ^ 32
        some [{ type := "timeout",
                message := { numTimedOut := asInt32 numTimedOut,
                             timeLeftUs := ctx.request.timeLeftUs } }]
      else none
    some ({ docsums := r.2.2.1, errors := errors }, { st with writer := r.2.2.2 }, r.2.1)

/-- The `docsums` entries for a list of document ids, in the words of the specification: an
empty object for the end-of-documents id or a class that must be skipped, otherwise what the
writer inserts for the id. -/
def docsumEntries (endDocId : Nat) (w : DocsumWriter σ D) (rci : ResolveClassInfo) :
    List Nat → σ → List (Option D)
  | [], _ => []
  | docId :: rest, ws =>
      if docId ≠ endDocId ∧ rci.mustSkip = false then
        some (w.insertDocsum rci ws docId).2
          :: docsumEntries endDocId w rci rest (w.insertDocsum rci ws docId).1
      else none :: docsumEntries endDocId w rci rest ws

end DocsumContext

/-- A writer that inserts the document id itself and keeps no state. -/
def sampleWriter (mustSkip : Bool) : DocsumWriter Unit Nat :=
  { InitState := fun s => s,
    resolveClassInfo := { mustSkip := mustSkip, outputClass := some ⟨false⟩ },
    insertDocsum := fun _ s docId => (s, docId) }

/-- A request for three summaries that expires when `expired()` is called the third time. -/
def sampleRequest : DocsumRequest :=
  { hits := [⟨5⟩, ⟨7⟩, ⟨9⟩], expired := fun k => decide (2 ≤ k), timeLeftUs := -3 }

end proton

/-! ## The reported count of set bits -/

namespace BitVector

/-- Modelled from the spec: `BitVector::countTrueBits()`: the cached count of set bits, or,
when the cache is invalid, the count of `count()`, which is then stored in the cache.  The
result is the reported count and the vector with its cache afterwards. -/
def countTrueBits (b : BitVector) : Nat × BitVector :=
  if b.numTrueBits = invalidCount then (b.count, { b with numTrueBits := b.count })
  else (b.numTrueBits, b)

/-- The number of set bits at the positions `[0, size())`. -/
def setBitsBelowSize (b : BitVector) : Nat :=
  ((List.range b.sz).filter fun i => b.testBit i).length

end BitVector

/-! ## DocumentDBConfig -/

namespace proton

/-- A non-null `std::shared_ptr<const T>`: the address of the object and the object, which
nobody changes while it is shared. -/
structure Shared (α : Type) where
  addr : Nat
  val : α
  deriving DecidableEq, Repr

/-- A `std::shared_ptr<const T>`; `none` is the null pointer. -/
abbrev SP (α : Type) : Type := Option (Shared α)

/-- The classes of the objects a `DocumentDBConfig` refers to. -/
inductive ConfigClass where
  | RankProfilesConfig
  | RankingConstants
  | RankingExpressions
  | OnnxModels
  | IndexschemaConfig
  | AttributesConfig
  | SummaryConfig
  | SummarymapConfig
  | JuniperrcConfig
  | DocumenttypesConfig
  | DocumentTypeRepo
  | ImportedFieldsConfig
  | TuneFileDocumentDB
  | Schema
  | DocumentDBMaintenanceConfig
  | LogDocumentStoreConfig
  | ThreadingServiceConfig
  | AllocConfig
  deriving DecidableEq, Repr

/-- Modelled from the spec: the classes of `ConfigClass` are declared in headers that are not
among the sources.  `content c` is the type of the content of an object of class `c`,
`operator==` of a class is equality of content and `operator!=` its negation, `make c` is the
content of a default-constructed object, and the two getters of `DocumentDBMaintenanceConfig`
that `compare` calls read the content. -/
structure ConfigClasses where
  content : ConfigClass → Type
  eq : ∀ c, DecidableEq (content c)
  make : ∀ c, content c
  VisibilityDelay : Type
  eqVisibilityDelay : DecidableEq VisibilityDelay
  getVisibilityDelay : content .DocumentDBMaintenanceConfig → VisibilityDelay
  FlushConfig : Type
  eqFlushConfig : DecidableEq FlushConfig
  getFlushConfig : content .DocumentDBMaintenanceConfig → FlushConfig

instance (K : ConfigClasses) (c : ConfigClass) : DecidableEq (K.content c) := K.eq c

instance (K : ConfigClasses) : DecidableEq K.VisibilityDelay := K.eqVisibilityDelay

instance (K : ConfigClasses) : DecidableEq K.FlushConfig := K.eqFlushConfig

/-- The members of `DocumentDBConfig`.  `orig` is the shared pointer `_orig` to another
`DocumentDBConfig`, given by the address of that object among the shared configs of a
`ConfigHeap`. -/
structure DocumentDBConfig (K : ConfigClasses) where
  configId : String
  docTypeName : String
  generation : Int
  rankProfiles : SP (K.content .RankProfilesConfig)
  rankingConstants : SP (K.content .RankingConstants)
  rankingExpressions : SP (K.content .RankingExpressions)
  onnxModels : SP (K.content .OnnxModels)
  indexschema : SP (K.content .IndexschemaConfig)
  attributes : SP (K.content .AttributesConfig)
  summary : SP (K.content .SummaryConfig)
  summarymap : SP (K.content .SummarymapConfig)
  juniperrc : SP (K.content .JuniperrcConfig)
  documenttypes : SP (K.content .DocumenttypesConfig)
  repo : SP (K.content .DocumentTypeRepo)
  importedFields : SP (K.content .ImportedFieldsConfig)
  tuneFileDocumentDB : SP (K.content .TuneFileDocumentDB)
  schema : SP (K.content .Schema)
  maintenance : SP (K.content .DocumentDBMaintenanceConfig)
  storeConfig : K.content .LogDocumentStoreConfig
  threading_service_config : SP (K.content .ThreadingServiceConfig)
  alloc_config : SP (K.content .AllocConfig)
  orig : Option Nat
  delayedAttributeAspects : Bool

/-- The objects made by `std::make_shared`: the shared `DocumentDBConfig` objects, each at the
address that is its position, and the address the next object of a config class gets. -/
structure ConfigHeap (K : ConfigClasses) where
  configs : List (DocumentDBConfig K)
  nextAddr : Nat

namespace DocumentDBConfig

variable {K : ConfigClasses}

/-- `DocumentDBConfig::ComparisonResult`. -/
structure ComparisonResult where
  rankProfilesChanged : Bool
  rankingConstantsChanged : Bool
  rankingExpressionsChanged : Bool
  onnxModelsChanged : Bool
  indexschemaChanged : Bool
  attributesChanged : Bool
  summaryChanged : Bool
  summarymapChanged : Bool
  juniperrcChanged : Bool
  documenttypesChanged : Bool
  documentTypeRepoChanged : Bool
  importedFieldsChanged : Bool
  tuneFileDocumentDBChanged : Bool
  schemaChanged : Bool
  maintenanceChanged : Bool
  storeChanged : Bool
  visibilityDelayChanged : Bool
  flushChanged : Bool
  threading_service_config_changed : Bool
  alloc_config_changed : Bool
  deriving DecidableEq, Repr

/-- `DocumentDBConfig::ComparisonResult::ComparisonResult()`. -/
def ComparisonResult.create : ComparisonResult :=
  { rankProfilesChanged := false,
    rankingConstantsChanged := false,
    rankingExpressionsChanged := false,
    onnxModelsChanged := false,
    indexschemaChanged := false,
    attributesChanged := false,
    summaryChanged := false,
    summarymapChanged := false,
    juniperrcChanged := false,
    documenttypesChanged := false,
    documentTypeRepoChanged := false,
    importedFieldsChanged := false,
    tuneFileDocumentDBChanged := false,
    schemaChanged := false,
    maintenanceChanged := false,
    storeChanged := false,
    visibilityDelayChanged := false,
    flushChanged := false,
    threading_service_config_changed := false,
    alloc_config_changed := false }

/-- The component flags of a `ComparisonResult`, all but the two derived from the maintenance
config (`visibilityDelayChanged`, `flushChanged`). -/
def ComparisonResult.componentFlags (r : ComparisonResult) : List Bool :=
  [r.rankProfilesChanged, r.rankingConstantsChanged, r.rankingExpressionsChanged,
   r.onnxModelsChanged, r.indexschemaChanged, r.attributesChanged, r.summaryChanged,
   r.summarymapChanged, r.juniperrcChanged, r.documenttypesChanged, r.documentTypeRepoChanged,
   r.importedFieldsChanged, r.tuneFileDocumentDBChanged, r.schemaChanged, r.maintenanceChanged,
   r.storeChanged, r.threading_service_config_changed, r.alloc_config_changed]

/-- Modelled from the spec: the member template `equals<T>(lhs, rhs, isEqual)` of
`documentdbconfig.h`, which is not among the sources: two null pointers are equal, a null and
a non-null pointer are not, and two objects are compared by `isEqual`. -/
def equalsBy {α : Type} (lhs rhs : SP α) (isEqual : α → α → Bool) : Bool :=
  match lhs with
  | none => rhs.isNone
  | some l =>
    match rhs with
    | none => false
    | some r => isEqual l.val r.val

/-- Modelled from the spec: the member template `equals<T>(lhs, rhs)` of `documentdbconfig.h`:
`equals` with `operator==` of `T`. -/
def equals {α : Type} [DecidableEq α] (lhs rhs : SP α) : Bool :=
  equalsBy lhs rhs fun l r => decide (l = r)

/-- The pointer `p.get()`; `none` is `nullptr`. -/
def get {α : Type} (p : SP α) : Option Nat := p.map Shared.addr

/-- The constructor of `DocumentDBConfig` from its parts. -/
def create (generation : Int)
    (rankProfiles : SP (K.content .RankProfilesConfig))
    (rankingConstants : SP (K.content .RankingConstants))
    (rankingExpressions : SP (K.content .RankingExpressions))
    (onnxModels : SP (K.content .OnnxModels))
    (indexschema : SP (K.content .IndexschemaConfig))
    (attributes : SP (K.content .AttributesConfig))
    (summary : SP (K.content .SummaryConfig))
    (summarymap : SP (K.content .SummarymapConfig))
    (juniperrc : SP (K.content .JuniperrcConfig))
    (documenttypes : SP (K.content .DocumenttypesConfig))
    (repo : SP (K.content .DocumentTypeRepo))
    (importedFields : SP (K.content .ImportedFieldsConfig))
    (tuneFileDocumentDB : SP (K.content .TuneFileDocumentDB))
    (schema : SP (K.content .Schema))
    (maintenance : SP (K.content .DocumentDBMaintenanceConfig))
    (storeConfig : K.content .LogDocumentStoreConfig)
    (threading_service_config : SP (K.content .ThreadingServiceConfig))
    (alloc_config : SP (K.content .AllocConfig))
    (configId docTypeName : String) : DocumentDBConfig K :=
  { configId := configId,
    docTypeName := docTypeName,
    generation := generation,
    rankProfiles := rankProfiles,
    rankingConstants := rankingConstants,
    rankingExpressions := rankingExpressions,
    onnxModels := onnxModels,
    indexschema := indexschema,
    attributes := attributes,
    summary := summary,
    summarymap := summarymap,
    juniperrc := juniperrc,
    documenttypes := documenttypes,
    repo := repo,
    importedFields := importedFields,
    tuneFileDocumentDB := tuneFileDocumentDB,
    schema := schema,
    maintenance := maintenance,
    storeConfig := storeConfig,
    threading_service_config := threading_service_config,
    alloc_config := alloc_config,
    orig := none,
    delayedAttributeAspects := false }

/-- `DocumentDBConfig::operator==`. -/
def eq (self rhs : DocumentDBConfig K) : Bool :=
  equals self.rankProfiles rhs.rankProfiles &&
  equals self.rankingConstants rhs.rankingConstants &&
  equals self.rankingExpressions rhs.rankingExpressions &&
  equals self.onnxModels rhs.onnxModels &&
  equals self.indexschema rhs.indexschema &&
  equals self.attributes rhs.attributes &&
  equals self.summary rhs.summary &&
  equals self.summarymap rhs.summarymap &&
  equals self.juniperrc rhs.juniperrc &&
  equals self.documenttypes rhs.documenttypes &&
  decide (get self.repo = get rhs.repo) &&
  equals self.importedFields rhs.importedFields &&
  equals self.tuneFileDocumentDB rhs.tuneFileDocumentDB &&
  equals self.schema rhs.schema &&
  equals self.maintenance rhs.maintenance &&
  decide (self.storeConfig = rhs.storeConfig) &&
  equals self.threading_service_config rhs.threading_service_config &&
  equals self.alloc_config rhs.alloc_config

/-- `DocumentDBConfig::compare`: every flag of the default-constructed `retval` is assigned
once; `none` when a null `_maintenance` is dereferenced for its visibility delay. -/
def compare (self rhs : DocumentDBConfig K) : Option ComparisonResult :=
  match self.maintenance, rhs.maintenance with
  | some l, some r =>
    some
      { ComparisonResult.create with
        rankProfilesChanged := !equals self.rankProfiles rhs.rankProfiles,
        rankingConstantsChanged := !equals self.rankingConstants rhs.rankingConstants,
        rankingExpressionsChanged := !equals self.rankingExpressions rhs.rankingExpressions,
        onnxModelsChanged := !equals self.onnxModels rhs.onnxModels,
        indexschemaChanged := !equals self.indexschema rhs.indexschema,
        attributesChanged := !equals self.attributes rhs.attributes,
        summaryChanged := !equals self.summary rhs.summary,
        summarymapChanged := !equals self.summarymap rhs.summarymap,
        juniperrcChanged := !equals self.juniperrc rhs.juniperrc,
        documenttypesChanged := !equals self.documenttypes rhs.documenttypes,
        documentTypeRepoChanged := decide (get self.repo ≠ get rhs.repo),
        importedFieldsChanged := !equals self.importedFields rhs.importedFields,
        tuneFileDocumentDBChanged := !equals self.tuneFileDocumentDB rhs.tuneFileDocumentDB,
        schemaChanged := !equals self.schema rhs.schema,
        maintenanceChanged := !equals self.maintenance rhs.maintenance,
        storeChanged := decide (self.storeConfig ≠ rhs.storeConfig),
        visibilityDelayChanged :=
          decide (K.getVisibilityDelay l.val ≠ K.getVisibilityDelay r.val),
        flushChanged := !equalsBy self.maintenance rhs.maintenance
          fun l r => decide (K.getFlushConfig l = K.getFlushConfig r),
        threading_service_config_changed :=
          !equals self.threading_service_config rhs.threading_service_config,
        alloc_config_changed := !equals self.alloc_config rhs.alloc_config }
  | _, _ => none

/-- `DocumentDBConfig::valid()`. -/
def valid (self : DocumentDBConfig K) : Bool :=
  self.rankProfiles.isSome &&
  self.rankingConstants.isSome &&
  self.rankingExpressions.isSome &&
  self.onnxModels.isSome &&
  self.indexschema.isSome &&
  self.attributes.isSome &&
  self.summary.isSome &&
  self.summarymap.isSome &&
  self.juniperrc.isSome &&
  self.documenttypes.isSome &&
  self.repo.isSome &&
  self.importedFields.isSome &&
  self.tuneFileDocumentDB.isSome &&
  self.schema.isSome &&
  self.maintenance.isSome &&
  self.threading_service_config.isSome &&
  self.alloc_config.isSome

/-- `std::make_shared<Config>()` for a config class: a new default-constructed object. -/
def make_shared (h : ConfigHeap K) (c : ConfigClass) : ConfigHeap K × Shared (K.content c) :=
  ({ h with nextAddr := h.nextAddr + 1 }, { addr := h.nextAddr, val := K.make c })

/-- `emptyConfig(config)` of `documentdbconfig.cpp`. -/
def emptyConfig (h : ConfigHeap K) (c : ConfigClass) (config : SP (K.content c)) :
    ConfigHeap K × SP (K.content c) :=
  let (h, empty) := make_shared h c
  match config with
  | none => (h, some empty)
  | some cfg => if cfg.val ≠ empty.val then (h, some empty) else (h, config)

/-- `DocumentDBConfig::makeReplayConfig(orig)`: the heap afterwards and the returned pointer;
`none` when `orig` cannot be dereferenced. -/
def makeReplayConfig (h : ConfigHeap K) (orig : Option Nat) :
    Option (ConfigHeap K × Option Nat) :=
  match orig with
  | none => none
  | some a =>
    match h.configs[a]? with
    | none => none
    | some o =>
      let (h, rankProfiles) := emptyConfig h .RankProfilesConfig o.rankProfiles
      let (h, rankingConstants) := make_shared h .RankingConstants
      let (h, rankingExpressions) := make_shared h .RankingExpressions
      let (h, onnxModels) := make_shared h .OnnxModels
      let (h, summarymap) := make_shared h .SummarymapConfig
      let (h, importedFields) := make_shared h .ImportedFieldsConfig
      let ret := create o.generation rankProfiles (some rankingConstants)
        (some rankingExpressions) (some onnxModels) o.indexschema o.attributes o.summary
        (some summarymap) o.juniperrc o.documenttypes o.repo (some importedFields)
        o.tuneFileDocumentDB o.schema o.maintenance o.storeConfig o.threading_service_config
        o.alloc_config o.configId o.docTypeName
      let ret := { ret with orig := orig }
      some ({ h with configs := h.configs ++ [ret] }, some h.configs.length)

/-- `DocumentDBConfig::getOriginalConfig()`. -/
def getOriginalConfig (self : DocumentDBConfig K) : Option Nat := self.orig

/-- `DocumentDBConfig::preferOriginalConfig(self)`; `none` when a pointer that is not null
cannot be dereferenced. -/
def preferOriginalConfig (h : ConfigHeap K) (self : Option Nat) : Option (Option Nat) :=
  match self with
  | none => some self
  | some a =>
    match h.configs[a]? with
    | none => none
    | some s => if s.orig.isSome then some s.orig else some self

/-- Config classes whose content is a number, with 0 the content of a default-constructed
object; a maintenance config holds its visibility delay in the low decimal digit and its flush
config in the next one. -/
def sampleClasses : ConfigClasses :=
  { content := fun _ => Nat,
    eq := fun _ => inferInstance,
    make := fun _ => 0,
    VisibilityDelay := Nat,
    eqVisibilityDelay := inferInstance,
    getVisibilityDelay := fun (m : Nat) => m % 10,
    FlushConfig := Nat,
    eqFlushConfig := inferInstance,
    getFlushConfig := fun (m : Nat) => m / 10 % 10 }

/-- A valid config over `sampleClasses`: every pointer leads to an object of its own with
content 3, and there is no original config. -/
def sampleConfig : DocumentDBConfig sampleClasses :=
  create (K := sampleClasses) 4 (some ⟨1, (3 : Nat)⟩) (some ⟨2, (3 : Nat)⟩) (some ⟨3, (3 : Nat)⟩)
    (some ⟨4, (3 : Nat)⟩) (some ⟨5, (3 : Nat)⟩) (some ⟨6, (3 : Nat)⟩) (some ⟨7, (3 : Nat)⟩)
    (some ⟨8, (3 : Nat)⟩) (some ⟨9, (3 : Nat)⟩) (some ⟨10, (3 : Nat)⟩) (some ⟨11, (3 : Nat)⟩)
    (some ⟨12, (3 : Nat)⟩) (some ⟨13, (3 : Nat)⟩) (some ⟨14, (3 : Nat)⟩) (some ⟨15, (3 : Nat)⟩)
    (3 : Nat) (some ⟨16, (3 : Nat)⟩) (some ⟨17, (3 : Nat)⟩) "id" "type"

/-- A heap holding `sampleConfig` at address 0. -/
def sampleHeap : ConfigHeap sampleClasses := { configs := [sampleConfig], nextAddr := 18 }

end DocumentDBConfig

end proton

/-! ## FlattenDocsumWriter -/

namespace vsm

/-- The part of a `document::FieldValue` that `FlattenDocsumWriter::onPrimitive` reads (the
field value classes are not among the sources): whether its class inherits
`LiteralFieldValueB`, `NumericFieldValueBase`, `BoolFieldValue`, and what `getValueRef()`,
`getAsString()` and `toString()` return. -/
structure FieldValue where
  inheritsLiteral : Bool
  inheritsNumeric : Bool
  inheritsBool : Bool
  getValueRef : String
  getAsString : String
  toString : String
  deriving DecidableEq, Repr

/-- The members of `FlattenDocsumWriter`; `output` is the content written to the `CharBuf`
`_output` so far. -/
structure FlattenDocsumWriter where
  output : String
  separator : String
  useSeparator : Bool
  deriving DecidableEq, Repr

namespace FlattenDocsumWriter

/-- `FlattenDocsumWriter::FlattenDocsumWriter(separator)`. -/
def create (separator : String) : FlattenDocsumWriter :=
  { output := "", separator := separator, useSeparator := false }

/-- `FlattenDocsumWriter::considerSeparator()`. -/
def considerSeparator (w : FlattenDocsumWriter) : FlattenDocsumWriter :=
  if w.useSeparator then { w with output := w.output ++ w.separator } else w

/-- `FlattenDocsumWriter::onPrimitive(id, c)`, with `fv` the value of the content `c`. -/
def onPrimitive (w : FlattenDocsumWriter) (fv : FieldValue) : FlattenDocsumWriter :=
  let w := w.considerSeparator
  let w :=
    if fv.inheritsLiteral then
      { w with output := w.output ++ fv.getValueRef }
    else if fv.inheritsNumeric || fv.inheritsBool then
      { w with output := w.output ++ fv.getAsString }
    else
      { w with output := w.output ++ fv.toString }
  { w with useSeparator := true }

/-- The text of a primitive field value in the words of the specification: the raw value for a
literal field, `getAsString` for a numeric or bool field, `toString` otherwise. -/
def text (fv : FieldValue) : String :=
  if fv.inheritsLiteral then fv.getValueRef
  else if fv.inheritsNumeric || fv.inheritsBool then fv.getAsString
  else fv.toString

/-- A literal, a numeric and a struct-like field value. -/
def sampleValues : List FieldValue :=
  [{ inheritsLiteral := true, inheritsNumeric := false, inheritsBool := false,
     getValueRef := "foo", getAsString := "foo", toString := "foo" },
   { inheritsLiteral := false, inheritsNumeric := true, inheritsBool := false,
     getValueRef := "", getAsString := "42", toString := "42" },
   { inheritsLiteral := false, inheritsNumeric := false, inheritsBool := false,
     getValueRef := "", getAsString := "", toString := "Pos(1, 2)" }]

end FlattenDocsumWriter

end vsm

/-! ## Aggregator -/

namespace vespamalloc

/-- The member `_map` of `Aggregator`, of type `Aggregator::Map`, a vector of pairs of a count
and a text (`traceutil.h` is not among the sources). -/
structure Aggregator where
  map : List (Nat × String)
  deriving DecidableEq, Repr

/-- `CmpGraph::operator()`. -/
def CmpGraph (a b : Nat × String) : Bool := decide (a.1 < b.1)

/-- The `std::sort(first, last, comp)` of the C++ library: the elements reordered so that no
element is followed by one that `comp` puts before it.  The library leaves the order of
elements that `comp` does not separate open; this is an insertion sort. -/
def sort (comp : Nat × String → Nat × String → Bool) (l : List (Nat × String)) :
    List (Nat × String) :=
  l.insertionSort fun a b => comp b a = false

/-- The characters a `const char *` from `c_str()` shows to `operator<<`: those before the
first NUL character. -/
def c_str (s : String) : String := String.mk (s.toList.takeWhile fun c => c ≠ Char.ofNat 0)

/-- The line `operator<<` writes for an entry in the words of the specification. -/
def line (e : Nat × String) : String := toString e.1 ++ " : " ++ c_str e.2 ++ "\n"

/-- The `operator<<(asciistream & os, const Aggregator & v)`: the content of the stream and the
aggregator after the call. -/
def shiftLeft (os : String) (v : Aggregator) : String × Aggregator :=
  let map := v.map
  let map := sort CmpGraph map
  let os := map.foldl (fun os it => os ++ toString it.1 ++ " : " ++ c_str it.2 ++ "\n") os
  (os, v)

/-- An aggregator with three entries, not in the order of the counts. -/
def sampleAggregator : Aggregator := { map := [(5, "a"), (2, "b"), (9, "c")] }

end vespamalloc

/-! ## HandlerThread -/

namespace vbench

/-- The assertion that can stop the modelled code. -/
inductive Failure where
  /-- `assert(_queue.empty())` in `HandlerThread<T>::~HandlerThread`. -/
  | queueNotEmpty
  deriving DecidableEq, Repr

/-- The state of a `HandlerThread<T>`: the queue `_queue` (front first) and the flag `_done`,
both only accessed under `_lock`; the objects passed to `_next.handle` so far, oldest
first; and whether `run` has returned. -/
structure HandlerThread (T : Type) where
  queue : List T
  done : Bool
  next : List T
  returned : Bool
  deriving DecidableEq, Repr

/-- What the threads using a `HandlerThread<T>` do to it, one critical section at a time:
a call of `handle(obj)`, the locked block of `join()`, and one round of the loop of `run()`. -/
inductive Action (T : Type) where
  | handle (obj : T)
  | join
  | run
  deriving DecidableEq, Repr

namespace HandlerThread

variable {T : Type}

/-- `HandlerThread<T>::HandlerThread(next)`: an empty queue, and the thread of `run` started. -/
def create : HandlerThread T := { queue := [], done := false, next := [], returned := false }

/-- `HandlerThread<T>::handle(obj)`. -/
def handle (s : HandlerThread T) (obj : T) : HandlerThread T :=
  if !s.done then { s with queue := s.queue ++ [obj] } else s

/-- The locked block of `HandlerThread<T>::join()`. -/
def joinLocked (s : HandlerThread T) : HandlerThread T := { s with done := true }

/-- One round of the loop `for (;;)` of `HandlerThread<T>::run()`: with nothing to do and
`_done` not set the thread waits on `_cond` and the state stays as it is; with `_done` set and
the queue empty `run` returns; otherwise the front object leaves the queue and goes to
`_next.handle`.  After `run` has returned there are no more rounds. -/
def runRound (s : HandlerThread T) : HandlerThread T :=
  if s.returned then s
  else
    match s.queue with
    | [] => if s.done then { s with returned := true } else s
    | obj :: rest => { s with queue := rest, next := s.next ++ [obj] }

/-- The effect of one action. -/
def step (s : HandlerThread T) : Action T → HandlerThread T
  | .handle obj => s.handle obj
  | .join => s.joinLocked
  | .run => s.runRound

/-- The effect of a sequence of actions, in the order in which they take `_lock`. -/
def exec (s : HandlerThread T) (actions : List (Action T)) : HandlerThread T :=
  actions.foldl step s

/-- The objects a sequence of actions hands to `handle` before `_done` is set. -/
def accepted : Bool → List (Action T) → List T
  | _, [] => []
  | done, .handle obj :: rest => if done then accepted done rest else obj :: accepted done rest
  | _, .join :: rest => accepted true rest
  | done, .run :: rest => accepted done rest

/-- The thread of `run()` left alone: rounds of the loop until `run` returns; `none` if it has
not returned within `fuel` rounds. -/
def run : Nat → HandlerThread T → Option (HandlerThread T)
  | 0, s => if s.returned then some s else none
  | fuel + 1, s => if s.returned then some s else run fuel s.runRound

/-- `HandlerThread<T>::~HandlerThread()`: `join()` sets `_done` and waits for the thread of
`run`, then the queue is asserted to be empty.  `none` if `run` has not returned within `fuel`
rounds. -/
def destroy (fuel : Nat) (s : HandlerThread T) : Option (Except Failure (HandlerThread T)) :=
  (run fuel s.joinLocked).map fun s =>
    if s.queue.isEmpty then .ok s else .error .queueNotEmpty

end HandlerThread

end vbench

/-! ## Word-level facts -/

theorem bitNum_lt (idx : Nat) : bitNum idx < 64 := Nat.mod_lt _ (by decide)

theorem and_mask_ne_zero (w idx : Nat) : ((w &&& mask idx) != 0) = w.testBit (bitNum idx) := by
  unfold mask
  rw [Nat.one_shiftLeft, Nat.and_two_pow]
  cases h : w.testBit (bitNum idx) <;> simp

theorem testBit_or_mask (w idx k : Nat) :
    (w ||| mask idx).testBit k = (w.testBit k || decide (bitNum idx = k)) := by
  unfold mask
  rw [Nat.testBit_or, Nat.one_shiftLeft, Nat.testBit_two_pow]

theorem testBit_allBits (k : Nat) : allBits.testBit k = decide (k < 64) := by
  unfold allBits
  rw [Nat.testBit_two_pow_sub_one]

theorem testBit_notWord (w k : Nat) (hk : k < 64) : (notWord w).testBit k = !w.testBit k := by
  unfold notWord
  rw [Nat.testBit_xor, testBit_allBits]
  simp [hk]

theorem testBit_and_not_mask (w idx k : Nat) (hk : k < 64) :
    (w &&& notWord (mask idx)).testBit k = (w.testBit k && !decide (bitNum idx = k)) := by
  rw [Nat.testBit_and, testBit_notWord _ _ hk]
  unfold mask
  rw [Nat.one_shiftLeft, Nat.testBit_two_pow]

theorem testBit_startBits (idx k : Nat) : (startBits idx).testBit k = decide (k < bitNum idx) := by
  have hb := bitNum_lt idx
  unfold startBits allBits WordLen
  rw [Nat.testBit_shiftRight, Nat.testBit_shiftRight, Nat.testBit_two_pow_sub_one]
  congr 1
  apply propext
  omega

theorem testBit_endBits (idx k : Nat) :
    (endBits idx).testBit k = (decide (k < 64) && decide (bitNum idx < k)) := by
  have hb := bitNum_lt idx
  unfold endBits
  rw [Nat.testBit_mod_two_pow, Nat.testBit_shiftLeft]
  have h2 : allBits - 1 = 2 * (2 ^ 63 - 1) := by decide
  by_cases h1 : k < 64
  · by_cases h3 : bitNum idx < k
    · have h4 : (allBits - 1).testBit (k - bitNum idx) = true := by
        obtain ⟨d, hd⟩ : ∃ d, k - bitNum idx = d + 1 := ⟨k - bitNum idx - 1, by omega⟩
        rw [hd, h2, Nat.testBit_succ]
        simp only [Nat.mul_div_cancel_left _ (by decide : 0 < 2)]
        rw [Nat.testBit_two_pow_sub_one]
        simp only [decide_eq_true_eq]
        omega
      simp [h1, h3, h4, Nat.le_of_lt h3]
    · by_cases h5 : k = bitNum idx
      · subst h5
        have : (allBits - 1).testBit 0 = false := by decide
        simp [h1, this]
      · have : ¬ (k ≥ bitNum idx) := by omega
        simp [h1, h3, this]
  · simp [h1]

/-! ## Memory facts -/

theorem getD_set (l : List Nat) (i j a : Nat) :
    (l.set i a).getD j 0 = if i = j ∧ i < l.length then a else l.getD j 0 := by
  rw [List.getD_eq_getElem?_getD, List.getD_eq_getElem?_getD, List.getElem?_set]
  by_cases h : i = j
  · subst h
    by_cases h2 : i < l.length
    · simp [h2]
    · simp [h2, List.getElem?_eq_none (Nat.le_of_not_lt h2)]
  · simp [h]

theorem length_zeroWords (buf : List Nat) (start count : Nat) :
    (zeroWords buf start count).length = buf.length := by
  induction count generalizing buf start with
  | zero => rfl
  | succ n ih => simp [zeroWords, ih]

theorem getD_of_le (l : List Nat) (i : Nat) (h : l.length ≤ i) : l.getD i 0 = 0 := by
  rw [List.getD_eq_getElem?_getD, List.getElem?_eq_none h]; rfl

theorem getD_zeroWords (buf : List Nat) (start count j : Nat) :
    (zeroWords buf start count).getD j 0
      = if start ≤ j ∧ j < start + count then 0 else buf.getD j 0 := by
  induction count generalizing buf start with
  | zero =>
    have : ¬ (start ≤ j ∧ j < start + 0) := by omega
    rw [zeroWords, if_neg this]
  | succ n ih =>
    rw [zeroWords, ih, getD_set]
    by_cases h3 : start + 1 ≤ j ∧ j < start + 1 + n
    · have : start ≤ j ∧ j < start + (n + 1) := by omega
      rw [if_pos h3, if_pos this]
    · rw [if_neg h3]
      by_cases h1 : start = j
      · subst h1
        have h4 : start ≤ start ∧ start < start + (n + 1) := by omega
        rw [if_pos h4]
        by_cases h2 : start < buf.length
        · rw [if_pos ⟨rfl, h2⟩]
        · rw [if_neg (fun h => h2 h.2), getD_of_le _ _ (Nat.le_of_not_lt h2)]
      · have : ¬ (start ≤ j ∧ j < start + (n + 1)) := by omega
        rw [if_neg (fun h => h1 h.1), if_neg this]

theorem length_copyWords (dst src : List Nat) (dstAt srcAt count : Nat) :
    (copyWords dst src dstAt srcAt count).length = dst.length := by
  induction count generalizing dst dstAt srcAt with
  | zero => rfl
  | succ n ih => simp [copyWords, ih]

theorem getD_copyWords (dst src : List Nat) (dstAt srcAt count j : Nat) :
    (copyWords dst src dstAt srcAt count).getD j 0
      = if dstAt ≤ j ∧ j < dstAt + count ∧ j < dst.length then src.getD (srcAt + (j - dstAt)) 0
        else dst.getD j 0 := by
  induction count generalizing dst dstAt srcAt with
  | zero =>
    have : ¬ (dstAt ≤ j ∧ j < dstAt + 0 ∧ j < dst.length) := by omega
    rw [copyWords, if_neg this]
  | succ n ih =>
    rw [copyWords, ih, getD_set, List.length_set]
    by_cases h3 : dstAt + 1 ≤ j ∧ j < dstAt + 1 + n ∧ j < dst.length
    · have h4 : dstAt ≤ j ∧ j < dstAt + (n + 1) ∧ j < dst.length := by omega
      have h5 : srcAt + 1 + (j - (dstAt + 1)) = srcAt + (j - dstAt) := by omega
      rw [if_pos h3, if_pos h4, h5]
    · rw [if_neg h3]
      by_cases h1 : dstAt = j
      · subst h1
        by_cases h2 : dstAt < dst.length
        · have h4 : dstAt ≤ dstAt ∧ dstAt < dstAt + (n + 1) ∧ dstAt < dst.length := by omega
          rw [if_pos ⟨rfl, h2⟩, if_pos h4, Nat.sub_self, Nat.add_zero]
        · have h4 : ¬ (dstAt ≤ dstAt ∧ dstAt < dstAt + (n + 1) ∧ dstAt < dst.length) := by omega
          rw [if_neg (fun h => h2 h.2), if_neg h4]
      · have h4 : ¬ (dstAt ≤ j ∧ j < dstAt + (n + 1) ∧ j < dst.length) := by omega
        rw [if_neg (fun h => h1 h.1), if_neg h4]

/-! ## Bit-level facts about `BitVector` -/

namespace BitVector

theorem testBit_eq (b : BitVector) (j : Nat) :
    b.testBit j = (b.word (j / 64)).testBit (j % 64) := by
  unfold testBit
  rw [and_mask_ne_zero]
  rfl

theorem word_setWord (b : BitVector) (k w k2 : Nat) :
    (b.setWord k w).word k2 = if k = k2 ∧ b.words + k < b.mem.length then w else b.word k2 := by
  unfold setWord word
  simp only [getD_set]
  by_cases h : k = k2
  · subst h; simp
  · have : ¬ (b.words + k = b.words + k2) := by omega
    simp [h, this]

theorem testBit_setBit (b : BitVector) (i j : Nat) (h : b.words + i / 64 < b.mem.length) :
    (b.setBit i).testBit j = (decide (j = i) || b.testBit j) := by
  rw [testBit_eq, testBit_eq]
  unfold setBit
  rw [word_setWord]
  simp only [wordNum, bitNum, WordLen] at *
  by_cases h1 : i / 64 = j / 64
  · rw [if_pos ⟨h1, h⟩, testBit_or_mask, h1]
    have : (bitNum i = j % 64) ↔ (j = i) := by
      simp only [bitNum, WordLen]; omega
    simp only [this, Bool.or_comm]
  · have : ¬ (j = i) := fun e => h1 (by rw [e])
    simp [h1, this]

theorem testBit_clearBit (b : BitVector) (i j : Nat) (h : b.words + i / 64 < b.mem.length) :
    (b.clearBit i).testBit j = (!decide (j = i) && b.testBit j) := by
  rw [testBit_eq, testBit_eq]
  unfold clearBit
  rw [word_setWord]
  simp only [wordNum, bitNum, WordLen] at *
  by_cases h1 : i / 64 = j / 64
  · rw [if_pos ⟨h1, h⟩, testBit_and_not_mask _ _ _ (Nat.mod_lt _ (by decide)), h1]
    have : (bitNum i = j % 64) ↔ (j = i) := by
      simp only [bitNum, WordLen]; omega
    simp only [this, Bool.and_comm]
  · have : ¬ (j = i) := fun e => h1 (by rw [e])
    simp [h1, this]

end BitVector

namespace BitVector

theorem testBit_of_word_eq (b c : BitVector) (j : Nat) (h : c.word (j / 64) = b.word (j / 64)) :
    c.testBit j = b.testBit j := by
  rw [testBit_eq, testBit_eq, h]

theorem word_zeroWords (b : BitVector) (start count k : Nat) :
    ({ b with mem := zeroWords b.mem (b.words + start) count } : BitVector).word k
      = if start ≤ k ∧ k < start + count then 0 else b.word k := by
  unfold word
  simp only []
  rw [getD_zeroWords]
  by_cases h : start ≤ k ∧ k < start + count
  · have : b.words + start ≤ b.words + k ∧ b.words + k < b.words + start + count := by omega
    rw [if_pos h, if_pos this]
  · have : ¬ (b.words + start ≤ b.words + k ∧ b.words + k < b.words + start + count) := by omega
    rw [if_neg h, if_neg this]

theorem testBit_clearIntervalNoInvalidation (b : BitVector) (start end_ j : Nat)
    (h : b.words + (min end_ b.sz - 1) / 64 < b.mem.length) :
    (b.clearIntervalNoInvalidation start end_).testBit j
      = (!decide (max start b.startOffset ≤ j ∧ j < min end_ b.sz) && b.testBit j) := by
  unfold clearIntervalNoInvalidation
  simp only []
  generalize hs : max start b.startOffset = s at *
  generalize he : min end_ b.sz = e at *
  by_cases hes : e ≤ s
  · have : ¬ (s ≤ j ∧ j < e) := by omega
    simp [hes, this]
  · rw [if_neg hes]
    simp only [wordNum, WordLen]
    have hr : j % 64 < 64 := Nat.mod_lt _ (by decide)
    by_cases hw : (e - 1) / 64 > s / 64
    · rw [if_pos hw, testBit_eq, testBit_eq, word_setWord]
      have hlen : (zeroWords (b.setWord (s / 64) (b.word (s / 64) &&& startBits s)).mem
          ((b.setWord (s / 64) (b.word (s / 64) &&& startBits s)).words + s / 64 + 1)
          ((e - 1) / 64 - (s / 64 + 1))).length = b.mem.length := by
        rw [length_zeroWords]; simp [setWord]
      have hz := word_zeroWords (b.setWord (s / 64) (b.word (s / 64) &&& startBits s))
        (s / 64 + 1) ((e - 1) / 64 - (s / 64 + 1))
      simp only [← Nat.add_assoc] at hz
      simp only [hz, word_setWord, hlen]
      have hw1 : (b.setWord (s / 64) (b.word (s / 64) &&& startBits s)).words = b.words := rfl
      simp only [hw1]
      have hsb : b.words + s / 64 < b.mem.length := by omega
      by_cases k1 : (e - 1) / 64 = j / 64
      · have c1 : ¬ (s / 64 + 1 ≤ (e - 1) / 64 ∧ (e - 1) / 64 < s / 64 + 1 + ((e - 1) / 64 - (s / 64 + 1))) := by
          omega
        have c2 : ¬ (s / 64 = (e - 1) / 64 ∧ b.words + s / 64 < b.mem.length) := by omega
        rw [if_pos ⟨k1, h⟩, if_neg c1, if_neg c2, Nat.testBit_and, testBit_endBits, k1]
        have : (bitNum (e - 1) < j % 64) ↔ ¬ (s ≤ j ∧ j < e) := by
          simp only [bitNum, WordLen]; omega
        simp only [hr, this, decide_True, Bool.true_and, Bool.and_comm, decide_not]
      · rw [if_neg (fun hh => k1 hh.1)]
        by_cases k2 : s / 64 + 1 ≤ j / 64 ∧ j / 64 < s / 64 + 1 + ((e - 1) / 64 - (s / 64 + 1))
        · have : s ≤ j ∧ j < e := by omega
          rw [if_pos k2, Nat.zero_testBit]
          simp [this]
        · rw [if_neg k2]
          by_cases k3 : s / 64 = j / 64
          · rw [if_pos ⟨k3, hsb⟩, Nat.testBit_and, testBit_startBits, k3]
            have : (j % 64 < bitNum s) ↔ ¬ (s ≤ j ∧ j < e) := by
              simp only [bitNum, WordLen]; omega
            simp only [this, Bool.and_comm, decide_not]
          · have : ¬ (s ≤ j ∧ j < e) := by omega
            rw [if_neg (fun hh => k3 hh.1)]
            simp [this]
    · rw [if_neg hw, testBit_eq, testBit_eq, word_setWord]
      have hsb : b.words + s / 64 < b.mem.length := by
        have : s / 64 = (e - 1) / 64 := by omega
        omega
      by_cases k3 : s / 64 = j / 64
      · rw [if_pos ⟨k3, hsb⟩, Nat.testBit_and, Nat.testBit_or, testBit_startBits, testBit_endBits,
          k3]
        have : (j % 64 < bitNum s ∨ bitNum (e - 1) < j % 64) ↔ ¬ (s ≤ j ∧ j < e) := by
          simp only [bitNum, WordLen]; omega
        simp only [hr, decide_True, Bool.true_and, Bool.and_comm, ← Bool.decide_or, this,
          decide_not]
      · have : ¬ (s ≤ j ∧ j < e) := by omega
        rw [if_neg (fun hh => k3 hh.1)]
        simp [this]

end BitVector

namespace BitVector

@[simp] theorem setWord_mem_length (b : BitVector) (k w : Nat) :
    (b.setWord k w).mem.length = b.mem.length := by
  simp [setWord]

@[simp] theorem setWord_words (b : BitVector) (k w : Nat) : (b.setWord k w).words = b.words := rfl

@[simp] theorem setWord_sz (b : BitVector) (k w : Nat) : (b.setWord k w).sz = b.sz := rfl

@[simp] theorem setWord_startOffset (b : BitVector) (k w : Nat) :
    (b.setWord k w).startOffset = b.startOffset := rfl

@[simp] theorem setWord_numTrueBits (b : BitVector) (k w : Nat) :
    (b.setWord k w).numTrueBits = b.numTrueBits := rfl

@[simp] theorem setBit_mem_length (b : BitVector) (i : Nat) :
    (b.setBit i).mem.length = b.mem.length := by
  simp [setBit]

@[simp] theorem setBit_words (b : BitVector) (i : Nat) : (b.setBit i).words = b.words := rfl

@[simp] theorem setBit_sz (b : BitVector) (i : Nat) : (b.setBit i).sz = b.sz := rfl

@[simp] theorem setBit_startOffset (b : BitVector) (i : Nat) :
    (b.setBit i).startOffset = b.startOffset := rfl

@[simp] theorem clearBit_mem_length (b : BitVector) (i : Nat) :
    (b.clearBit i).mem.length = b.mem.length := by
  simp [clearBit]

@[simp] theorem clearBit_words (b : BitVector) (i : Nat) : (b.clearBit i).words = b.words := rfl

@[simp] theorem clearBit_sz (b : BitVector) (i : Nat) : (b.clearBit i).sz = b.sz := rfl

@[simp] theorem clearBit_startOffset (b : BitVector) (i : Nat) :
    (b.clearBit i).startOffset = b.startOffset := rfl

@[simp] theorem setSize_sz (b : BitVector) (n : Nat) : (b.setSize n).sz = n := rfl

@[simp] theorem setSize_words (b : BitVector) (n : Nat) : (b.setSize n).words = b.words := by
  unfold setSize
  simp only []
  split <;> rfl

@[simp] theorem setSize_startOffset (b : BitVector) (n : Nat) :
    (b.setSize n).startOffset = b.startOffset := by
  unfold setSize
  simp only []
  split <;> rfl

@[simp] theorem setSize_mem_length (b : BitVector) (n : Nat) :
    (b.setSize n).mem.length = b.mem.length := by
  unfold setSize
  simp only []
  split <;> simp

theorem testBit_setSize (b : BitVector) (n j : Nat) (h : b.words + n / 64 < b.mem.length)
    (h2 : b.words + b.sz / 64 < b.mem.length) :
    (b.setSize n).testBit j
      = (!decide (n ≠ b.sz ∧ j = b.sz) && (decide (j = n) || b.testBit j)) := by
  have key : ∀ c : BitVector, ({ c with sz := n } : BitVector).testBit j = c.testBit j :=
    fun c => rfl
  unfold setSize
  simp only []
  rw [key]
  by_cases hg : n ≠ b.sz
  · have hb : (b.setBit n).words + b.sz / 64 < (b.setBit n).mem.length := by
      simp only [setBit_words, setBit_mem_length]
      exact h2
    rw [if_pos hg, testBit_clearBit _ _ _ hb, testBit_setBit _ _ _ h]
    simp [hg]
  · rw [if_neg hg, testBit_setBit _ _ _ h]
    simp [hg]

@[simp] theorem clearIntervalNoInvalidation_sz (b : BitVector) (s e : Nat) :
    (b.clearIntervalNoInvalidation s e).sz = b.sz := by
  unfold clearIntervalNoInvalidation
  simp only []
  split
  · rfl
  · split <;> rfl

@[simp] theorem clearIntervalNoInvalidation_words (b : BitVector) (s e : Nat) :
    (b.clearIntervalNoInvalidation s e).words = b.words := by
  unfold clearIntervalNoInvalidation
  simp only []
  split
  · rfl
  · split <;> rfl

@[simp] theorem clearIntervalNoInvalidation_startOffset (b : BitVector) (s e : Nat) :
    (b.clearIntervalNoInvalidation s e).startOffset = b.startOffset := by
  unfold clearIntervalNoInvalidation
  simp only []
  split
  · rfl
  · split <;> rfl

@[simp] theorem clearIntervalNoInvalidation_mem_length (b : BitVector) (s e : Nat) :
    (b.clearIntervalNoInvalidation s e).mem.length = b.mem.length := by
  unfold clearIntervalNoInvalidation
  simp only []
  split
  · rfl
  · split
    · simp [length_zeroWords]
    · simp

theorem testBit_clearInterval (b : BitVector) (start end_ j : Nat)
    (h : b.words + (min end_ b.sz - 1) / 64 < b.mem.length) :
    (b.clearInterval start end_).testBit j
      = (!decide (max start b.startOffset ≤ j ∧ j < min end_ b.sz) && b.testBit j) :=
  testBit_clearIntervalNoInvalidation b start end_ j h

end BitVector

/-! ## `grow` without reallocation -/

namespace AllocatedBitVector

theorem valid_of_owned (bv : AllocatedBitVector) (h : bv.Owned) : bv.Valid := by
  obtain ⟨h1, h2, h3, h4⟩ := h
  refine ⟨h2, h3, ?_⟩
  simp only [wordNum, WordLen]
  omega

theorem grow_eq_extend (junk : Nat → Nat) (bv : AllocatedBitVector) (newSize : Nat)
    (hgt : bv.sz < newSize) (hcap : newSize ≤ bv.capacity) :
    grow junk bv newSize bv.capacity
      = .ok ({ bv with toBitVector :=
                (bv.toBitVector.setSize newSize).clearIntervalNoInvalidation bv.sz newSize },
             none) := by
  unfold grow
  rw [if_neg (Nat.not_lt.mpr hcap), if_neg (fun h => h rfl), if_pos hgt]

theorem grow_eq_shrink (junk : Nat → Nat) (bv : AllocatedBitVector) (newSize : Nat)
    (hle : newSize ≤ bv.sz) (hcap : newSize ≤ bv.capacity) :
    grow junk bv newSize bv.capacity
      = .ok ({ bv with toBitVector :=
                (bv.toBitVector.clearInterval newSize bv.sz).setSize newSize }, none) := by
  unfold grow
  rw [if_neg (Nat.not_lt.mpr hcap), if_neg (fun h => h rfl), if_neg (Nat.not_lt.mpr hle)]

theorem testBit_extend (bv : AllocatedBitVector) (newSize j : Nat) (hv : bv.Valid)
    (hgt : bv.sz < newSize) (hcap : newSize ≤ bv.capacity) :
    ((bv.toBitVector.setSize newSize).clearIntervalNoInvalidation bv.sz newSize).testBit j
      = (decide (j = newSize) || (decide (j < bv.sz ∨ newSize < j) && bv.testBit j)) := by
  obtain ⟨h0, h1, h2⟩ := hv
  simp only [wordNum, WordLen, capacity] at *
  have hn : bv.words + newSize / 64 < bv.mem.length := by omega
  have ho : bv.words + bv.sz / 64 < bv.mem.length := by omega
  rw [BitVector.testBit_clearIntervalNoInvalidation, BitVector.testBit_setSize _ _ _ hn ho]
  · simp only [BitVector.setSize_sz, BitVector.setSize_startOffset, h0, Nat.min_self,
      Nat.max_zero]
    by_cases e1 : j = newSize
    · rw [decide_eq_false (by omega : ¬ (bv.sz ≤ j ∧ j < newSize)),
        decide_eq_false (by omega : ¬ (newSize ≠ bv.sz ∧ j = bv.sz)), decide_eq_true e1]
      rfl
    · by_cases e2 : j < bv.sz ∨ newSize < j
      · rw [decide_eq_false (by omega : ¬ (bv.sz ≤ j ∧ j < newSize)),
          decide_eq_false (by omega : ¬ (newSize ≠ bv.sz ∧ j = bv.sz)), decide_eq_false e1,
          decide_eq_true e2]
        rfl
      · rw [decide_eq_true (by omega : bv.sz ≤ j ∧ j < newSize), decide_eq_false e1,
          decide_eq_false e2]
        rfl
  · simp only [BitVector.setSize_sz, BitVector.setSize_words, BitVector.setSize_mem_length,
      Nat.min_self]
    omega

theorem testBit_shrink (bv : AllocatedBitVector) (newSize j : Nat) (hv : bv.Valid)
    (hle : newSize ≤ bv.sz) :
    ((bv.toBitVector.clearInterval newSize bv.sz).setSize newSize).testBit j
      = (decide (j = newSize) || (decide (j < newSize ∨ bv.sz < j) && bv.testBit j)) := by
  obtain ⟨h0, h1, h2⟩ := hv
  simp only [wordNum, WordLen] at *
  have hsz : (bv.toBitVector.clearInterval newSize bv.sz).sz = bv.sz := by
    simp only [BitVector.clearInterval, BitVector.invalidateCachedCount,
      BitVector.clearIntervalNoInvalidation_sz]
  have hn : (bv.toBitVector.clearInterval newSize bv.sz).words + newSize / 64
      < (bv.toBitVector.clearInterval newSize bv.sz).mem.length := by
    simp only [BitVector.clearInterval, BitVector.invalidateCachedCount,
      BitVector.clearIntervalNoInvalidation_words, BitVector.clearIntervalNoInvalidation_mem_length]
    omega
  have ho : (bv.toBitVector.clearInterval newSize bv.sz).words
      + (bv.toBitVector.clearInterval newSize bv.sz).sz / 64
      < (bv.toBitVector.clearInterval newSize bv.sz).mem.length := by
    rw [hsz]
    simp only [BitVector.clearInterval, BitVector.invalidateCachedCount,
      BitVector.clearIntervalNoInvalidation_words, BitVector.clearIntervalNoInvalidation_mem_length]
    omega
  rw [BitVector.testBit_setSize _ _ _ hn ho, BitVector.testBit_clearInterval, hsz]
  · simp only [h0, Nat.min_self, Nat.max_zero]
    by_cases e1 : j = newSize
    · rw [decide_eq_false (by omega : ¬ (newSize ≠ bv.sz ∧ j = bv.sz)), decide_eq_true e1]
      rfl
    · by_cases e2 : j < newSize ∨ bv.sz < j
      · rw [decide_eq_false (by omega : ¬ (newSize ≤ j ∧ j < bv.sz)),
          decide_eq_false (by omega : ¬ (newSize ≠ bv.sz ∧ j = bv.sz)), decide_eq_false e1,
          decide_eq_true e2]
        rfl
      · by_cases e3 : j = bv.sz
        · rw [decide_eq_true (by omega : newSize ≠ bv.sz ∧ j = bv.sz), decide_eq_false e1,
            decide_eq_false e2]
          rfl
        · rw [decide_eq_true (by omega : newSize ≤ j ∧ j < bv.sz),
            decide_eq_false (by omega : ¬ (newSize ≠ bv.sz ∧ j = bv.sz)), decide_eq_false e1,
            decide_eq_false e2]
          rfl
  · simp only [Nat.min_self]
    omega

/-- C1: growing in place (`newCapacity` equal to `capacity()`) to a larger size keeps every bit
of `[0, oldSize)`, leaves every bit of `[oldSize, newSize)` clear, sets `size()` to `newSize`
and leaves the guard bit at `newSize` set; no handle is returned. -/
theorem grow_in_place_extend (junk : Nat → Nat) (bv : AllocatedBitVector) (newSize : Nat)
    (hv : bv.Valid) (hgt : bv.sz < newSize) (hcap : newSize ≤ bv.capacity) :
    ∃ bv2 : AllocatedBitVector,
      grow junk bv newSize bv.capacity = .ok (bv2, none) ∧
      bv2.sz = newSize ∧
      (∀ i, i < bv.sz → bv2.testBit i = bv.testBit i) ∧
      (∀ i, bv.sz ≤ i → i < newSize → bv2.testBit i = false) ∧
      bv2.testBit newSize = true := by
  refine ⟨_, grow_eq_extend junk bv newSize hgt hcap, by simp, ?_, ?_, ?_⟩
  · intro i hi
    show BitVector.testBit _ i = _
    rw [testBit_extend bv newSize i hv hgt hcap]
    rw [decide_eq_false (by omega : ¬ i = newSize), decide_eq_true (by omega)]
    rfl
  · intro i h1 h2
    show BitVector.testBit _ i = _
    rw [testBit_extend bv newSize i hv hgt hcap]
    rw [decide_eq_false (by omega : ¬ i = newSize),
      decide_eq_false (by omega : ¬ (i < bv.sz ∨ newSize < i))]
    rfl
  · show BitVector.testBit _ newSize = _
    rw [testBit_extend bv newSize newSize hv hgt hcap]
    simp

theorem grow_in_place_extend_witness :
    sample10.Valid ∧ sample10.sz < 20 ∧ 20 ≤ sample10.capacity ∧
    ∃ bv2 : AllocatedBitVector,
      grow (fun _ => 0) sample10 20 sample10.capacity = .ok (bv2, none) ∧
      bv2.sz = 20 ∧
      (∀ i, i < sample10.sz → bv2.testBit i = sample10.testBit i) ∧
      (∀ i, sample10.sz ≤ i → i < 20 → bv2.testBit i = false) ∧
      bv2.testBit 20 = true :=
  ⟨by decide, by decide, by decide,
    grow_in_place_extend (fun _ => 0) sample10 20 (by decide) (by decide) (by decide)⟩

/-- C4: growing in place (`newCapacity` equal to `capacity()`) to a size that is not larger
keeps every bit of `[0, newSize)`, clears the excluded bits above `newSize` and below `oldSize`,
puts the new guard bit at `newSize` and sets `size()` to `newSize`; no handle is returned. -/
theorem grow_in_place_shrink (junk : Nat → Nat) (bv : AllocatedBitVector) (newSize : Nat)
    (hv : bv.Valid) (hle : newSize ≤ bv.sz) :
    ∃ bv2 : AllocatedBitVector,
      grow junk bv newSize bv.capacity = .ok (bv2, none) ∧
      bv2.sz = newSize ∧
      (∀ i, i < newSize → bv2.testBit i = bv.testBit i) ∧
      (∀ i, newSize < i → i < bv.sz → bv2.testBit i = false) ∧
      bv2.testBit newSize = true := by
  have hcap : newSize ≤ bv.capacity := Nat.le_trans hle hv.2.1
  refine ⟨_, grow_eq_shrink junk bv newSize hle hcap, rfl, ?_, ?_, ?_⟩
  · intro i hi
    show BitVector.testBit _ i = _
    rw [testBit_shrink bv newSize i hv hle]
    rw [decide_eq_false (by omega : ¬ i = newSize), decide_eq_true (by omega)]
    rfl
  · intro i h1 h2
    show BitVector.testBit _ i = _
    rw [testBit_shrink bv newSize i hv hle]
    rw [decide_eq_false (by omega : ¬ i = newSize),
      decide_eq_false (by omega : ¬ (i < newSize ∨ bv.sz < i))]
    rfl
  · show BitVector.testBit _ newSize = _
    rw [testBit_shrink bv newSize newSize hv hle]
    simp

theorem grow_in_place_shrink_witness :
    sample10.Valid ∧ 5 ≤ sample10.sz ∧
    ∃ bv2 : AllocatedBitVector,
      grow (fun _ => 0) sample10 5 sample10.capacity = .ok (bv2, none) ∧
      bv2.sz = 5 ∧
      (∀ i, i < 5 → bv2.testBit i = sample10.testBit i) ∧
      (∀ i, 5 < i → i < sample10.sz → bv2.testBit i = false) ∧
      bv2.testBit 5 = true :=
  ⟨by decide, by decide, grow_in_place_shrink (fun _ => 0) sample10 5 (by decide) (by decide)⟩

end AllocatedBitVector

/-! ## Allocation and the constructors -/

namespace BitVector

theorem numWords_eq (bits : Nat) : numWords bits = bits / 64 + 1 := by
  simp only [numWords, wordNum, WordLen]
  omega

theorem allocatePaddedAndAligned_spec (junk : Nat → Nat) (n cap : Nat) (h : n ≤ cap) :
    ∃ mem, allocatePaddedAndAligned junk 0 n cap = .ok mem ∧
      cap + 1 ≤ mem.length * 64 ∧ mem.length * 64 ≤ cap + 1024 ∧ mem.length % 16 = 0 ∧
      (∀ k, n / 64 + 1 ≤ k → mem.getD k 0 = 0) := by
  refine ⟨(List.range (numActiveWords 0 cap + (16 - numActiveWords 0 cap % 16) % 16)).map
    (fun i => if i < numWords (n - 0) then junk i % 2 ^ 64 else 0), ?_, ?_, ?_, ?_, ?_⟩
  · unfold allocatePaddedAndAligned
    rw [if_neg (Nat.not_lt.mpr h)]
  · simp only [List.length_map, List.length_range, numActiveWords, numWords_eq, wordNum, WordLen]
    simp only [ge_iff_le, Nat.zero_le, if_true, Nat.zero_div, Nat.sub_zero]
    omega
  · simp only [List.length_map, List.length_range, numActiveWords, numWords_eq, wordNum, WordLen]
    simp only [ge_iff_le, Nat.zero_le, if_true, Nat.zero_div, Nat.sub_zero]
    omega
  · simp only [List.length_map, List.length_range, numActiveWords, numWords_eq, wordNum, WordLen]
    simp only [ge_iff_le, Nat.zero_le, if_true, Nat.zero_div, Nat.sub_zero]
    omega
  · intro k hk
    rw [List.getD_eq_getElem?_getD, List.getElem?_map]
    by_cases hl : k < (List.range (numActiveWords 0 cap +
        (16 - numActiveWords 0 cap % 16) % 16)).length
    · rw [List.getElem?_eq_getElem hl, List.getElem_range]
      have : ¬ k < numWords (n - 0) := by
        rw [numWords_eq]; simp only [Nat.sub_zero]; omega
      simp only [Option.map_some', Option.getD_some, if_neg this]
    · rw [List.getElem?_eq_none (Nat.le_of_not_lt hl)]
      rfl

end BitVector

theorem computeCapacity_ok (capacity allocatedBytes : Nat) (h1 : capacity + 1 ≤ allocatedBytes * 8)
    (h2 : allocatedBytes * 8 ≤ 2 ^ 64) :
    computeCapacity capacity allocatedBytes = .ok (allocatedBytes * 8 - 1) := by
  unfold computeCapacity
  have h3 : (allocatedBytes * 8 + 2 ^ 64 - 1) % 2 ^ 64 = allocatedBytes * 8 - 1 := by
    have : allocatedBytes * 8 + 2 ^ 64 - 1 = (allocatedBytes * 8 - 1) + 2 ^ 64 := by omega
    rw [this, Nat.add_mod_right, Nat.mod_eq_of_lt]
    omega
  simp only [h3]
  rw [if_pos (by omega)]

namespace BitVector

/-- The bits of a block that was zeroed past its used words, after `init` and `clear`: only
the guard bit is set. -/
theorem testBit_init_clear (b : BitVector) (mem : List Nat) (n j : Nat)
    (hlen : n / 64 < mem.length) (hz : ∀ k, n / 64 + 1 ≤ k → mem.getD k 0 = 0) :
    ((b.init mem 0 0 n).clear).testBit j = decide (j = n) := by
  have key : ∀ c : BitVector, ({ c with numTrueBits := 0 } : BitVector).testBit j = c.testBit j :=
    fun c => rfl
  unfold clear
  simp only []
  rw [key, testBit_setBit]
  · have hw : ∀ k, ({ b.init mem 0 0 n with
        mem := zeroWords (b.init mem 0 0 n).mem
          ((b.init mem 0 0 n).words + wordNum (b.init mem 0 0 n).startOffset)
          (numActiveWords (b.init mem 0 0 n).startOffset (b.init mem 0 0 n).sz) } : BitVector).word k
          = 0 := by
      intro k
      have := word_zeroWords (b.init mem 0 0 n) (wordNum (b.init mem 0 0 n).startOffset)
        (numActiveWords (b.init mem 0 0 n).startOffset (b.init mem 0 0 n).sz) k
      rw [this]
      simp only [init, numActiveWords, numWords_eq, wordNum, WordLen, word]
      simp only [ge_iff_le, Nat.zero_le, if_true, Nat.zero_div, Nat.sub_zero, Nat.zero_add]
      by_cases hk : k < n / 64 + 1
      · simp only [hk, and_self, if_true]
      · simp only [hk, and_false, if_false]
        exact hz k (by omega)
    rw [testBit_eq, hw, Nat.zero_testBit, Bool.or_false]
    rfl
  · simp only [init, wordNum, WordLen, length_zeroWords]
    simpa using hlen

end BitVector

namespace BitVector

theorem init_clear_fields (b : BitVector) (mem : List Nat) (n : Nat) :
    ((b.init mem 0 0 n).clear).words = 0 ∧ ((b.init mem 0 0 n).clear).sz = n ∧
    ((b.init mem 0 0 n).clear).startOffset = 0 ∧
    ((b.init mem 0 0 n).clear).mem.length = mem.length ∧
    ((b.init mem 0 0 n).clear).numTrueBits = 0 := by
  refine ⟨?_, ?_, ?_, ?_, ?_⟩ <;>
    simp [clear, init, setBit, setWord, length_zeroWords, wordNum]

theorem testBit_copyWords (b : BitVector) (src : List Nat) (c j : Nat) :
    ({ b with mem := copyWords b.mem src b.words 0 c } : BitVector).testBit j
      = if j / 64 < c ∧ b.words + j / 64 < b.mem.length
        then (src.getD (j / 64) 0).testBit (j % 64) else b.testBit j := by
  rw [testBit_eq, testBit_eq]
  unfold word
  simp only []
  rw [getD_copyWords]
  by_cases h : j / 64 < c ∧ b.words + j / 64 < b.mem.length
  · have h2 : b.words ≤ b.words + j / 64 ∧ b.words + j / 64 < b.words + c ∧
        b.words + j / 64 < b.mem.length := by omega
    have h3 : 0 + (b.words + j / 64 - b.words) = j / 64 := by omega
    rw [if_pos h, if_pos h2, h3]
  · have h2 : ¬ (b.words ≤ b.words + j / 64 ∧ b.words + j / 64 < b.words + c ∧
        b.words + j / 64 < b.mem.length) := by omega
    rw [if_neg h, if_neg h2]

theorem testBit_and_not_endBits (w m r : Nat) (hr : r < 64) :
    (w &&& notWord (endBits m)).testBit r = (w.testBit r && decide (r ≤ m % 64)) := by
  rw [Nat.testBit_and, testBit_notWord _ _ hr, testBit_endBits]
  have : decide (r < 64) = true := decide_eq_true hr
  rw [this, Bool.true_and]
  by_cases h : r ≤ m % 64
  · rw [decide_eq_true h, decide_eq_false (by simp only [bitNum, WordLen]; omega)]
    rfl
  · rw [decide_eq_false h, decide_eq_true (by simp only [bitNum, WordLen]; omega)]
    rfl

theorem testBit_maskEnd (b : BitVector) (k m j : Nat) :
    (b.setWord k (b.word k &&& notWord (endBits m))).testBit j
      = if k = j / 64 ∧ b.words + k < b.mem.length
        then (b.testBit j && decide (j % 64 ≤ m % 64)) else b.testBit j := by
  rw [testBit_eq, testBit_eq, word_setWord]
  by_cases h : k = j / 64 ∧ b.words + k < b.mem.length
  · rw [if_pos h, if_pos h, testBit_and_not_endBits _ _ _ (Nat.mod_lt _ (by decide)), h.1]
  · rw [if_neg h, if_neg h]

end BitVector

namespace AllocatedBitVector

/-- The block of `createFromBuf` that copies from `rhsBuf`, on a cleared vector `b0`. -/
theorem copy_block_spec (b0 : BitVector) (n : Nat) (rhsBuf : List Nat) (rhsSize : Nat)
    (f1 : b0.words = 0) (f2 : b0.sz = n) (f3 : b0.startOffset = 0)
    (hlen : n / 64 < b0.mem.length) (hb : ∀ j, b0.testBit j = decide (j = n)) :
    ∀ b : BitVector,
      b = (if rhsSize > 0 then
            let minCount := min n rhsSize
            let b1 : BitVector :=
              { b0 with mem := copyWords b0.mem rhsBuf b0.words 0
                                (BitVector.numBytes minCount / 8) }
            let b2 :=
              if minCount / 8 = n / 8 then
                b1.setWord (BitVector.numWords b1.sz - 1)
                  (b1.word (BitVector.numWords b1.sz - 1) &&& notWord (endBits minCount))
              else b1
            b2.setBit b2.sz
          else b0) →
      b.words = 0 ∧ b.startOffset = 0 ∧ b.sz = n ∧ b.mem.length = b0.mem.length ∧
      ∀ j, b.testBit j
        = (decide (j = n) ||
            (decide (0 < rhsSize ∧ j / 64 ≤ min n rhsSize / 64 ∧
                ¬ (min n rhsSize / 8 = n / 8 ∧ j / 64 = n / 64 ∧ min n rhsSize % 64 < j % 64))
              && (rhsBuf.getD (j / 64) 0).testBit (j % 64))) := by
  intro b hbdef
  subst hbdef
  by_cases hr : rhsSize > 0
  · simp only [hr, if_true, true_and]
    have hnw : BitVector.numWords b0.sz - 1 = n / 64 := by
      rw [BitVector.numWords_eq, f2]; omega
    have hnb : BitVector.numBytes (min n rhsSize) / 8 = min n rhsSize / 64 + 1 := by
      rw [BitVector.numBytes, BitVector.numWords_eq]; omega
    by_cases h8 : min n rhsSize / 8 = n / 8
    · simp only [h8, if_true, true_and]
      refine ⟨by simp [f1], by simp [f3], by simp [f2], by simp [length_copyWords], ?_⟩
      intro j
      rw [BitVector.testBit_setBit, hnw, BitVector.testBit_maskEnd, BitVector.testBit_copyWords,
        hb, hnb]
      · simp only [BitVector.setWord_sz, f2, f1, Nat.zero_add, length_copyWords]
        by_cases e1 : j = n
        · rw [decide_eq_true e1]; rfl
        · rw [decide_eq_false e1, Bool.false_or, Bool.false_or]
          by_cases e2 : j / 64 ≤ min n rhsSize / 64
          · rw [if_pos (by omega : j / 64 < min n rhsSize / 64 + 1 ∧ j / 64 < b0.mem.length)]
            by_cases e3 : n / 64 = j / 64
            · rw [if_pos ⟨e3, hlen⟩]
              by_cases e4 : j % 64 ≤ min n rhsSize % 64
              · rw [decide_eq_true e4, decide_eq_true (by omega)]
                simp
              · rw [decide_eq_false e4, decide_eq_false (by omega)]
                simp
            · rw [if_neg (fun hh => e3 hh.1), decide_eq_true (by omega)]
              simp
          · rw [if_neg (by omega : ¬ (j / 64 < min n rhsSize / 64 + 1 ∧ j / 64 < b0.mem.length))]
            have hd : decide (j / 64 ≤ min n rhsSize / 64 ∧
                ¬ (j / 64 = n / 64 ∧ min n rhsSize % 64 < j % 64)) = false :=
              decide_eq_false (fun hh => e2 hh.1)
            rw [hd]
            by_cases e3 : n / 64 = j / 64
            · rw [if_pos ⟨e3, hlen⟩]; rfl
            · rw [if_neg (fun hh => e3 hh.1)]; rfl
      · simp only [BitVector.setWord_sz, BitVector.setWord_words, BitVector.setWord_mem_length,
          f2, f1, length_copyWords]
        omega
    · simp only [h8, if_false, false_and, not_false_eq_true, and_true]
      refine ⟨by simp [f1], by simp [f3], by simp [f2], by simp [length_copyWords], ?_⟩
      intro j
      rw [BitVector.testBit_setBit, BitVector.testBit_copyWords, hb, hnb]
      · simp only [f2, f1, Nat.zero_add]
        by_cases e1 : j = n
        · rw [decide_eq_true e1]; rfl
        · rw [decide_eq_false e1, Bool.false_or, Bool.false_or]
          by_cases e2 : j / 64 ≤ min n rhsSize / 64
          · rw [if_pos (by omega : j / 64 < min n rhsSize / 64 + 1 ∧ j / 64 < b0.mem.length),
              decide_eq_true e2]
            simp
          · rw [if_neg (by omega : ¬ (j / 64 < min n rhsSize / 64 + 1 ∧ j / 64 < b0.mem.length)),
              decide_eq_false e2]
            rfl
      · simp only [f2, f1, length_copyWords]
        omega
  · simp only [hr, if_false, false_and, decide_False, Bool.false_and, Bool.or_false]
    exact ⟨f1, f3, f2, trivial, hb⟩

theorem createFromBuf_spec (junk : Nat → Nat) (n cap : Nat) (rhsBuf : List Nat) (rhsSize : Nat)
    (h1 : n ≤ cap) (h2 : cap < 2 ^ 32) :
    ∃ tbv : AllocatedBitVector, createFromBuf junk n cap rhsBuf rhsSize = .ok tbv ∧
      tbv.words = 0 ∧ tbv.startOffset = 0 ∧ tbv.sz = n ∧
      tbv.mem.length * 64 = tbv.capacityBits + 1 ∧ cap ≤ tbv.capacityBits ∧
      tbv.numTrueBits = tbv.toBitVector.count ∧
      ∀ j, tbv.testBit j
        = (decide (j = n) ||
            (decide (0 < rhsSize ∧ j / 64 ≤ min n rhsSize / 64 ∧
                ¬ (min n rhsSize / 8 = n / 8 ∧ j / 64 = n / 64 ∧ min n rhsSize % 64 < j % 64))
              && (rhsBuf.getD (j / 64) 0).testBit (j % 64))) := by
  obtain ⟨mem, hm, l1, l2, l3, hz⟩ := BitVector.allocatePaddedAndAligned_spec junk n cap h1
  have hc := computeCapacity_ok cap (allocSize mem) (by unfold allocSize; omega)
    (by unfold allocSize; omega)
  obtain ⟨f1, f2, f3, f4, f5⟩ := BitVector.init_clear_fields BitVector.empty mem n
  have hlen : n / 64 < mem.length := by omega
  have hb := fun j => BitVector.testBit_init_clear BitVector.empty mem n j hlen hz
  have key := copy_block_spec ((BitVector.empty.init mem 0 0 n).clear) n rhsBuf rhsSize
    f1 f2 f3 (by rw [f4]; exact hlen) hb _ rfl
  obtain ⟨k1, k2, k3, k4, k5⟩ := key
  simp only [createFromBuf, hm, hc, bind, Except.bind, pure, Except.pure]
  refine ⟨_, rfl, k1, k2, k3, ?_, ?_, rfl, k5⟩
  · have e := k4.trans f4
    have : mem.length * 64 = allocSize mem * 8 - 1 + 1 := by unfold allocSize; omega
    rw [← e] at this
    exact this
  · show cap ≤ allocSize mem * 8 - 1
    unfold allocSize; omega

end AllocatedBitVector

namespace BitVector

theorem decNumBits_testBit (c : BitVector) (j : Nat) : c.decNumBits.testBit j = c.testBit j := by
  unfold decNumBits
  by_cases h : c.numTrueBits = invalidCount
  · rw [if_pos h]
  · rw [if_neg h]
    unfold testBit word
    simp only []

theorem decNumBits_fields (c : BitVector) :
    c.decNumBits.words = c.words ∧ c.decNumBits.startOffset = c.startOffset ∧
    c.decNumBits.sz = c.sz ∧ c.decNumBits.mem = c.mem := by
  unfold decNumBits
  by_cases h : c.numTrueBits = invalidCount
  · rw [if_pos h]
    exact ⟨rfl, rfl, rfl, rfl⟩
  · rw [if_neg h]
    exact ⟨rfl, rfl, rfl, rfl⟩

theorem testBit_clearBitAndMaintainCount (b : BitVector) (i j : Nat)
    (h : b.words + i / 64 < b.mem.length) :
    (b.clearBitAndMaintainCount i).testBit j = (!decide (j = i) && b.testBit j) := by
  unfold clearBitAndMaintainCount
  by_cases hi : b.testBit i = true
  · rw [if_pos hi, decNumBits_testBit, testBit_clearBit _ _ _ h]
  · rw [if_neg hi]
    by_cases e : j = i
    · subst e
      rw [Bool.not_eq_true] at hi
      rw [hi, Bool.and_false]
    · rw [decide_eq_false e]
      rfl

theorem clearBitAndMaintainCount_fields (b : BitVector) (i : Nat) :
    (b.clearBitAndMaintainCount i).words = b.words ∧
    (b.clearBitAndMaintainCount i).startOffset = b.startOffset ∧
    (b.clearBitAndMaintainCount i).sz = b.sz ∧
    (b.clearBitAndMaintainCount i).mem.length = b.mem.length := by
  unfold clearBitAndMaintainCount
  by_cases hi : b.testBit i = true
  · rw [if_pos hi]
    obtain ⟨d1, d2, d3, d4⟩ := decNumBits_fields (b.clearBit i)
    exact ⟨d1, d2, d3, by rw [d4]; exact clearBit_mem_length _ _⟩
  · rw [if_neg hi]
    exact ⟨rfl, rfl, rfl, rfl⟩

end BitVector

namespace AllocatedBitVector

theorem create_spec (junk : Nat → Nat) (n : Nat) (hn : n < 2 ^ 32) :
    ∃ bv : AllocatedBitVector, create junk n = .ok bv ∧
      bv.words = 0 ∧ bv.startOffset = 0 ∧ bv.sz = n ∧
      bv.mem.length * 64 = bv.capacityBits + 1 ∧ n ≤ bv.capacityBits ∧ bv.numTrueBits = 0 ∧
      ∀ j, bv.testBit j = decide (j = n) := by
  obtain ⟨mem, hm, l1, l2, l3, hz⟩ := BitVector.allocatePaddedAndAligned_spec junk n n (Nat.le_refl n)
  have hc := computeCapacity_ok n (allocSize mem) (by unfold allocSize; omega)
    (by unfold allocSize; omega)
  obtain ⟨f1, f2, f3, f4, f5⟩ := BitVector.init_clear_fields BitVector.empty mem n
  have hlen : n / 64 < mem.length := by omega
  have hb := fun j => BitVector.testBit_init_clear BitVector.empty mem n j hlen hz
  simp only [create, hm, hc, bind, Except.bind, pure, Except.pure]
  refine ⟨_, rfl, f1, f3, f2, ?_, ?_, f5, hb⟩
  · show ((BitVector.empty.init mem 0 0 n).clear).mem.length * 64 = allocSize mem * 8 - 1 + 1
    rw [f4]; unfold allocSize; omega
  · show n ≤ allocSize mem * 8 - 1
    unfold allocSize; omega

theorem resize_spec (junk : Nat → Nat) (bv : AllocatedBitVector) (n : Nat) (hn : n < 2 ^ 32) :
    ∃ bv2 : AllocatedBitVector, resize junk bv n = .ok bv2 ∧
      bv2.words = 0 ∧ bv2.startOffset = 0 ∧ bv2.sz = n ∧
      bv2.mem.length * 64 = bv2.capacityBits + 1 ∧ n ≤ bv2.capacityBits ∧ bv2.numTrueBits = 0 ∧
      ∀ j, bv2.testBit j = decide (j = n) := by
  obtain ⟨mem, hm, l1, l2, l3, hz⟩ := BitVector.allocatePaddedAndAligned_spec junk n n (Nat.le_refl n)
  have hc := computeCapacity_ok n (allocSize mem) (by unfold allocSize; omega)
    (by unfold allocSize; omega)
  obtain ⟨f1, f2, f3, f4, f5⟩ := BitVector.init_clear_fields bv.toBitVector mem n
  have hlen : n / 64 < mem.length := by omega
  have hb := fun j => BitVector.testBit_init_clear bv.toBitVector mem n j hlen hz
  simp only [resize, hm, hc, bind, Except.bind, pure, Except.pure]
  refine ⟨_, rfl, f1, f3, f2, ?_, ?_, f5, hb⟩
  · show ((bv.toBitVector.init mem 0 0 n).clear).mem.length * 64 = allocSize mem * 8 - 1 + 1
    rw [f4]; unfold allocSize; omega
  · show n ≤ allocSize mem * 8 - 1
    unfold allocSize; omega

/-- What a reallocating `grow` produces: a fresh owned block, the old block in the handle,
and the bits spelled out. -/
theorem grow_realloc_spec (junk : Nat → Nat) (bv : AllocatedBitVector) (newSize newCapacity : Nat)
    (hle : newSize ≤ newCapacity) (hne : newCapacity ≠ bv.capacity) (hb : newCapacity < 2 ^ 32) :
    ∃ bv2 : AllocatedBitVector,
      grow junk bv newSize newCapacity = .ok (bv2, some { alloc := bv.mem }) ∧
      bv2.words = 0 ∧ bv2.startOffset = 0 ∧ bv2.sz = newSize ∧
      bv2.mem.length * 64 = bv2.capacityBits + 1 ∧ newCapacity ≤ bv2.capacityBits ∧
      ∀ j, bv2.testBit j
        = (!decide (bv.sz < newSize ∧ j = bv.sz) &&
            (decide (j = newSize) ||
              (decide (0 < bv.sz ∧ j / 64 ≤ min newSize bv.sz / 64 ∧
                  ¬ (min newSize bv.sz / 8 = newSize / 8 ∧ j / 64 = newSize / 64 ∧
                      min newSize bv.sz % 64 < j % 64))
                && (bv.mem.getD (j / 64) 0).testBit (j % 64)))) := by
  obtain ⟨tbv, ht, t1, t2, t3, t4, t5, _, t7⟩ :=
    createFromBuf_spec junk newSize newCapacity bv.mem bv.sz hle hb
  unfold grow
  rw [if_neg (Nat.not_lt.mpr hle), if_pos hne]
  simp only [ht, bind, Except.bind, pure, Except.pure]
  by_cases hg : newSize > bv.sz
  · rw [if_pos hg]
    obtain ⟨c1, c2, c3, c4⟩ := BitVector.clearBitAndMaintainCount_fields tbv.toBitVector bv.sz
    refine ⟨_, rfl, c1.trans t1, c2.trans t2, c3.trans t3, ?_, t5, ?_⟩
    · show (tbv.toBitVector.clearBitAndMaintainCount bv.sz).mem.length * 64 = tbv.capacityBits + 1
      rw [c4]; exact t4
    · intro j
      show (tbv.toBitVector.clearBitAndMaintainCount bv.sz).testBit j = _
      rw [BitVector.testBit_clearBitAndMaintainCount, t7]
      · by_cases e : j = bv.sz
        · rw [decide_eq_true e, decide_eq_true (⟨hg, e⟩ : bv.sz < newSize ∧ j = bv.sz)]
        · rw [decide_eq_false e,
            decide_eq_false (fun hh => e hh.2 : ¬ (bv.sz < newSize ∧ j = bv.sz))]
      · rw [t1]; omega
  · rw [if_neg hg]
    refine ⟨_, rfl, t1, t2, t3, t4, t5, ?_⟩
    intro j
    rw [t7, decide_eq_false (fun hh => hg hh.1 : ¬ (bv.sz < newSize ∧ j = bv.sz))]
    rfl

end AllocatedBitVector

/-! ## The claims about `resize` and `grow` -/

namespace AllocatedBitVector

/-- C2: after `resize(newLength)` and after `grow(newSize, newCapacity)` with
`newCapacity >= newSize`, in place or reallocating, extending or shrinking, the bit at position
`size()` is set. -/
theorem guard_bit_after_resize_and_grow (junk : Nat → Nat) (bv : AllocatedBitVector) :
    (∀ newLength, newLength < 2 ^ 32 →
      ∃ bv2 : AllocatedBitVector, resize junk bv newLength = .ok bv2 ∧
        bv2.testBit bv2.sz = true) ∧
    (∀ newSize newCapacity, bv.Valid → newSize ≤ newCapacity → newCapacity < 2 ^ 32 →
      ∃ (bv2 : AllocatedBitVector) (held : Option GenerationHeldAlloc),
        grow junk bv newSize newCapacity = .ok (bv2, held) ∧ bv2.testBit bv2.sz = true) := by
  constructor
  · intro n hn
    obtain ⟨bv2, h, _, _, hsz, _, _, _, hbits⟩ := resize_spec junk bv n hn
    refine ⟨bv2, h, ?_⟩
    rw [hbits, hsz]
    exact decide_eq_true rfl
  · intro newSize newCapacity hv hle hb
    by_cases hc : newCapacity = bv.capacity
    · subst hc
      by_cases hg : bv.sz < newSize
      · refine ⟨_, none, grow_eq_extend junk bv newSize hg hle, ?_⟩
        show BitVector.testBit _ _ = true
        rw [testBit_extend bv newSize _ hv hg hle]
        simp
      · have hle2 : newSize ≤ bv.sz := Nat.le_of_not_lt hg
        refine ⟨_, none, grow_eq_shrink junk bv newSize hle2 hle, ?_⟩
        show BitVector.testBit _ _ = true
        rw [testBit_shrink bv newSize _ hv hle2]
        simp
    · obtain ⟨bv2, h, _, _, hsz, _, _, hbits⟩ := grow_realloc_spec junk bv newSize newCapacity hle hc hb
      refine ⟨bv2, _, h, ?_⟩
      rw [hbits, hsz, decide_eq_false (by omega : ¬ (bv.sz < newSize ∧ newSize = bv.sz)),
        decide_eq_true (rfl : newSize = newSize)]
      rfl

theorem guard_bit_after_resize_and_grow_witness :
    (∃ bv2 : AllocatedBitVector, resize (fun _ => 0) sample10 20 = .ok bv2 ∧
        bv2.testBit bv2.sz = true) ∧
    (∃ (bv2 : AllocatedBitVector) (held : Option GenerationHeldAlloc),
        grow (fun _ => 0) sample10 30 2047 = .ok (bv2, held) ∧ bv2.testBit bv2.sz = true) :=
  ⟨(guard_bit_after_resize_and_grow (fun _ => 0) sample10).1 20 (by decide),
   (guard_bit_after_resize_and_grow (fun _ => 0) sample10).2 30 2047 (by decide) (by decide)
     (by decide)⟩

/-- C3: `resize(newLength)` gives a vector of size `newLength` whose bits in `[0, newLength)` are
all clear and whose capacity is at least `newLength`; the result is the same whatever vector it
is applied to, so nothing of the prior content survives. -/
theorem resize_clears (junk : Nat → Nat) (bv : AllocatedBitVector) (newLength : Nat)
    (h : newLength < 2 ^ 32) :
    ∃ bv2 : AllocatedBitVector, resize junk bv newLength = .ok bv2 ∧
      bv2.sz = newLength ∧
      (∀ i, i < newLength → bv2.testBit i = false) ∧
      newLength ≤ bv2.capacity ∧
      (∀ other : AllocatedBitVector, resize junk other newLength = .ok bv2) := by
  obtain ⟨bv2, hr, _, _, hsz, _, hcap, _, hbits⟩ := resize_spec junk bv newLength h
  refine ⟨bv2, hr, hsz, ?_, hcap, ?_⟩
  · intro i hi
    rw [hbits, decide_eq_false (by omega : ¬ i = newLength)]
  · intro other
    rw [← hr]
    rfl

theorem resize_clears_witness :
    (20 : Nat) < 2 ^ 32 ∧
    ∃ bv2 : AllocatedBitVector, resize (fun i => i + 12345) sample10 20 = .ok bv2 ∧
      bv2.sz = 20 ∧
      (∀ i, i < 20 → bv2.testBit i = false) ∧
      20 ≤ bv2.capacity ∧
      (∀ other : AllocatedBitVector, resize (fun i => i + 12345) other 20 = .ok bv2) :=
  ⟨by decide, resize_clears (fun i => i + 12345) sample10 20 (by decide)⟩

theorem allocatePaddedAndAligned_error (junk : Nat → Nat) (start end_ capacity : Nat)
    (f : Failure) (h : BitVector.allocatePaddedAndAligned junk start end_ capacity = .error f) :
    f = .allocCapacity := by
  unfold BitVector.allocatePaddedAndAligned at h
  by_cases hc : capacity < end_
  · rw [if_pos hc] at h
    cases h
    rfl
  · rw [if_neg hc] at h
    cases h

theorem computeCapacity_error (capacity allocatedBytes : Nat) (f : Failure)
    (h : computeCapacity capacity allocatedBytes = .error f) : f = .possibleCapacity := by
  unfold computeCapacity at h
  simp only [] at h
  by_cases hc : (allocatedBytes * 8 + 2 ^ 64 - 1) % 2 ^ 64 ≥ capacity
  · rw [if_pos hc] at h
    cases h
  · rw [if_neg hc] at h
    cases h
    rfl

theorem createFromBuf_ne_growCapacity (junk : Nat → Nat) (n cap : Nat) (rhsBuf : List Nat)
    (rhsSize : Nat) (f : Failure) (h : createFromBuf junk n cap rhsBuf rhsSize = .error f) :
    f ≠ .growCapacity := by
  cases hA : BitVector.allocatePaddedAndAligned junk 0 n cap with
  | error g =>
    simp only [createFromBuf, hA, bind, Except.bind] at h
    cases h
    rw [allocatePaddedAndAligned_error _ _ _ _ _ hA]
    exact fun e => by cases e
  | ok mem =>
    cases hC : computeCapacity cap (allocSize mem) with
    | error g =>
      simp only [createFromBuf, hA, hC, bind, Except.bind] at h
      cases h
      rw [computeCapacity_error _ _ _ hC]
      exact fun e => by cases e
    | ok c =>
      simp only [createFromBuf, hA, hC, bind, Except.bind, pure, Except.pure] at h
      cases h

/-- C7: `grow` stops on `assert(newCapacity >= newSize)`, before touching the vector and without
producing a handle, exactly when `newCapacity < newSize`. -/
theorem grow_asserts_capacity (junk : Nat → Nat) (bv : AllocatedBitVector)
    (newSize newCapacity : Nat) :
    grow junk bv newSize newCapacity = .error .growCapacity ↔ newCapacity < newSize := by
  constructor
  · intro h
    by_contra hn
    unfold grow at h
    rw [if_neg hn] at h
    by_cases hc : newCapacity ≠ bv.capacity
    · rw [if_pos hc] at h
      cases hr : createFromBuf junk newSize newCapacity bv.mem bv.sz with
      | error f =>
        rw [hr] at h
        simp only [bind, Except.bind] at h
        have := createFromBuf_ne_growCapacity junk newSize newCapacity bv.mem bv.sz f hr
        cases h
        exact this rfl
      | ok tbv =>
        rw [hr] at h
        simp only [bind, Except.bind, pure, Except.pure] at h
        cases h
    · rw [if_neg hc] at h
      split at h <;> cases h
  · intro h
    unfold grow
    rw [if_pos h]

theorem grow_asserts_capacity_witness :
    grow (fun _ => 0) sample10 30 20 = .error .growCapacity ∧
    grow (fun _ => 0) sample10 20 1023 ≠ .error .growCapacity :=
  ⟨(grow_asserts_capacity (fun _ => 0) sample10 30 20).2 (by decide),
   fun h => absurd ((grow_asserts_capacity (fun _ => 0) sample10 20 1023).1 h) (by decide)⟩

end AllocatedBitVector

namespace AllocatedBitVector

end AllocatedBitVector

/-! ## The capacity invariant -/

theorem extract_size_capacity_consistent (size capacity fuel : Nat) (h : size ≤ capacity) :
    extract_size_capacity (fun _ => (size, capacity)) (fuel + 1) 0 = some (size, capacity) := by
  unfold extract_size_capacity
  rw [if_neg (Nat.not_lt.mpr h)]

namespace AllocatedBitVector

theorem createCopy_spec (junk : Nat → Nat) (rhs : BitVector) (size capacity : Nat)
    (h1 : size ≤ capacity) (h2 : capacity < 2 ^ 32) :
    ∃ bv : AllocatedBitVector, createCopy junk rhs (size, capacity) = .ok bv ∧
      bv.sz = size ∧ capacity ≤ bv.capacityBits := by
  obtain ⟨mem, hm, l1, l2, l3, hz⟩ :=
    BitVector.allocatePaddedAndAligned_spec junk size capacity h1
  have hc := computeCapacity_ok capacity (allocSize mem) (by unfold allocSize; omega)
    (by unfold allocSize; omega)
  simp only [createCopy, hm, hc, bind, Except.bind, pure, Except.pure]
  refine ⟨_, rfl, rfl, ?_⟩
  show capacity ≤ allocSize mem * 8 - 1
  unfold allocSize; omega

/-- C8: every constructor, `resize`, `cleanup` and `grow` with `newCapacity >= newSize` leave
`capacity() >= size()`; after `grow` moreover `size() = newSize` and
`capacity() >= newCapacity`; and `computeCapacity` never stops on its assertion for a block
made by `allocatePaddedAndAligned` for the requested capacity. -/
theorem capacity_invariant (junk : Nat → Nat) :
    (∀ n, n < 2 ^ 32 →
      ∃ bv : AllocatedBitVector, create junk n = .ok bv ∧ bv.sz ≤ bv.capacity) ∧
    (∀ n buffer offset,
      (createFromAlloc n buffer offset).sz ≤ (createFromAlloc n buffer offset).capacity) ∧
    (∀ n cap rhsBuf rhsSize, n ≤ cap → cap < 2 ^ 32 →
      ∃ bv : AllocatedBitVector, createFromBuf junk n cap rhsBuf rhsSize = .ok bv ∧
        bv.sz ≤ bv.capacity) ∧
    (∀ n cap rhsBuf rhsSize, cap < n →
      createFromBuf junk n cap rhsBuf rhsSize = .error .allocCapacity) ∧
    (∀ (rhs : AllocatedBitVector) (fuel : Nat), rhs.sz ≤ rhs.capacity → rhs.capacity < 2 ^ 32 →
      ∃ bv : AllocatedBitVector, copyAllocated junk rhs (fuel + 1) = some (.ok bv) ∧
        bv.sz ≤ bv.capacity) ∧
    (∀ rhs : BitVector, rhs.sz < 2 ^ 32 →
      ∃ bv : AllocatedBitVector, copyBitVector junk rhs = .ok bv ∧ bv.sz ≤ bv.capacity) ∧
    (∀ (rhs : BitVector) (size capacity : Nat), size ≤ capacity → capacity < 2 ^ 32 →
      ∃ bv : AllocatedBitVector, createCopy junk rhs (size, capacity) = .ok bv ∧
        bv.sz ≤ bv.capacity) ∧
    (∀ bv : AllocatedBitVector, (cleanup bv).sz ≤ (cleanup bv).capacity) ∧
    (∀ (bv : AllocatedBitVector) (n : Nat), n < 2 ^ 32 →
      ∃ bv2 : AllocatedBitVector, resize junk bv n = .ok bv2 ∧ bv2.sz ≤ bv2.capacity) ∧
    (∀ (bv : AllocatedBitVector) (newSize newCapacity : Nat),
      newSize ≤ newCapacity → newCapacity < 2 ^ 32 →
      ∃ (bv2 : AllocatedBitVector) (held : Option GenerationHeldAlloc),
        grow junk bv newSize newCapacity = .ok (bv2, held) ∧
        bv2.sz = newSize ∧ newCapacity ≤ bv2.capacity ∧ bv2.sz ≤ bv2.capacity) ∧
    (∀ n cap mem, n ≤ cap → cap < 2 ^ 32 →
      BitVector.allocatePaddedAndAligned junk 0 n cap = .ok mem →
      computeCapacity cap (allocSize mem) = .ok (allocSize mem * 8 - 1)) := by
  refine ⟨?_, ?_, ?_, ?_, ?_, ?_, ?_, ?_, ?_, ?_, ?_⟩
  · intro n hn
    obtain ⟨bv, h, _, _, hsz, _, hcap, _⟩ := create_spec junk n hn
    exact ⟨bv, h, by rw [hsz]; exact hcap⟩
  · intro n buffer offset
    exact Nat.le_refl n
  · intro n cap rhsBuf rhsSize h1 h2
    obtain ⟨bv, h, _, _, hsz, _, hcap, _⟩ := createFromBuf_spec junk n cap rhsBuf rhsSize h1 h2
    exact ⟨bv, h, by rw [hsz]; exact Nat.le_trans h1 hcap⟩
  · intro n cap rhsBuf rhsSize h
    unfold createFromBuf BitVector.allocatePaddedAndAligned
    rw [if_pos h]
    rfl
  · intro rhs fuel h1 h2
    obtain ⟨bv, h, hsz, hcap⟩ := createCopy_spec junk rhs.toBitVector rhs.sz rhs.capacity h1 h2
    refine ⟨bv, ?_, by rw [hsz]; exact Nat.le_trans h1 hcap⟩
    unfold copyAllocated
    rw [extract_size_capacity_consistent rhs.sz rhs.capacityBits fuel h1]
    exact congrArg some h
  · intro rhs h
    obtain ⟨bv, hb, hsz, hcap⟩ := createCopy_spec junk rhs rhs.sz rhs.sz (Nat.le_refl _) h
    exact ⟨bv, hb, by rw [hsz]; exact hcap⟩
  · intro rhs size capacity h1 h2
    obtain ⟨bv, hb, hsz, hcap⟩ := createCopy_spec junk rhs size capacity h1 h2
    exact ⟨bv, hb, by rw [hsz]; exact Nat.le_trans h1 hcap⟩
  · intro bv
    exact Nat.le_refl 0
  · intro bv n hn
    obtain ⟨bv2, h, _, _, hsz, _, hcap, _⟩ := resize_spec junk bv n hn
    exact ⟨bv2, h, by rw [hsz]; exact hcap⟩
  · intro bv newSize newCapacity hle hb
    by_cases hc : newCapacity = bv.capacity
    · subst hc
      by_cases hg : bv.sz < newSize
      · exact ⟨_, none, grow_eq_extend junk bv newSize hg hle, by simp, Nat.le_refl _,
          by simpa using hle⟩
      · have hle2 : newSize ≤ bv.sz := Nat.le_of_not_lt hg
        exact ⟨_, none, grow_eq_shrink junk bv newSize hle2 hle, rfl, Nat.le_refl _, hle⟩
    · obtain ⟨bv2, h, _, _, hsz, _, hcap, _⟩ :=
        grow_realloc_spec junk bv newSize newCapacity hle hc hb
      exact ⟨bv2, _, h, hsz, hcap, by rw [hsz]; exact Nat.le_trans hle hcap⟩
  · intro n cap mem h1 h2 hm
    obtain ⟨mem2, hm2, l1, l2, _, _⟩ := BitVector.allocatePaddedAndAligned_spec junk n cap h1
    rw [hm] at hm2
    cases hm2
    exact computeCapacity_ok cap (allocSize mem) (by unfold allocSize; omega)
      (by unfold allocSize; omega)

theorem capacity_invariant_witness :
    (∃ bv : AllocatedBitVector, create (fun _ => 0) 20 = .ok bv ∧ bv.sz ≤ bv.capacity) ∧
    (∃ bv : AllocatedBitVector,
      createFromBuf (fun _ => 0) 30 2047 sample10.mem 10 = .ok bv ∧ bv.sz ≤ bv.capacity) ∧
    createFromBuf (fun _ => 0) 30 20 sample10.mem 10 = .error .allocCapacity ∧
    (∃ bv : AllocatedBitVector,
      copyAllocated (fun _ => 0) sample10 1 = some (.ok bv) ∧ bv.sz ≤ bv.capacity) ∧
    (∃ bv : AllocatedBitVector,
      copyBitVector (fun _ => 0) sample10.toBitVector = .ok bv ∧ bv.sz ≤ bv.capacity) ∧
    (∃ bv : AllocatedBitVector,
      createCopy (fun _ => 0) sample10.toBitVector (10, 1023) = .ok bv ∧
        bv.sz ≤ bv.capacity) ∧
    (∃ bv2 : AllocatedBitVector,
      resize (fun _ => 0) sample10 20 = .ok bv2 ∧ bv2.sz ≤ bv2.capacity) ∧
    (∃ (bv2 : AllocatedBitVector) (held : Option GenerationHeldAlloc),
      grow (fun _ => 0) sample10 30 2047 = .ok (bv2, held) ∧
      bv2.sz = 30 ∧ 2047 ≤ bv2.capacity ∧ bv2.sz ≤ bv2.capacity) ∧
    computeCapacity 20 (allocSize (List.replicate 16 0)) = .ok (allocSize (List.replicate 16 0) * 8 - 1) :=
  ⟨(capacity_invariant (fun _ => 0)).1 20 (by decide),
   (capacity_invariant (fun _ => 0)).2.2.1 30 2047 sample10.mem 10 (by decide) (by decide),
   (capacity_invariant (fun _ => 0)).2.2.2.1 30 20 sample10.mem 10 (by decide),
   (capacity_invariant (fun _ => 0)).2.2.2.2.1 sample10 0 (by decide) (by decide),
   (capacity_invariant (fun _ => 0)).2.2.2.2.2.1 sample10.toBitVector (by decide),
   (capacity_invariant (fun _ => 0)).2.2.2.2.2.2.1 sample10.toBitVector 10 1023 (by decide)
     (by decide),
   (capacity_invariant (fun _ => 0)).2.2.2.2.2.2.2.2.1 sample10 20 (by decide),
   (capacity_invariant (fun _ => 0)).2.2.2.2.2.2.2.2.2.1 sample10 30 2047 (by decide)
     (by decide),
   (capacity_invariant (fun _ => 0)).2.2.2.2.2.2.2.2.2.2 20 20 (List.replicate 16 0) (by decide)
     (by decide) rfl⟩

end AllocatedBitVector

/-! ## Validity is established and kept -/

namespace AllocatedBitVector

theorem create_owned (junk : Nat → Nat) (n : Nat) (hn : n < 2 ^ 32) :
    ∃ bv : AllocatedBitVector, create junk n = .ok bv ∧ bv.Owned := by
  obtain ⟨bv, h, h1, h2, h3, h4, h5, _⟩ := create_spec junk n hn
  exact ⟨bv, h, h1, h2, by rw [h3]; exact h5, h4⟩

theorem resize_owned (junk : Nat → Nat) (bv : AllocatedBitVector) (n : Nat) (hn : n < 2 ^ 32) :
    ∃ bv2 : AllocatedBitVector, resize junk bv n = .ok bv2 ∧ bv2.Owned := by
  obtain ⟨bv2, h, h1, h2, h3, h4, h5, _⟩ := resize_spec junk bv n hn
  exact ⟨bv2, h, h1, h2, by rw [h3]; exact h5, h4⟩

theorem grow_valid (junk : Nat → Nat) (bv : AllocatedBitVector) (newSize newCapacity : Nat)
    (hv : bv.Valid) (hle : newSize ≤ newCapacity) (hb : newCapacity < 2 ^ 32) :
    ∃ (bv2 : AllocatedBitVector) (held : Option GenerationHeldAlloc),
      grow junk bv newSize newCapacity = .ok (bv2, held) ∧ bv2.Valid := by
  by_cases hc : newCapacity = bv.capacity
  · subst hc
    obtain ⟨h0, h1, h2⟩ := hv
    by_cases hg : bv.sz < newSize
    · refine ⟨_, none, grow_eq_extend junk bv newSize hg hle, ?_, ?_, ?_⟩
      · show BitVector.startOffset _ = 0
        simpa using h0
      · show BitVector.sz _ ≤ bv.capacityBits
        simpa using hle
      · show BitVector.words _ + _ < (BitVector.mem _).length
        simpa using h2
    · have hle2 : newSize ≤ bv.sz := Nat.le_of_not_lt hg
      refine ⟨_, none, grow_eq_shrink junk bv newSize hle2 hle, ?_, ?_, ?_⟩
      · show BitVector.startOffset _ = 0
        simpa [BitVector.clearInterval, BitVector.invalidateCachedCount] using h0
      · exact hle
      · show BitVector.words _ + _ < (BitVector.mem _).length
        simpa [BitVector.clearInterval, BitVector.invalidateCachedCount] using h2
  · obtain ⟨bv2, h, h1, h2, h3, h4, h5, _⟩ :=
      grow_realloc_spec junk bv newSize newCapacity hle hc hb
    exact ⟨bv2, _, h, valid_of_owned bv2 ⟨h1, h2, by rw [h3]; exact Nat.le_trans hle h5, h4⟩⟩

end AllocatedBitVector

/-! ## `MultiValueEnumAttribute::get` -/

theorem foldl_update_range {β : Type} (f : Nat → β) (e : Nat → β) (m j : Nat) :
    ((List.range m).foldl (fun e i => Function.update e i (f i)) e) j
      = if j < m then f j else e j := by
  induction m with
  | zero => simp
  | succ m ih =>
    rw [List.range_succ, List.foldl_append, List.foldl_cons, List.foldl_nil,
      Function.update_apply, ih]
    by_cases h1 : j = m
    · subst h1
      simp
    · by_cases h2 : j < m
      · have : j < m + 1 := by omega
        simp [h1, h2, this]
      · have : ¬ j < m + 1 := by omega
        simp [h1, h2, this]

namespace MultiValueEnumAttribute

variable {M : Type} [MultiValueType M] [Inhabited M]

/-- C9: both overloads of `get` return the number of values stored for `doc`, whatever `sz`
and the buffer are. -/
theorem get_returns_value_count (a : MultiValueEnumAttribute M) (doc : Nat) (e : Nat → Nat)
    (we : Nat → WeightedEnum) (sz : Nat) (h : (a.mvMapping doc).length < 2 ^ 32) :
    (a.get doc e sz).2 = (a.mvMapping doc).length ∧
    (a.getWeighted doc we sz).2 = (a.mvMapping doc).length := by
  constructor
  · show (a.mvMapping doc).length % 2 ^ 32 = _
    exact Nat.mod_eq_of_lt h
  · show (a.mvMapping doc).length % 2 ^ 32 = _
    exact Nat.mod_eq_of_lt h

theorem get_returns_value_count_witness :
    (sampleAttr.mvMapping 7).length < 2 ^ 32 ∧
    (sampleAttr.get 7 (fun _ => 0) 0).2 = (sampleAttr.mvMapping 7).length ∧
    (sampleAttr.getWeighted 7 (fun _ => ⟨0, 0⟩) 0).2 = (sampleAttr.mvMapping 7).length :=
  ⟨by decide, get_returns_value_count sampleAttr 7 (fun _ => 0) (fun _ => ⟨0, 0⟩) 0 (by decide)⟩

/-- C10: `get` writes the enum handle of the `i`-th stored entry (with its weight, for the
`WeightedEnum` overload) to `e[i]` for every `i` below both `sz` and the number of stored
entries, and leaves every other entry of the buffer unchanged. -/
theorem get_copies_truncated (a : MultiValueEnumAttribute M) (doc : Nat) (e : Nat → Nat)
    (we : Nat → WeightedEnum) (sz : Nat) (h : (a.mvMapping doc).length < 2 ^ 32) :
    (∀ i (hi : i < (a.mvMapping doc).length), i < sz →
      (a.get doc e sz).1 i = (MultiValueType.value ((a.mvMapping doc).get ⟨i, hi⟩)).ref) ∧
    (∀ i, min sz (a.mvMapping doc).length ≤ i → (a.get doc e sz).1 i = e i) ∧
    (∀ i (hi : i < (a.mvMapping doc).length), i < sz →
      (a.getWeighted doc we sz).1 i
        = ⟨(MultiValueType.value ((a.mvMapping doc).get ⟨i, hi⟩)).ref,
           MultiValueType.weight ((a.mvMapping doc).get ⟨i, hi⟩)⟩) ∧
    (∀ i, min sz (a.mvMapping doc).length ≤ i → (a.getWeighted doc we sz).1 i = we i) := by
  have hm : (a.mvMapping doc).length % 2 ^ 32 = (a.mvMapping doc).length := Nat.mod_eq_of_lt h
  refine ⟨?_, ?_, ?_, ?_⟩
  · intro i hi hsz
    show ((List.range _).foldl _ e) i = _
    rw [foldl_update_range, hm, if_pos (by omega), List.getD_eq_getElem _ _ hi]
    rfl
  · intro i hi
    show ((List.range _).foldl _ e) i = _
    rw [foldl_update_range, hm, if_neg (by omega)]
  · intro i hi hsz
    show ((List.range _).foldl _ we) i = _
    rw [foldl_update_range
      (fun i => (⟨(MultiValueType.value ((a.mvMapping doc).getD i default)).ref,
        MultiValueType.weight ((a.mvMapping doc).getD i default)⟩ : WeightedEnum)),
      hm, if_pos (by omega), List.getD_eq_getElem _ _ hi]
    rfl
  · intro i hi
    show ((List.range _).foldl _ we) i = _
    rw [foldl_update_range
      (fun i => (⟨(MultiValueType.value ((a.mvMapping doc).getD i default)).ref,
        MultiValueType.weight ((a.mvMapping doc).getD i default)⟩ : WeightedEnum)),
      hm, if_neg (by omega)]

theorem get_copies_truncated_witness :
    (sampleAttr.mvMapping 7).length < 2 ^ 32 ∧
    (∀ i (hi : i < (sampleAttr.mvMapping 7).length), i < 2 →
      (sampleAttr.get 7 (fun _ => 99) 2).1 i
        = (MultiValueType.value ((sampleAttr.mvMapping 7).get ⟨i, hi⟩)).ref) ∧
    (∀ i, min 2 (sampleAttr.mvMapping 7).length ≤ i →
      (sampleAttr.get 7 (fun _ => 99) 2).1 i = 99) :=
  ⟨by decide,
   (get_copies_truncated sampleAttr 7 (fun _ => 99) (fun _ => ⟨0, 0⟩) 2 (by decide)).1,
   (get_copies_truncated sampleAttr 7 (fun _ => 99) (fun _ => ⟨0, 0⟩) 2 (by decide)).2.1⟩

end MultiValueEnumAttribute

/-! ## Bits beyond the guard -/

namespace AllocatedBitVector

end AllocatedBitVector
namespace AllocatedBitVector

end AllocatedBitVector
/-! ## The retry loop of `extract_size_capacity` -/

theorem extract_size_capacity_some (reads : Nat → Nat × Nat) (fuel k : Nat) (p : Nat × Nat)
    (h : extract_size_capacity reads fuel k = some p) :
    ∃ j, k ≤ j ∧ j < k + fuel ∧ p = reads j ∧ p.1 ≤ p.2 ∧
      ∀ i, k ≤ i → i < j → (reads i).2 < (reads i).1 := by
  induction fuel generalizing k with
  | zero =>
    unfold extract_size_capacity at h
    cases h
  | succ n ih =>
    unfold extract_size_capacity at h
    by_cases ht : (reads k).2 < (reads k).1
    · rw [if_pos ht] at h
      obtain ⟨j, h1, h2, h3, h4, h5⟩ := ih (k + 1) h
      refine ⟨j, by omega, by omega, h3, h4, ?_⟩
      intro i hi1 hi2
      by_cases e : i = k
      · rw [e]; exact ht
      · exact h5 i (by omega) hi2
    · rw [if_neg ht] at h
      cases h
      exact ⟨k, Nat.le_refl k, by omega, rfl, Nat.le_of_not_lt ht, fun i h1 h2 => by omega⟩

theorem extract_size_capacity_finds (reads : Nat → Nat × Nat) (fuel k j : Nat)
    (hk : k ≤ j) (hf : j < k + fuel) (hj : (reads j).1 ≤ (reads j).2)
    (ht : ∀ i, k ≤ i → i < j → (reads i).2 < (reads i).1) :
    extract_size_capacity reads fuel k = some (reads j) := by
  induction fuel generalizing k with
  | zero => omega
  | succ n ih =>
    unfold extract_size_capacity
    by_cases e : k = j
    · subst e
      rw [if_neg (Nat.not_lt.mpr hj)]
    · rw [if_pos (ht k (Nat.le_refl k) (by omega))]
      exact ih (k + 1) (by omega) (by omega) (fun i h1 h2 => ht i (by omega) h2)

/-- C15: whenever `extract_size_capacity` returns, the pair it returns is the pair read in one
round (a read of `size()` followed by a read of `capacity()`), it satisfies
`capacity >= size`, and every earlier round was torn; a first round with `capacity >= size` is
returned whatever later reads would give; and the loop does return, with the first round that
is not torn, as soon as there is one. -/
theorem extract_size_capacity_retry (reads : Nat → Nat × Nat) :
    (∀ fuel p, extract_size_capacity reads fuel 0 = some p →
      ∃ j, j < fuel ∧ p = reads j ∧ p.1 ≤ p.2 ∧ ∀ i, i < j → (reads i).2 < (reads i).1) ∧
    (∀ fuel p, extract_size_capacity reads fuel 0 = some p → ¬ p.2 < p.1) ∧
    (∀ fuel, (reads 0).1 ≤ (reads 0).2 →
      ∀ later : Nat → Nat × Nat, later 0 = reads 0 →
        extract_size_capacity later (fuel + 1) 0 = some (reads 0)) ∧
    (∀ fuel j, j < fuel → (reads j).1 ≤ (reads j).2 →
      (∀ i, i < j → (reads i).2 < (reads i).1) →
      extract_size_capacity reads fuel 0 = some (reads j)) := by
  refine ⟨?_, ?_, ?_, ?_⟩
  · intro fuel p h
    obtain ⟨j, _, h2, h3, h4, h5⟩ := extract_size_capacity_some reads fuel 0 p h
    exact ⟨j, by omega, h3, h4, fun i hi => h5 i (Nat.zero_le i) hi⟩
  · intro fuel p h
    obtain ⟨j, _, _, _, h4, _⟩ := extract_size_capacity_some reads fuel 0 p h
    omega
  · intro fuel h0 later hl
    rw [← hl]
    exact extract_size_capacity_finds later (fuel + 1) 0 0 (Nat.le_refl 0) (by omega)
      (by rw [hl]; exact h0) (fun i h1 h2 => by omega)
  · intro fuel j hj hc ht
    exact extract_size_capacity_finds reads fuel 0 j (Nat.zero_le j) (by omega) hc
      (fun i _ h2 => ht i h2)

theorem extract_size_capacity_retry_witness :
    extract_size_capacity (fun k => if k = 0 then (20, 10) else (10, 1023)) 3 0
      = some (10, 1023) :=
  (extract_size_capacity_retry (fun k => if k = 0 then (20, 10) else (10, 1023))).2.2.2 3 1
    (by decide) (by decide) (fun i hi => by
      have : i = 0 := by omega
      subst this
      decide)

/-! ## The capacity and the allocation -/

namespace AllocatedBitVector

theorem create_padded (junk : Nat → Nat) (n : Nat) (hn : n < 2 ^ 32) :
    ∃ bv : AllocatedBitVector, create junk n = .ok bv ∧ bv.CapacityIsAllocation ∧
      n ≤ bv.capacity := by
  obtain ⟨mem, hm, l1, l2, l3, hz⟩ := BitVector.allocatePaddedAndAligned_spec junk n n (Nat.le_refl n)
  have hc := computeCapacity_ok n (allocSize mem) (by unfold allocSize; omega)
    (by unfold allocSize; omega)
  obtain ⟨f1, f2, f3, f4, f5⟩ := BitVector.init_clear_fields BitVector.empty mem n
  simp only [create, hm, hc, bind, Except.bind, pure, Except.pure]
  refine ⟨_, rfl, ⟨?_, ?_⟩, ?_⟩
  · show allocSize mem * 8 - 1 + 1 = allocSize ((BitVector.empty.init mem 0 0 n).clear).mem * 8
    unfold allocSize; rw [f4]; omega
  · show ((BitVector.empty.init mem 0 0 n).clear).mem.length % 16 = 0
    rw [f4]; exact l3
  · show n ≤ allocSize mem * 8 - 1
    unfold allocSize; omega

theorem resize_padded (junk : Nat → Nat) (bv : AllocatedBitVector) (n : Nat) (hn : n < 2 ^ 32) :
    ∃ bv2 : AllocatedBitVector, resize junk bv n = .ok bv2 ∧ bv2.CapacityIsAllocation ∧
      n ≤ bv2.capacity := by
  obtain ⟨mem, hm, l1, l2, l3, hz⟩ := BitVector.allocatePaddedAndAligned_spec junk n n (Nat.le_refl n)
  have hc := computeCapacity_ok n (allocSize mem) (by unfold allocSize; omega)
    (by unfold allocSize; omega)
  obtain ⟨f1, f2, f3, f4, f5⟩ := BitVector.init_clear_fields bv.toBitVector mem n
  simp only [resize, hm, hc, bind, Except.bind, pure, Except.pure]
  refine ⟨_, rfl, ⟨?_, ?_⟩, ?_⟩
  · show allocSize mem * 8 - 1 + 1 = allocSize ((bv.toBitVector.init mem 0 0 n).clear).mem * 8
    unfold allocSize; rw [f4]; omega
  · show ((bv.toBitVector.init mem 0 0 n).clear).mem.length % 16 = 0
    rw [f4]; exact l3
  · show n ≤ allocSize mem * 8 - 1
    unfold allocSize; omega

theorem createFromBuf_padded (junk : Nat → Nat) (n cap : Nat) (rhsBuf : List Nat) (rhsSize : Nat)
    (h1 : n ≤ cap) (h2 : cap < 2 ^ 32) :
    ∃ bv : AllocatedBitVector, createFromBuf junk n cap rhsBuf rhsSize = .ok bv ∧
      bv.CapacityIsAllocation ∧ cap ≤ bv.capacity := by
  obtain ⟨mem, hm, l1, l2, l3, hz⟩ := BitVector.allocatePaddedAndAligned_spec junk n cap h1
  have hc := computeCapacity_ok cap (allocSize mem) (by unfold allocSize; omega)
    (by unfold allocSize; omega)
  obtain ⟨f1, f2, f3, f4, f5⟩ := BitVector.init_clear_fields BitVector.empty mem n
  have hlen : n / 64 < mem.length := by omega
  have hb := fun j => BitVector.testBit_init_clear BitVector.empty mem n j hlen hz
  have key := copy_block_spec ((BitVector.empty.init mem 0 0 n).clear) n rhsBuf rhsSize
    f1 f2 f3 (by rw [f4]; exact hlen) hb _ rfl
  obtain ⟨k1, k2, k3, k4, k5⟩ := key
  have e := k4.trans f4
  simp only [createFromBuf, hm, hc, bind, Except.bind, pure, Except.pure]
  refine ⟨_, rfl, ⟨?_, ?_⟩, ?_⟩
  · have : allocSize mem * 8 - 1 + 1 = mem.length * 8 * 8 := by unfold allocSize; omega
    rw [← e] at this
    exact this
  · have : mem.length % 16 = 0 := l3
    rw [← e] at this
    exact this
  · show cap ≤ allocSize mem * 8 - 1
    unfold allocSize; omega

theorem createCopy_padded (junk : Nat → Nat) (rhs : BitVector) (size capacity : Nat)
    (h1 : size ≤ capacity) (h2 : capacity < 2 ^ 32) :
    ∃ bv : AllocatedBitVector, createCopy junk rhs (size, capacity) = .ok bv ∧
      bv.CapacityIsAllocation ∧ capacity ≤ bv.capacity := by
  obtain ⟨mem, hm, l1, l2, l3, hz⟩ :=
    BitVector.allocatePaddedAndAligned_spec junk size capacity h1
  have hc := computeCapacity_ok capacity (allocSize mem) (by unfold allocSize; omega)
    (by unfold allocSize; omega)
  simp only [createCopy, hm, hc, bind, Except.bind, pure, Except.pure]
  refine ⟨_, rfl, ⟨?_, ?_⟩, ?_⟩
  · show allocSize mem * 8 - 1 + 1 = allocSize (BitVector.mem _) * 8
    simp only [BitVector.updateCount, allocSize, BitVector.setBit_mem_length, BitVector.init,
      length_copyWords]
    omega
  · show (BitVector.mem _).length % 16 = 0
    simp only [BitVector.updateCount, BitVector.setBit_mem_length, BitVector.init,
      length_copyWords]
    exact l3
  · show capacity ≤ allocSize mem * 8 - 1
    unfold allocSize; omega

theorem grow_padded (junk : Nat → Nat) (bv : AllocatedBitVector) (newSize newCapacity : Nat)
    (hle : newSize ≤ newCapacity) (hb : newCapacity < 2 ^ 32)
    (hp : bv.CapacityIsAllocation ∨ newCapacity ≠ bv.capacity) :
    ∃ (bv2 : AllocatedBitVector) (held : Option GenerationHeldAlloc),
      grow junk bv newSize newCapacity = .ok (bv2, held) ∧ bv2.CapacityIsAllocation ∧
      newCapacity ≤ bv2.capacity := by
  by_cases hc : newCapacity = bv.capacity
  · subst hc
    have hp' : bv.CapacityIsAllocation := hp.elim id (fun h => absurd rfl h)
    obtain ⟨p1, p2⟩ := hp'
    by_cases hg : bv.sz < newSize
    · refine ⟨_, none, grow_eq_extend junk bv newSize hg hle, ⟨?_, ?_⟩, Nat.le_refl _⟩
      · show bv.capacityBits + 1 = allocSize (BitVector.mem _) * 8
        unfold allocSize at p1 ⊢
        simpa using p1
      · show (BitVector.mem _).length % 16 = 0
        simpa using p2
    · have hle2 : newSize ≤ bv.sz := Nat.le_of_not_lt hg
      refine ⟨_, none, grow_eq_shrink junk bv newSize hle2 hle, ⟨?_, ?_⟩, Nat.le_refl _⟩
      · show bv.capacityBits + 1 = allocSize (BitVector.mem _) * 8
        unfold allocSize at p1 ⊢
        simpa [BitVector.clearInterval, BitVector.invalidateCachedCount] using p1
      · show (BitVector.mem _).length % 16 = 0
        simpa [BitVector.clearInterval, BitVector.invalidateCachedCount] using p2
  · obtain ⟨tbv, ht, tp, tc⟩ := createFromBuf_padded junk newSize newCapacity bv.mem bv.sz hle hb
    unfold grow
    rw [if_neg (Nat.not_lt.mpr hle), if_pos hc]
    simp only [ht, bind, Except.bind, pure, Except.pure]
    by_cases hg : newSize > bv.sz
    · rw [if_pos hg]
      obtain ⟨c1, c2, c3, c4⟩ := BitVector.clearBitAndMaintainCount_fields tbv.toBitVector bv.sz
      refine ⟨_, _, rfl, ⟨?_, ?_⟩, tc⟩
      · show tbv.capacityBits + 1
            = allocSize (tbv.toBitVector.clearBitAndMaintainCount bv.sz).mem * 8
        unfold allocSize
        rw [c4]
        exact tp.1
      · show (tbv.toBitVector.clearBitAndMaintainCount bv.sz).mem.length % 16 = 0
        rw [c4]
        exact tp.2
    · rw [if_neg hg]
      exact ⟨_, _, rfl, tp, tc⟩

end AllocatedBitVector
namespace AllocatedBitVector

/-- C17 (counterexample): the constructor that wraps an external buffer sets the capacity to
the number of elements: over a buffer of 128 bytes and 10 elements `capacity()` is 10, not
`8 * 128 - 1`. -/
theorem createFromAlloc_capacity_not_padded :
    (createFromAlloc 10 (List.replicate 16 0) 0).capacity = 10 ∧
    allocSize (createFromAlloc 10 (List.replicate 16 0) 0).mem * 8 = 1024 ∧
    ¬ (createFromAlloc 10 (List.replicate 16 0) 0).CapacityIsAllocation := by
  decide

/-- C17 (amended): every vector made by `AllocatedBitVector(n)`,
`AllocatedBitVector(n, capacityBits, rhsBuf, rhsSize)`, the copy constructors, `resize` or a
reallocating `grow` has `capacity() + 1` equal to the number of bits of its block, which is a
whole number of padded units, and a capacity of at least the one asked for; an in-place `grow`
keeps this; the constructor over an external buffer sets `capacity()` to `numberOfElements`. -/
theorem capacity_padded_to_allocation (junk : Nat → Nat) :
    (∀ n, n < 2 ^ 32 →
      ∃ bv : AllocatedBitVector, create junk n = .ok bv ∧ bv.CapacityIsAllocation ∧
        n ≤ bv.capacity) ∧
    (∀ n cap rhsBuf rhsSize, n ≤ cap → cap < 2 ^ 32 →
      ∃ bv : AllocatedBitVector, createFromBuf junk n cap rhsBuf rhsSize = .ok bv ∧
        bv.CapacityIsAllocation ∧ cap ≤ bv.capacity) ∧
    (∀ (rhs : AllocatedBitVector) (fuel : Nat), rhs.sz ≤ rhs.capacity → rhs.capacity < 2 ^ 32 →
      ∃ bv : AllocatedBitVector, copyAllocated junk rhs (fuel + 1) = some (.ok bv) ∧
        bv.CapacityIsAllocation ∧ rhs.capacity ≤ bv.capacity) ∧
    (∀ rhs : BitVector, rhs.sz < 2 ^ 32 →
      ∃ bv : AllocatedBitVector, copyBitVector junk rhs = .ok bv ∧
        bv.CapacityIsAllocation ∧ rhs.sz ≤ bv.capacity) ∧
    (∀ (bv : AllocatedBitVector) (n : Nat), n < 2 ^ 32 →
      ∃ bv2 : AllocatedBitVector, resize junk bv n = .ok bv2 ∧ bv2.CapacityIsAllocation ∧
        n ≤ bv2.capacity) ∧
    (∀ (bv : AllocatedBitVector) (newSize newCapacity : Nat),
      newSize ≤ newCapacity → newCapacity < 2 ^ 32 →
      (bv.CapacityIsAllocation ∨ newCapacity ≠ bv.capacity) →
      ∃ (bv2 : AllocatedBitVector) (held : Option GenerationHeldAlloc),
        grow junk bv newSize newCapacity = .ok (bv2, held) ∧ bv2.CapacityIsAllocation ∧
        newCapacity ≤ bv2.capacity) ∧
    (∀ n buffer offset, (createFromAlloc n buffer offset).capacity = n) := by
  refine ⟨?_, ?_, ?_, ?_, ?_, ?_, ?_⟩
  · exact fun n hn => create_padded junk n hn
  · exact fun n cap rhsBuf rhsSize h1 h2 => createFromBuf_padded junk n cap rhsBuf rhsSize h1 h2
  · intro rhs fuel h1 h2
    obtain ⟨bv, h, hp, hc⟩ := createCopy_padded junk rhs.toBitVector rhs.sz rhs.capacity h1 h2
    refine ⟨bv, ?_, hp, hc⟩
    unfold copyAllocated
    rw [extract_size_capacity_consistent rhs.sz rhs.capacityBits fuel h1]
    exact congrArg some h
  · intro rhs h
    exact createCopy_padded junk rhs rhs.sz rhs.sz (Nat.le_refl _) h
  · exact fun bv n hn => resize_padded junk bv n hn
  · exact fun bv newSize newCapacity hle hb hp => grow_padded junk bv newSize newCapacity hle hb hp
  · exact fun n buffer offset => rfl

theorem capacity_padded_to_allocation_witness :
    (∃ bv : AllocatedBitVector, create (fun _ => 0) 20 = .ok bv ∧ bv.CapacityIsAllocation ∧
        20 ≤ bv.capacity) ∧
    (∃ bv : AllocatedBitVector, createFromBuf (fun _ => 0) 30 2047 sample10.mem 10 = .ok bv ∧
        bv.CapacityIsAllocation ∧ 2047 ≤ bv.capacity) ∧
    (∃ bv : AllocatedBitVector, copyAllocated (fun _ => 0) sample10 1 = some (.ok bv) ∧
        bv.CapacityIsAllocation ∧ sample10.capacity ≤ bv.capacity) ∧
    (∃ bv : AllocatedBitVector, copyBitVector (fun _ => 0) sample10.toBitVector = .ok bv ∧
        bv.CapacityIsAllocation ∧ sample10.sz ≤ bv.capacity) ∧
    (∃ bv2 : AllocatedBitVector, resize (fun _ => 0) sample10 20 = .ok bv2 ∧
        bv2.CapacityIsAllocation ∧ 20 ≤ bv2.capacity) ∧
    (∃ (bv2 : AllocatedBitVector) (held : Option GenerationHeldAlloc),
        grow (fun _ => 0) sample10 20 1023 = .ok (bv2, held) ∧ bv2.CapacityIsAllocation ∧
        1023 ≤ bv2.capacity) :=
  ⟨(capacity_padded_to_allocation (fun _ => 0)).1 20 (by decide),
   (capacity_padded_to_allocation (fun _ => 0)).2.1 30 2047 sample10.mem 10 (by decide)
     (by decide),
   (capacity_padded_to_allocation (fun _ => 0)).2.2.1 sample10 0 (by decide) (by decide),
   (capacity_padded_to_allocation (fun _ => 0)).2.2.2.1 sample10.toBitVector (by decide),
   (capacity_padded_to_allocation (fun _ => 0)).2.2.2.2.1 sample10 20 (by decide),
   (capacity_padded_to_allocation (fun _ => 0)).2.2.2.2.2.1 sample10 20 1023 (by decide)
     (by decide) (Or.inl (by decide))⟩

end AllocatedBitVector
/-! ## Freshly created vectors -/

namespace BitVector

theorem count_eq_zero (b : BitVector) (h : ∀ i, i < b.sz → b.testBit i = false) :
    b.count = 0 := by
  unfold count
  rw [List.length_eq_zero, List.filter_eq_nil_iff]
  intro i hi
  rw [List.mem_range] at hi
  rw [h i hi, Bool.and_false]
  exact Bool.false_ne_true

end BitVector

namespace AllocatedBitVector

/-- C18: `AllocatedBitVector(n)` has size `n`, every bit of `[0, n)` clear, the guard bit at
`n` set and a true-bit count of 0, and so has
`AllocatedBitVector(n, capacityBits, rhsBuf, rhsSize)` with `rhsSize = 0`. -/
theorem fresh_vector_empty (junk : Nat → Nat) :
    (∀ n, n < 2 ^ 32 →
      ∃ bv : AllocatedBitVector, create junk n = .ok bv ∧
        bv.sz = n ∧ (∀ i, i < n → bv.testBit i = false) ∧ bv.testBit n = true ∧
        bv.numTrueBits = 0 ∧ bv.toBitVector.count = 0) ∧
    (∀ n capacityBits rhsBuf, n ≤ capacityBits → capacityBits < 2 ^ 32 →
      ∃ bv : AllocatedBitVector, createFromBuf junk n capacityBits rhsBuf 0 = .ok bv ∧
        bv.sz = n ∧ (∀ i, i < n → bv.testBit i = false) ∧ bv.testBit n = true ∧
        bv.numTrueBits = 0 ∧ bv.toBitVector.count = 0) := by
  constructor
  · intro n hn
    obtain ⟨bv, h, _, _, hsz, _, _, hcnt, hbits⟩ := create_spec junk n hn
    have hclear : ∀ i, i < n → bv.testBit i = false := by
      intro i hi
      rw [hbits, decide_eq_false (by omega : ¬ i = n)]
    refine ⟨bv, h, hsz, hclear, ?_, hcnt, ?_⟩
    · rw [hbits]
      exact decide_eq_true rfl
    · exact BitVector.count_eq_zero _ (fun i hi => hclear i (by rw [← hsz]; exact hi))
  · intro n cap rhsBuf h1 h2
    obtain ⟨bv, h, _, _, hsz, _, _, hcnt, hbits⟩ := createFromBuf_spec junk n cap rhsBuf 0 h1 h2
    have hclear : ∀ i, i < n → bv.testBit i = false := by
      intro i hi
      rw [hbits, decide_eq_false (by omega : ¬ i = n), Bool.false_or,
        decide_eq_false (fun hh => absurd hh.1 (Nat.lt_irrefl 0)), Bool.false_and]
    have hzero : bv.toBitVector.count = 0 :=
      BitVector.count_eq_zero _ (fun i hi => hclear i (by rw [← hsz]; exact hi))
    refine ⟨bv, h, hsz, hclear, ?_, ?_, hzero⟩
    · rw [hbits, decide_eq_true (rfl : n = n)]
      rfl
    · rw [hcnt]
      exact hzero

theorem fresh_vector_empty_witness :
    (∃ bv : AllocatedBitVector, create (fun i => i + 7) 20 = .ok bv ∧
        bv.sz = 20 ∧ (∀ i, i < 20 → bv.testBit i = false) ∧ bv.testBit 20 = true ∧
        bv.numTrueBits = 0 ∧ bv.toBitVector.count = 0) ∧
    (∃ bv : AllocatedBitVector, createFromBuf (fun i => i + 7) 20 100 sample10.mem 0 = .ok bv ∧
        bv.sz = 20 ∧ (∀ i, i < 20 → bv.testBit i = false) ∧ bv.testBit 20 = true ∧
        bv.numTrueBits = 0 ∧ bv.toBitVector.count = 0) :=
  ⟨(fresh_vector_empty (fun i => i + 7)).1 20 (by decide),
   (fresh_vector_empty (fun i => i + 7)).2 20 100 sample10.mem (by decide) (by decide)⟩

end AllocatedBitVector
/-! ## Copying a vector -/

namespace AllocatedBitVector

theorem createCopy_bits (junk : Nat → Nat) (rhs : BitVector) (size capacity : Nat)
    (h0 : rhs.startOffset = 0) (h1 : size ≤ capacity) (h2 : capacity < 2 ^ 32) :
    ∃ bv : AllocatedBitVector, createCopy junk rhs (size, capacity) = .ok bv ∧
      bv.sz = size ∧ capacity ≤ bv.capacityBits ∧
      (∀ j, j / 64 ≤ size / 64 → j ≠ size → bv.testBit j = rhs.testBit j) ∧
      bv.testBit size = true := by
  obtain ⟨mem, hm, l1, l2, l3, hz⟩ :=
    BitVector.allocatePaddedAndAligned_spec junk size capacity h1
  have hc := computeCapacity_ok capacity (allocSize mem) (by unfold allocSize; omega)
    (by unfold allocSize; omega)
  have hs : (size + 2 ^ 32 - rhs.startOffset) % 2 ^ 32 = size := by
    rw [h0, Nat.sub_zero, Nat.add_mod_right, Nat.mod_eq_of_lt (by omega)]
  have hnb : BitVector.numBytes size / 8 = size / 64 + 1 := by
    rw [BitVector.numBytes, BitVector.numWords_eq]; omega
  have hlen : size / 64 < mem.length := by omega
  simp only [createCopy, hm, hc, bind, Except.bind, pure, Except.pure, hs, hnb]
  have key : ∀ j, ((BitVector.empty.init (copyWords mem rhs.mem 0 rhs.words (size / 64 + 1))
      0 0 size).setBit size).testBit j
        = (decide (j = size) ||
            (if j / 64 < size / 64 + 1 then rhs.testBit j else (mem.getD (j / 64) 0).testBit (j % 64))) := by
    intro j
    rw [BitVector.testBit_setBit]
    · congr 1
      rw [BitVector.testBit_eq, BitVector.testBit_eq]
      unfold BitVector.word BitVector.init
      simp only [wordNum, WordLen, Nat.zero_div, Nat.sub_zero, Nat.zero_add]
      rw [getD_copyWords]
      by_cases hj : j / 64 < size / 64 + 1
      · rw [if_pos hj, if_pos ⟨Nat.zero_le _, by omega, by omega⟩, Nat.sub_zero]
      · rw [if_neg hj, if_neg (by omega)]
    · simp only [BitVector.init, wordNum, WordLen, Nat.zero_div, Nat.sub_zero, Nat.zero_add,
        length_copyWords]
      exact hlen
  refine ⟨_, rfl, rfl, ?_, ?_, ?_⟩
  · show capacity ≤ allocSize mem * 8 - 1
    unfold allocSize; omega
  · intro j hj hne
    show BitVector.testBit _ j = _
    have := key j
    rw [decide_eq_false hne, Bool.false_or, if_pos (by omega)] at this
    exact this
  · show BitVector.testBit _ size = _
    have := key size
    rw [decide_eq_true rfl, Bool.true_or] at this
    exact this

/-- C20: copying a vector `rhs` that starts at index 0 and is not resized meanwhile, by the copy
constructor or by `operator=`, gives a vector of the size of `rhs` with the bits of `rhs` in
`[0, size())`, the guard bit set (the assertion of `operator=` holds) and
`capacity() >= size()`; size and capacity come from one round of reads of `rhs`. -/
theorem copy_yields_equal_vector (junk : Nat → Nat) (rhs : AllocatedBitVector) (fuel : Nat)
    (h0 : rhs.startOffset = 0) (h1 : rhs.sz ≤ rhs.capacity) (h2 : rhs.capacity < 2 ^ 32) :
    (∃ bv : AllocatedBitVector, copyAllocated junk rhs (fuel + 1) = some (.ok bv) ∧
      bv.sz = rhs.sz ∧ (∀ i, i < rhs.sz → bv.testBit i = rhs.testBit i) ∧
      bv.testBit bv.sz = true ∧ bv.sz ≤ bv.capacity ∧ rhs.capacity ≤ bv.capacity) ∧
    (∃ bv : AllocatedBitVector, assign junk rhs (fuel + 1) = some (.ok bv) ∧
      bv.sz = rhs.sz ∧ (∀ i, i < rhs.sz → bv.testBit i = rhs.testBit i) ∧
      bv.testBit bv.sz = true ∧ bv.sz ≤ bv.capacity ∧ rhs.capacity ≤ bv.capacity) ∧
    extract_size_capacity (fun _ => (rhs.sz, rhs.capacityBits)) (fuel + 1) 0
      = some (rhs.sz, rhs.capacityBits) := by
  obtain ⟨bv, h, hsz, hcap, hbits, hguard⟩ :=
    createCopy_bits junk rhs.toBitVector rhs.sz rhs.capacity h0 h1 h2
  have hx := extract_size_capacity_consistent rhs.sz rhs.capacityBits fuel h1
  have hcopy : copyAllocated junk rhs (fuel + 1) = some (.ok bv) := by
    unfold copyAllocated
    rw [hx]
    exact congrArg some h
  have hprefix : ∀ i, i < rhs.sz → bv.testBit i = rhs.testBit i :=
    fun i hi => hbits i (Nat.div_le_div_right (Nat.le_of_lt hi)) (by omega)
  have hg : bv.testBit bv.sz = true := by rw [hsz]; exact hguard
  have hle : bv.sz ≤ bv.capacity := by rw [hsz]; exact Nat.le_trans h1 hcap
  refine ⟨⟨bv, hcopy, hsz, hprefix, hg, hle, hcap⟩, ⟨bv, ?_, hsz, hprefix, hg, hle, hcap⟩, hx⟩
  unfold assign
  rw [hcopy]
  simp only [Option.map_some', bind, Except.bind, pure, Except.pure]
  rw [if_pos hg]

theorem copy_yields_equal_vector_witness :
    (∃ bv : AllocatedBitVector, copyAllocated (fun i => i + 9) sample10 1 = some (.ok bv) ∧
      bv.sz = sample10.sz ∧ (∀ i, i < sample10.sz → bv.testBit i = sample10.testBit i) ∧
      bv.testBit bv.sz = true ∧ bv.sz ≤ bv.capacity ∧ sample10.capacity ≤ bv.capacity) ∧
    (∃ bv : AllocatedBitVector, assign (fun i => i + 9) sample10 1 = some (.ok bv) ∧
      bv.sz = sample10.sz ∧ (∀ i, i < sample10.sz → bv.testBit i = sample10.testBit i) ∧
      bv.testBit bv.sz = true ∧ bv.sz ≤ bv.capacity ∧ sample10.capacity ≤ bv.capacity) ∧
    extract_size_capacity (fun _ => (sample10.sz, sample10.capacityBits)) 1 0
      = some (sample10.sz, sample10.capacityBits) :=
  copy_yields_equal_vector (fun i => i + 9) sample10 0 (by decide) (by decide) (by decide)

end AllocatedBitVector

/-! ## `DocsumContext::createSlimeReply` -/

namespace proton

namespace DocsumContext

variable {σ D : Type}

theorem docsumLoop_spec (endDocId : Nat) (req : DocsumRequest) (w : DocsumWriter σ D)
    (rci : ResolveClassInfo) (cnt : Nat) (buf : List Nat) (hlen : buf.length = cnt) :
    ∀ (fuel i polls : Nat) (array : List (Option D)) (ws : σ), i ≤ cnt → cnt - i ≤ fuel →
      ∃ k, i ≤ k ∧ k ≤ cnt ∧ (∀ j, j < k - i → req.expired (polls + j) = false) ∧
        (k < cnt → req.expired (polls + (k - i)) = true) ∧
        (docsumLoop endDocId req w rci cnt buf fuel i polls array ws).1 = k ∧
        (docsumLoop endDocId req w rci cnt buf fuel i polls array ws).2.1
          = polls + (k - i) + (if k < cnt then 1 else 0) ∧
        (docsumLoop endDocId req w rci cnt buf fuel i polls array ws).2.2.1
          = array ++ docsumEntries endDocId w rci ((buf.drop i).take (k - i)) ws := by
  intro fuel
  induction fuel with
  | zero =>
    intro i polls array ws hi hf
    have e : i = cnt := by omega
    refine ⟨i, Nat.le_refl i, hi, fun j hj => by omega, fun h => by omega, rfl, ?_, ?_⟩
    · show polls = _
      rw [if_neg (by omega), Nat.sub_self]
      rfl
    · show array = _
      rw [Nat.sub_self, List.take_zero]
      simp [docsumEntries]
  | succ n ih =>
    intro i polls array ws hi hf
    unfold docsumLoop
    by_cases h1 : i < cnt
    · rw [if_pos h1]
      by_cases h2 : req.expired polls = true
      · rw [if_pos h2]
        refine ⟨i, Nat.le_refl i, hi, fun j hj => by omega, fun _ => ?_, rfl, ?_, ?_⟩
        · rw [Nat.sub_self, Nat.add_zero]; exact h2
        · show polls + 1 = _
          rw [if_pos h1, Nat.sub_self]
        · show array = _
          rw [Nat.sub_self, List.take_zero]
          simp [docsumEntries]
      · rw [if_neg h2]
        have hdrop : buf.drop i = buf.getD i 0 :: buf.drop (i + 1) := by
          have hi' : i < buf.length := by omega
          rw [List.getD_eq_getElem _ _ hi']
          exact List.drop_eq_getElem_cons hi'
        have hexp : req.expired polls = false := by
          cases h : req.expired polls
          · rfl
          · exact absurd h h2
        have combine : ∀ (array2 : List (Option D)) (ws2 : σ) (e : Option D),
            (∀ k, docsumEntries endDocId w rci ((buf.drop i).take (k + 1)) ws
              = e :: docsumEntries endDocId w rci ((buf.drop (i + 1)).take k) ws2) →
            array2 = array ++ [e] →
            ∃ k, i ≤ k ∧ k ≤ cnt ∧ (∀ j, j < k - i → req.expired (polls + j) = false) ∧
              (k < cnt → req.expired (polls + (k - i)) = true) ∧
              (docsumLoop endDocId req w rci cnt buf n (i + 1) (polls + 1) array2 ws2).1 = k ∧
              (docsumLoop endDocId req w rci cnt buf n (i + 1) (polls + 1) array2 ws2).2.1
                = polls + (k - i) + (if k < cnt then 1 else 0) ∧
              (docsumLoop endDocId req w rci cnt buf n (i + 1) (polls + 1) array2 ws2).2.2.1
                = array ++ docsumEntries endDocId w rci ((buf.drop i).take (k - i)) ws := by
          intro array2 ws2 e he ha
          obtain ⟨k, k1, k2, k3, k4, k5, k6, k7⟩ := ih (i + 1) (polls + 1) array2 ws2 h1 (by omega)
          refine ⟨k, by omega, k2, ?_, ?_, k5, ?_, ?_⟩
          · intro j hj
            by_cases hj0 : j = 0
            · rw [hj0, Nat.add_zero]; exact hexp
            · have := k3 (j - 1) (by omega)
              rw [show polls + 1 + (j - 1) = polls + j by omega] at this
              exact this
          · intro hk
            have := k4 hk
            rw [show polls + 1 + (k - (i + 1)) = polls + (k - i) by omega] at this
            exact this
          · rw [k6]
            omega
          · rw [k7, ha, show k - i = (k - (i + 1)) + 1 by omega, he, List.append_assoc]
            rfl
        by_cases h3 : buf.getD i 0 ≠ endDocId ∧ rci.mustSkip = false
        · simp only [h3, and_self, if_true, not_false_eq_true, ne_eq]
          apply combine _ _ (some (w.insertDocsum rci ws (buf.getD i 0)).2) _ rfl
          intro k
          rw [hdrop, List.take_succ_cons]
          simp only [docsumEntries]
          rw [if_pos h3]
        · rw [if_neg h3]
          apply combine _ _ none _ rfl
          intro k
          rw [hdrop, List.take_succ_cons]
          simp only [docsumEntries]
          rw [if_neg h3]
    · rw [if_neg h1]
      have e : i = cnt := by omega
      refine ⟨i, Nat.le_refl i, hi, fun j hj => by omega, fun h => by omega, rfl, ?_, ?_⟩
      · show polls = _
        rw [if_neg h1, Nat.sub_self]
        rfl
      · show array = _
        rw [Nat.sub_self, List.take_zero]
        simp [docsumEntries]

end DocsumContext

end proton

namespace proton

namespace DocsumContext

variable {σ D : Type}

theorem docsumbuf_eq (hits : List Hit) :
    ((List.range hits.length).map fun i => (hits.getD i default).docid) = hits.map Hit.docid := by
  apply List.ext_getElem
  · simp
  · intro i h1 h2
    have hi : i < hits.length := by simpa using h1
    simp [List.getElem?_eq_getElem hi]

theorem stop_unique (expired : Nat → Bool) (n k1 k2 : Nat)
    (a1 : ∀ j, j < k1 → expired j = false) (a2 : k1 < n → expired k1 = true) (a3 : k1 ≤ n)
    (b1 : ∀ j, j < k2 → expired j = false) (b2 : k2 < n → expired k2 = true) (b3 : k2 ≤ n) :
    k1 = k2 := by
  by_contra hne
  by_cases h : k1 < k2
  · have t := a2 (by omega)
    rw [b1 k1 h] at t
    exact Bool.false_ne_true t
  · have h' : k2 < k1 := by omega
    have t := b2 (by omega)
    rw [a1 k2 h'] at t
    exact Bool.false_ne_true t

theorem asInt32_of_lt (x : Nat) (h : x < 2 ^ 31) : asInt32 x = (x : Int) := by
  unfold asInt32
  rw [if_pos h]

theorem createSlimeReply_spec (endDocId : Nat) (req : DocsumRequest) (w : DocsumWriter σ D)
    (ws0 : σ) (oc : ResultClass) (hoc : w.resolveClassInfo.outputClass = some oc)
    (hn : req.hits.length < 2 ^ 31) :
    ∃ k, k ≤ req.hits.length ∧ (∀ j, j < k → req.expired j = false) ∧
      (k < req.hits.length → req.expired k = true) ∧
      ∃ (reply : SlimeReply D) (st : GetDocsumsState σ) (polls : Nat),
        createSlimeReply endDocId (create req w ws0) = some (reply, st, polls) ∧
        reply.docsums = docsumEntries endDocId w w.resolveClassInfo
          ((req.hits.take k).map Hit.docid) (w.InitState ws0) ∧
        reply.errors = (if k < req.hits.length then
          some [{ type := "timeout",
                  message := { numTimedOut := ((req.hits.length - k : Nat) : Int),
                               timeLeftUs := req.timeLeftUs } }]
          else none) ∧
        polls = k + (if k < req.hits.length then 1 else 0) := by
  have hmod : req.hits.length % 2 ^ 32 = req.hits.length := Nat.mod_eq_of_lt (by omega)
  obtain ⟨k, k1, k2, k3, k4, k5, k6, k7⟩ :=
    docsumLoop_spec endDocId req w w.resolveClassInfo req.hits.length (req.hits.map Hit.docid)
      (by simp) req.hits.length 0 0 [] (w.InitState ws0) (Nat.zero_le _) (by omega)
  refine ⟨k, k2, fun j hj => ?_, fun hk => ?_, ?_⟩
  · have := k3 j (by omega)
    rw [Nat.zero_add] at this
    exact this
  · have := k4 hk
    rw [Nat.zero_add, Nat.sub_zero] at this
    exact this
  · simp only [createSlimeReply, create, initState, hoc, hmod, docsumbuf_eq]
    refine ⟨_, _, _, rfl, ?_, ?_, ?_⟩
    · show (docsumLoop endDocId req w w.resolveClassInfo req.hits.length
          (req.hits.map Hit.docid) req.hits.length 0 0 [] (w.InitState ws0)).2.2.1 = _
      rw [k7, List.nil_append, List.drop_zero, Nat.sub_zero, List.map_take]
    · show (if (docsumLoop endDocId req w w.resolveClassInfo req.hits.length
          (req.hits.map Hit.docid) req.hits.length 0 0 [] (w.InitState ws0)).1
            ≠ req.hits.length then _ else _) = _
      rw [k5]
      by_cases hk : k < req.hits.length
      · rw [if_pos (by omega : k ≠ req.hits.length), if_pos hk]
        have e1 : (req.hits.length + 2 ^ 32 - k) % 2 ^ 32 = req.hits.length - k := by
          rw [show req.hits.length + 2 ^ 32 - k = (req.hits.length - k) + 2 ^ 32 by omega,
            Nat.add_mod_right, Nat.mod_eq_of_lt (by omega)]
        rw [e1, asInt32_of_lt _ (by omega)]
      · rw [if_neg (by omega : ¬ k ≠ req.hits.length), if_neg hk]
    · show (docsumLoop endDocId req w w.resolveClassInfo req.hits.length
          (req.hits.map Hit.docid) req.hits.length 0 0 [] (w.InitState ws0)).2.1 = _
      rw [k6, Nat.zero_add, Nat.sub_zero]

end DocsumContext

end proton

namespace proton

namespace DocsumContext

variable {σ D : Type}

theorem length_docsumEntries (endDocId : Nat) (w : DocsumWriter σ D) (rci : ResolveClassInfo)
    (l : List Nat) (ws : σ) : (docsumEntries endDocId w rci l ws).length = l.length := by
  induction l generalizing ws with
  | nil => rfl
  | cons d rest ih =>
    unfold docsumEntries
    split <;> simp [ih]

theorem docsumEntries_entry (endDocId : Nat) (w : DocsumWriter σ D) (rci : ResolveClassInfo)
    (l : List Nat) (ws : σ) (i : Nat) (hi : i < l.length) :
    ((l.get ⟨i, hi⟩ = endDocId ∨ rci.mustSkip = true) →
      (docsumEntries endDocId w rci l ws)[i]? = some none) ∧
    (¬ (l.get ⟨i, hi⟩ = endDocId ∨ rci.mustSkip = true) →
      ∃ s : σ, (docsumEntries endDocId w rci l ws)[i]?
        = some (some (w.insertDocsum rci s (l.get ⟨i, hi⟩)).2)) := by
  induction l generalizing ws i with
  | nil => exact absurd hi (Nat.not_lt_zero i)
  | cons d rest ih =>
    cases i with
    | zero =>
      unfold docsumEntries
      by_cases h : d ≠ endDocId ∧ rci.mustSkip = false
      · rw [if_pos h]
        refine ⟨fun hh => ?_, fun _ => ⟨ws, List.getElem?_cons_zero⟩⟩
        rcases hh with hh | hh
        · exact absurd hh h.1
        · rw [h.2] at hh; cases hh
      · rw [if_neg h]
        refine ⟨fun _ => List.getElem?_cons_zero, fun hh => ?_⟩
        exfalso
        apply h
        refine ⟨fun e => hh (Or.inl e), ?_⟩
        cases hm : rci.mustSkip
        · rfl
        · exact absurd (Or.inr hm) hh
    | succ i =>
      have hi' : i < rest.length := Nat.lt_of_succ_lt_succ hi
      unfold docsumEntries
      by_cases h : d ≠ endDocId ∧ rci.mustSkip = false
      · rw [if_pos h]
        simpa using ih (w.insertDocsum rci ws d).1 i hi'
      · rw [if_neg h]
        simpa using ih ws i hi'

/-- C11: when `expired()` stops the loop after `k < n` of the `n` hits, the reply is returned
with an `errors` array of exactly one object, of type `timeout`, whose message reports `n - k`
summaries; when all `n` hits are processed the reply has no `errors` field. -/
theorem createSlimeReply_marks_timeout (endDocId : Nat) (req : DocsumRequest)
    (w : DocsumWriter σ D) (ws0 : σ) (oc : ResultClass)
    (hoc : w.resolveClassInfo.outputClass = some oc) (hn : req.hits.length < 2 ^ 31)
    (k : Nat) (hk : k ≤ req.hits.length) (hrun : ∀ j, j < k → req.expired j = false)
    (hstop : k < req.hits.length → req.expired k = true) :
    ∃ (reply : SlimeReply D) (st : GetDocsumsState σ) (polls : Nat),
      createSlimeReply endDocId (create req w ws0) = some (reply, st, polls) ∧
      reply.docsums.length = k ∧
      (k < req.hits.length →
        ∃ e : ErrorObject, reply.errors = some [e] ∧ e.type = "timeout" ∧
          e.message.numTimedOut = ((req.hits.length - k : Nat) : Int) ∧
          e.message.text = "Timed out " ++ toString ((req.hits.length - k : Nat) : Int)
            ++ " summaries with " ++ toString req.timeLeftUs ++ "us left.") ∧
      (k = req.hits.length → reply.errors = none) := by
  obtain ⟨k2, a1, a2, a3, reply, st, polls, hr, hd, he, _⟩ :=
    createSlimeReply_spec endDocId req w ws0 oc hoc hn
  have hkk : k2 = k := stop_unique req.expired req.hits.length k2 k a2 a3 a1 hrun hstop hk
  subst hkk
  refine ⟨reply, st, polls, hr, ?_, ?_, ?_⟩
  · rw [hd, length_docsumEntries, List.length_map, List.length_take]
    omega
  · intro hlt
    rw [if_pos hlt] at he
    exact ⟨_, he, rfl, rfl, rfl⟩
  · intro heq
    rw [if_neg (by omega)] at he
    exact he

theorem createSlimeReply_marks_timeout_witness :
    ∃ (reply : SlimeReply Nat) (st : GetDocsumsState Unit) (polls : Nat),
      createSlimeReply 1000 (create sampleRequest (sampleWriter false) ()) = some (reply, st, polls) ∧
      reply.docsums.length = 2 ∧
      (2 < sampleRequest.hits.length →
        ∃ e : ErrorObject, reply.errors = some [e] ∧ e.type = "timeout" ∧
          e.message.numTimedOut = ((sampleRequest.hits.length - 2 : Nat) : Int) ∧
          e.message.text = "Timed out " ++ toString ((sampleRequest.hits.length - 2 : Nat) : Int)
            ++ " summaries with " ++ toString sampleRequest.timeLeftUs ++ "us left.") ∧
      (2 = sampleRequest.hits.length → reply.errors = none) :=
  createSlimeReply_marks_timeout 1000 sampleRequest (sampleWriter false) () ⟨false⟩ rfl
    (by decide) 2 (by decide) (fun j hj => by
      have : j = 0 ∨ j = 1 := by omega
      rcases this with h | h <;> subst h <;> decide) (fun _ => by decide)

/-- C12: the number of entries of the `docsums` array plus the timed-out count the reply
reports (0 without an `errors` field) is the number of hits, so a reply with fewer entries
than hits carries the timeout marker. -/
theorem createSlimeReply_accounts_for_every_hit (endDocId : Nat) (req : DocsumRequest)
    (w : DocsumWriter σ D) (ws0 : σ) (oc : ResultClass)
    (hoc : w.resolveClassInfo.outputClass = some oc) (hn : req.hits.length < 2 ^ 31) :
    ∃ (reply : SlimeReply D) (st : GetDocsumsState σ) (polls : Nat),
      createSlimeReply endDocId (create req w ws0) = some (reply, st, polls) ∧
      (reply.docsums.length : Int) + reply.reportedTimedOut = (req.hits.length : Int) ∧
      (reply.docsums.length < req.hits.length →
        ∃ e : ErrorObject, reply.errors = some [e] ∧ e.type = "timeout") := by
  obtain ⟨k, a1, a2, a3, reply, st, polls, hr, hd, he, _⟩ :=
    createSlimeReply_spec endDocId req w ws0 oc hoc hn
  have hlen : reply.docsums.length = k := by
    rw [hd, length_docsumEntries, List.length_map, List.length_take]
    omega
  refine ⟨reply, st, polls, hr, ?_, ?_⟩
  · unfold SlimeReply.reportedTimedOut
    rw [hlen, he]
    by_cases hlt : k < req.hits.length
    · rw [if_pos hlt]
      simp only []
      omega
    · rw [if_neg hlt]
      simp only []
      omega
  · intro hlt
    rw [hlen] at hlt
    rw [if_pos hlt] at he
    exact ⟨_, he, rfl⟩

theorem createSlimeReply_accounts_for_every_hit_witness :
    ∃ (reply : SlimeReply Nat) (st : GetDocsumsState Unit) (polls : Nat),
      createSlimeReply 1000 (create sampleRequest (sampleWriter true) ()) = some (reply, st, polls) ∧
      (reply.docsums.length : Int) + reply.reportedTimedOut = (sampleRequest.hits.length : Int) ∧
      (reply.docsums.length < sampleRequest.hits.length →
        ∃ e : ErrorObject, reply.errors = some [e] ∧ e.type = "timeout") :=
  createSlimeReply_accounts_for_every_hit 1000 sampleRequest (sampleWriter true) () ⟨false⟩ rfl
    (by decide)

/-- C16: `expired()` is called once before each hit is processed and the loop stops at the
first call that returns true, so the `docsums` array has one entry for each of the hits
`h[0..k)` in request order; the entry is an empty object when the document id is
`endDocId` or the class must be skipped, and otherwise holds what the writer inserts for
that document id. -/
theorem createSlimeReply_emits_processed_hits (endDocId : Nat) (req : DocsumRequest)
    (w : DocsumWriter σ D) (ws0 : σ) (oc : ResultClass)
    (hoc : w.resolveClassInfo.outputClass = some oc) (hn : req.hits.length < 2 ^ 31)
    (k : Nat) (hk : k ≤ req.hits.length) (hrun : ∀ j, j < k → req.expired j = false)
    (hstop : k < req.hits.length → req.expired k = true) :
    ∃ (reply : SlimeReply D) (st : GetDocsumsState σ) (polls : Nat),
      createSlimeReply endDocId (create req w ws0) = some (reply, st, polls) ∧
      polls = k + (if k < req.hits.length then 1 else 0) ∧
      reply.docsums.length = k ∧
      reply.docsums = docsumEntries endDocId w w.resolveClassInfo
        ((req.hits.take k).map Hit.docid) (w.InitState ws0) ∧
      ∀ i (hi : i < req.hits.length), i < k →
        (((req.hits.get ⟨i, hi⟩).docid = endDocId ∨ w.resolveClassInfo.mustSkip = true) →
          reply.docsums[i]? = some none) ∧
        (¬ ((req.hits.get ⟨i, hi⟩).docid = endDocId ∨ w.resolveClassInfo.mustSkip = true) →
          ∃ s : σ, reply.docsums[i]?
            = some (some (w.insertDocsum w.resolveClassInfo s (req.hits.get ⟨i, hi⟩).docid).2)) := by
  obtain ⟨k2, a1, a2, a3, reply, st, polls, hr, hd, _, hp⟩ :=
    createSlimeReply_spec endDocId req w ws0 oc hoc hn
  have hkk : k2 = k := stop_unique req.expired req.hits.length k2 k a2 a3 a1 hrun hstop hk
  subst hkk
  have hlen : ((req.hits.take k2).map Hit.docid).length = k2 := by
    rw [List.length_map, List.length_take]
    omega
  refine ⟨reply, st, polls, hr, hp, ?_, hd, ?_⟩
  · rw [hd, length_docsumEntries, hlen]
  · intro i hi hik
    have hi2 : i < ((req.hits.take k2).map Hit.docid).length := by rw [hlen]; exact hik
    have hget : ((req.hits.take k2).map Hit.docid).get ⟨i, hi2⟩ = (req.hits.get ⟨i, hi⟩).docid := by
      simp
    have := docsumEntries_entry endDocId w w.resolveClassInfo
      ((req.hits.take k2).map Hit.docid) (w.InitState ws0) i hi2
    rw [hget, ← hd] at this
    exact this

theorem createSlimeReply_emits_processed_hits_witness :
    ∃ (reply : SlimeReply Nat) (st : GetDocsumsState Unit) (polls : Nat),
      createSlimeReply 7 (create sampleRequest (sampleWriter false) ()) = some (reply, st, polls) ∧
      polls = 2 + (if 2 < sampleRequest.hits.length then 1 else 0) ∧
      reply.docsums.length = 2 ∧
      reply.docsums = docsumEntries 7 (sampleWriter false) (sampleWriter false).resolveClassInfo
        ((sampleRequest.hits.take 2).map Hit.docid) ((sampleWriter false).InitState ()) ∧
      ∀ i (hi : i < sampleRequest.hits.length), i < 2 →
        (((sampleRequest.hits.get ⟨i, hi⟩).docid = 7 ∨
            (sampleWriter false).resolveClassInfo.mustSkip = true) →
          reply.docsums[i]? = some none) ∧
        (¬ ((sampleRequest.hits.get ⟨i, hi⟩).docid = 7 ∨
            (sampleWriter false).resolveClassInfo.mustSkip = true) →
          ∃ s : Unit, reply.docsums[i]?
            = some (some ((sampleWriter false).insertDocsum (sampleWriter false).resolveClassInfo s
                (sampleRequest.hits.get ⟨i, hi⟩).docid).2)) :=
  createSlimeReply_emits_processed_hits 7 sampleRequest (sampleWriter false) () ⟨false⟩ rfl
    (by decide) 2 (by decide) (fun j hj => by
      have : j = 0 ∨ j = 1 := by omega
      rcases this with h | h <;> subst h <;> decide) (fun _ => by decide)

end DocsumContext

end proton

/-! ## The old block of a reallocating `grow` -/

namespace AllocatedBitVector

/-- C14: a `grow` that reallocates returns a handle that owns the block the vector used before
the call, word for word as it was: every bit of the old vector, the old guard bit included, can
still be read from the handle's block, while the vector itself now works on a fresh block of
its own. -/
theorem grow_realloc_keeps_old_block (junk : Nat → Nat) (bv : AllocatedBitVector)
    (newSize newCapacity : Nat) (hle : newSize ≤ newCapacity) (hne : newCapacity ≠ bv.capacity)
    (hb : newCapacity < 2 ^ 32) :
    ∃ (bv2 : AllocatedBitVector) (held : GenerationHeldAlloc),
      grow junk bv newSize newCapacity = .ok (bv2, some held) ∧
      held.alloc = bv.mem ∧
      (∀ k, held.alloc.getD k 0 = bv.mem.getD k 0) ∧
      (∀ j, ({ bv.toBitVector with mem := held.alloc } : BitVector).testBit j = bv.testBit j) ∧
      bv2.words = 0 ∧ bv2.mem.length * 64 = bv2.capacity + 1 ∧ newCapacity ≤ bv2.capacity := by
  obtain ⟨bv2, h, h1, _, _, h4, h5, _⟩ := grow_realloc_spec junk bv newSize newCapacity hle hne hb
  exact ⟨bv2, { alloc := bv.mem }, h, rfl, fun _ => rfl, fun _ => rfl, h1, h4, h5⟩

theorem grow_realloc_keeps_old_block_witness :
    ∃ (bv2 : AllocatedBitVector) (held : GenerationHeldAlloc),
      grow (fun _ => 0) sample10 30 2047 = .ok (bv2, some held) ∧
      held.alloc = sample10.mem ∧
      (∀ k, held.alloc.getD k 0 = sample10.mem.getD k 0) ∧
      (∀ j, ({ sample10.toBitVector with mem := held.alloc } : BitVector).testBit j
        = sample10.testBit j) ∧
      bv2.words = 0 ∧ bv2.mem.length * 64 = bv2.capacity + 1 ∧ 2047 ≤ bv2.capacity :=
  grow_realloc_keeps_old_block (fun _ => 0) sample10 30 2047 (by decide) (by decide) (by decide)

end AllocatedBitVector

/-! ## The handler registry of `SummaryEngine` -/

namespace proton

namespace SummaryEngine

variable {H : Type}

/-- C19: the search-handler registry is a map from document type name to handler: nothing is
found or removed for a name without a handler; `putSearchHandler` returns the handler stored
before and makes the new one the stored one; `removeSearchHandler` returns the stored handler
and leaves none; other names are not affected; and the calls of the test
`requireThatHandlersAreStored` give the results the test expects. -/
theorem handlers_are_stored (e : SummaryEngine H) (name other : String) (h : H) :
    (e.getSearchHandler name = none → (e.removeSearchHandler name).1 = none) ∧
    (empty : SummaryEngine H).getSearchHandler name = none ∧
    ((empty : SummaryEngine H).removeSearchHandler name).1 = none ∧
    (e.putSearchHandler name h).1 = e.getSearchHandler name ∧
    (e.putSearchHandler name h).2.getSearchHandler name = some h ∧
    (e.removeSearchHandler name).1 = e.getSearchHandler name ∧
    (e.removeSearchHandler name).2.getSearchHandler name = none ∧
    (other ≠ name →
      (e.putSearchHandler name h).2.getSearchHandler other = e.getSearchHandler other ∧
      (e.removeSearchHandler name).2.getSearchHandler other = e.getSearchHandler other) ∧
    (let e0 : SummaryEngine String := empty
     let e1 := (e0.putSearchHandler "foo" "h1").2
     let e2 := (e1.putSearchHandler "bar" "h2").2
     let e3 := (e2.putSearchHandler "foo" "h3").2
     let e4 := (e3.removeSearchHandler "foo").2
     e0.getSearchHandler "foo" = none ∧ (e0.removeSearchHandler "foo").1 = none ∧
     (e0.putSearchHandler "foo" "h1").1 = none ∧ e1.getSearchHandler "foo" = some "h1" ∧
     (e1.putSearchHandler "bar" "h2").1 = none ∧ e2.getSearchHandler "bar" = some "h2" ∧
     (e2.putSearchHandler "foo" "h3").1 = some "h1" ∧ e3.getSearchHandler "foo" = some "h3" ∧
     (e3.removeSearchHandler "foo").1 = some "h3" ∧ e4.getSearchHandler "foo" = none) := by
  refine ⟨fun h0 => h0, rfl, rfl, rfl, ?_, rfl, ?_, ?_, ?_⟩
  · show Function.update e.handlers name (some h) name = some h
    exact Function.update_same _ _ _
  · show Function.update e.handlers name none name = none
    exact Function.update_same _ _ _
  · intro hne
    constructor
    · show Function.update e.handlers name (some h) other = e.handlers other
      exact Function.update_noteq hne _ _
    · show Function.update e.handlers name none other = e.handlers other
      exact Function.update_noteq hne _ _
  · decide

theorem handlers_are_stored_witness :
    (((empty : SummaryEngine Nat).putSearchHandler "foo" 1).2.putSearchHandler "bar" 2).2.getSearchHandler
        "foo" = some 1 :=
  (((handlers_are_stored ((empty : SummaryEngine Nat).putSearchHandler "foo" 1).2 "bar" "foo" 2).2.2.2.2.2.2.2.1
      (by decide)).1).trans
    (handlers_are_stored (empty : SummaryEngine Nat) "foo" "bar" 1).2.2.2.2.1

end SummaryEngine

end proton

/-! ## The cached count across `grow` -/

namespace BitVector

theorem filter_range_agree (p q : Nat → Bool) (n : Nat) (h : ∀ i, i < n → p i = q i) :
    ((List.range n).filter p).length = ((List.range n).filter q).length := by
  congr 1
  apply List.filter_congr
  intro i hi
  exact h i (List.mem_range.mp hi)

theorem filter_range_extend (p : Nat → Bool) (m n : Nat) (hmn : m ≤ n)
    (h : ∀ i, m ≤ i → i < n → p i = false) :
    ((List.range n).filter p).length = ((List.range m).filter p).length := by
  induction n with
  | zero =>
    have : m = 0 := by omega
    subst this
    rfl
  | succ k ih =>
    by_cases hk : m = k + 1
    · subst hk
      rfl
    · rw [List.range_succ, List.filter_append, List.length_append,
        ih (by omega) (fun i a b => h i a (by omega))]
      have hkf := h k (by omega) (by omega)
      simp [hkf]

theorem filter_range_clear (p q : Nat → Bool) (n i : Nat) (hi : i < n) (hp : p i = true)
    (hq : ∀ j, q j = (!decide (j = i) && p j)) :
    ((List.range n).filter q).length + 1 = ((List.range n).filter p).length := by
  induction n with
  | zero => omega
  | succ k ih =>
    rw [List.range_succ, List.filter_append, List.filter_append, List.length_append,
      List.length_append]
    by_cases hk : i = k
    · subst hk
      have e : ((List.range i).filter q).length = ((List.range i).filter p).length :=
        filter_range_agree q p i (fun j hj => by
          rw [hq j, decide_eq_false (Nat.ne_of_lt hj)]
          rfl)
      have q1 : q i = false := by
        rw [hq, decide_eq_true rfl]
        rfl
      simp [e, q1, hp]
    · have h1 := ih (by omega)
      have qk : q k = p k := by
        rw [hq, decide_eq_false (fun e => hk e.symm)]
        rfl
      have fq : List.filter q [k] = List.filter p [k] := by
        simp only [List.filter, qk]
      rw [fq]
      omega

theorem count_eq_setBitsBelowSize (b : BitVector) (h : b.startOffset = 0) :
    b.count = b.setBitsBelowSize := by
  unfold count setBitsBelowSize
  apply filter_range_agree
  intro i _
  rw [h, decide_eq_true (Nat.zero_le i)]
  rfl

theorem setBitsBelowSize_le (b : BitVector) : b.setBitsBelowSize ≤ b.sz := by
  unfold setBitsBelowSize
  exact (List.length_filter_le _ _).trans (le_of_eq (List.length_range _))

theorem countTrueBits_exact_iff (b : BitVector) :
    b.countTrueBits.1 = b.count ↔ (b.numTrueBits = invalidCount ∨ b.numTrueBits = b.count) := by
  unfold countTrueBits
  by_cases h : b.numTrueBits = invalidCount
  · rw [if_pos h]
    exact ⟨fun _ => Or.inl h, fun _ => rfl⟩
  · rw [if_neg h]
    exact ⟨fun e => Or.inr e, fun e => e.resolve_left h⟩

end BitVector

namespace BitVector

theorem setSize_numTrueBits (b : BitVector) (n : Nat) :
    (b.setSize n).numTrueBits = b.numTrueBits := by
  unfold setSize
  simp only []
  split <;> rfl

theorem clearIntervalNoInvalidation_numTrueBits (b : BitVector) (s e : Nat) :
    (b.clearIntervalNoInvalidation s e).numTrueBits = b.numTrueBits := by
  unfold clearIntervalNoInvalidation
  simp only []
  split
  · rfl
  · split <;> rfl

theorem clearBitAndMaintainCount_count (b : BitVector) (i : Nat) (h0 : b.startOffset = 0)
    (hi : i < b.sz) (hs : b.sz < 2 ^ 32) (hm : b.words + i / 64 < b.mem.length)
    (hc : b.numTrueBits = invalidCount ∨ b.numTrueBits = b.count) :
    (b.clearBitAndMaintainCount i).numTrueBits = invalidCount ∨
      (b.clearBitAndMaintainCount i).numTrueBits = (b.clearBitAndMaintainCount i).count := by
  have hbits := fun j => testBit_clearBitAndMaintainCount b i j hm
  obtain ⟨_, f2, f3, _⟩ := clearBitAndMaintainCount_fields b i
  have hcnt : (b.clearBitAndMaintainCount i).count
      = ((List.range b.sz).filter fun j => (b.clearBitAndMaintainCount i).testBit j).length := by
    rw [count_eq_setBitsBelowSize _ (f2.trans h0)]
    unfold setBitsBelowSize
    rw [f3]
  by_cases ht : b.testBit i = true
  · have hone : (b.clearBitAndMaintainCount i).count + 1 = b.count := by
      rw [hcnt, count_eq_setBitsBelowSize b h0]
      exact filter_range_clear (fun j => b.testBit j)
        (fun j => (b.clearBitAndMaintainCount i).testBit j) b.sz i hi ht hbits
    have hle : b.count ≤ b.sz := by
      rw [count_eq_setBitsBelowSize b h0]
      exact setBitsBelowSize_le b
    have hnum : (b.clearBitAndMaintainCount i).numTrueBits
        = if b.numTrueBits = invalidCount then b.numTrueBits
          else (b.numTrueBits + 2 ^ 32 - 1) % 2 ^ 32 := by
      unfold clearBitAndMaintainCount
      rw [if_pos ht]
      unfold decNumBits
      simp only [clearBit, setWord_numTrueBits]
      split <;> rfl
    rw [hnum]
    by_cases hinv : b.numTrueBits = invalidCount
    · rw [if_pos hinv]
      exact Or.inl hinv
    · rw [if_neg hinv]
      right
      have hb := hc.resolve_left hinv
      rw [hb]
      omega
  · have hsame : b.clearBitAndMaintainCount i = b := by
      unfold clearBitAndMaintainCount
      rw [if_neg ht]
    rw [hsame]
    exact hc

end BitVector

namespace AllocatedBitVector

theorem count_after_extend (bv : AllocatedBitVector) (newSize : Nat) (hv : bv.Valid)
    (hgt : bv.sz < newSize) (hcap : newSize ≤ bv.capacity) :
    ((bv.toBitVector.setSize newSize).clearIntervalNoInvalidation bv.sz newSize).numTrueBits
      = bv.numTrueBits ∧
    ((bv.toBitVector.setSize newSize).clearIntervalNoInvalidation bv.sz newSize).setBitsBelowSize
      = bv.toBitVector.setBitsBelowSize := by
  constructor
  · rw [BitVector.clearIntervalNoInvalidation_numTrueBits, BitVector.setSize_numTrueBits]
  · unfold BitVector.setBitsBelowSize
    rw [BitVector.clearIntervalNoInvalidation_sz, BitVector.setSize_sz]
    rw [BitVector.filter_range_agree _ (fun j => decide (j < bv.sz) && bv.testBit j) newSize
      (fun j hj => by
        show ((bv.toBitVector.setSize newSize).clearIntervalNoInvalidation bv.sz newSize).testBit j
          = (decide (j < bv.sz) && bv.testBit j)
        rw [testBit_extend bv newSize j hv hgt hcap,
          decide_eq_false (by omega : ¬ j = newSize)]
        by_cases hj2 : j < bv.sz
        · rw [decide_eq_true hj2, decide_eq_true (Or.inl hj2 : j < bv.sz ∨ newSize < j)]
          rfl
        · rw [decide_eq_false hj2, decide_eq_false (by omega : ¬ (j < bv.sz ∨ newSize < j))]
          rfl)]
    rw [BitVector.filter_range_extend _ bv.sz newSize (Nat.le_of_lt hgt)
      (fun j h1 _ => by
        show (decide (j < bv.sz) && bv.testBit j) = false
        rw [decide_eq_false (by omega : ¬ j < bv.sz)]
        rfl)]
    exact BitVector.filter_range_agree _ _ bv.sz (fun j hj => by
      show (decide (j < bv.sz) && bv.testBit j) = bv.testBit j
      rw [decide_eq_true hj]
      rfl)

theorem count_after_realloc (junk : Nat → Nat) (bv : AllocatedBitVector)
    (newSize newCapacity : Nat) (hle : newSize ≤ newCapacity) (hne : newCapacity ≠ bv.capacity)
    (hb : newCapacity < 2 ^ 32) :
    ∃ bv2 : AllocatedBitVector,
      grow junk bv newSize newCapacity = .ok (bv2, some { alloc := bv.mem }) ∧
      bv2.sz = newSize ∧ bv2.startOffset = 0 ∧
      (bv2.numTrueBits = BitVector.invalidCount ∨ bv2.numTrueBits = bv2.toBitVector.count) ∧
      bv2.testBit newSize = true ∧ (bv.sz < newSize → bv2.testBit bv.sz = false) := by
  obtain ⟨tbv, ht, t1, t2, t3, t4, t5, t6, _⟩ :=
    createFromBuf_spec junk newSize newCapacity bv.mem bv.sz hle hb
  obtain ⟨bv2, hg, g1, g2, g3, _, _, g6⟩ := grow_realloc_spec junk bv newSize newCapacity hle hne hb
  refine ⟨bv2, hg, g3, g2, ?_, ?_, ?_⟩
  · have hres : bv2 = (if newSize > bv.sz then
          { tbv with toBitVector := tbv.toBitVector.clearBitAndMaintainCount bv.sz }
        else tbv) := by
      unfold grow at hg
      rw [if_neg (Nat.not_lt.mpr hle), if_pos hne] at hg
      simp only [ht, bind, Except.bind, pure, Except.pure] at hg
      injection hg with hg
      injection hg with hg _
      exact hg.symm
    rw [hres]
    by_cases hgt : newSize > bv.sz
    · rw [if_pos hgt]
      show (tbv.toBitVector.clearBitAndMaintainCount bv.sz).numTrueBits = _ ∨
        (tbv.toBitVector.clearBitAndMaintainCount bv.sz).numTrueBits
          = (tbv.toBitVector.clearBitAndMaintainCount bv.sz).count
      apply BitVector.clearBitAndMaintainCount_count _ _ t2
      · rw [t3]; exact hgt
      · rw [t3]; omega
      · rw [t1]; omega
      · exact Or.inr t6
    · rw [if_neg hgt]
      exact Or.inr t6
  · rw [g6, decide_eq_false (by omega : ¬ (bv.sz < newSize ∧ newSize = bv.sz)),
      decide_eq_true (rfl : newSize = newSize)]
    rfl
  · intro hgt
    rw [g6, decide_eq_true (⟨hgt, rfl⟩ : bv.sz < newSize ∧ bv.sz = bv.sz)]
    rfl

/-- C21: a `grow` of a vector whose reported count is the number of set bits in `[0, size())`
gives a vector whose reported count is again the number of set bits in `[0, size())`, whether
it extends in place, shrinks in place or reallocates.  The new guard bit at `newSize` lies
outside the counted range, the old guard bit is cleared when the vector gets longer, and an
extension in place leaves the cached and the reported count as they were. -/
theorem grow_keeps_count_exact (junk : Nat → Nat) (bv : AllocatedBitVector)
    (newSize newCapacity : Nat) (hv : bv.Valid) (hle : newSize ≤ newCapacity)
    (hb : newCapacity < 2 ^ 32)
    (hc : bv.toBitVector.countTrueBits.1 = bv.toBitVector.setBitsBelowSize) :
    ∃ (bv2 : AllocatedBitVector) (held : Option GenerationHeldAlloc),
      grow junk bv newSize newCapacity = .ok (bv2, held) ∧
      bv2.sz = newSize ∧
      bv2.toBitVector.countTrueBits.1 = bv2.toBitVector.setBitsBelowSize ∧
      bv2.testBit newSize = true ∧
      (bv.sz < newSize → bv2.testBit bv.sz = false) ∧
      (newCapacity = bv.capacity → bv.sz < newSize →
        bv2.numTrueBits = bv.numTrueBits ∧
        bv2.toBitVector.setBitsBelowSize = bv.toBitVector.setBitsBelowSize ∧
        bv2.toBitVector.countTrueBits.1 = bv.toBitVector.countTrueBits.1) := by
  have h0 : bv.startOffset = 0 := hv.1
  rw [← BitVector.count_eq_setBitsBelowSize _ h0, BitVector.countTrueBits_exact_iff] at hc
  by_cases hne : newCapacity = bv.capacity
  · subst hne
    by_cases hgt : bv.sz < newSize
    · obtain ⟨c1, c2⟩ := count_after_extend bv newSize hv hgt hle
      have hbit := fun j => testBit_extend bv newSize j hv hgt hle
      have hs0 : ((bv.toBitVector.setSize newSize).clearIntervalNoInvalidation
          bv.sz newSize).startOffset = 0 := by
        rw [BitVector.clearIntervalNoInvalidation_startOffset, BitVector.setSize_startOffset]
        exact h0
      have hex : ((bv.toBitVector.setSize newSize).clearIntervalNoInvalidation
          bv.sz newSize).countTrueBits.1
          = ((bv.toBitVector.setSize newSize).clearIntervalNoInvalidation
              bv.sz newSize).setBitsBelowSize := by
        rw [← BitVector.count_eq_setBitsBelowSize _ hs0, BitVector.countTrueBits_exact_iff, c1,
          BitVector.count_eq_setBitsBelowSize _ hs0, c2,
          ← BitVector.count_eq_setBitsBelowSize _ h0]
        exact hc
      refine ⟨_, none, grow_eq_extend junk bv newSize hgt hle, ?_, hex, ?_, ?_, ?_⟩
      · show ((bv.toBitVector.setSize newSize).clearIntervalNoInvalidation bv.sz newSize).sz = _
        rw [BitVector.clearIntervalNoInvalidation_sz, BitVector.setSize_sz]
      · show ((bv.toBitVector.setSize newSize).clearIntervalNoInvalidation
          bv.sz newSize).testBit newSize = true
        rw [hbit, decide_eq_true (rfl : newSize = newSize)]
        rfl
      · intro _
        show ((bv.toBitVector.setSize newSize).clearIntervalNoInvalidation
          bv.sz newSize).testBit bv.sz = false
        rw [hbit, decide_eq_false (by omega : ¬ bv.sz = newSize),
          decide_eq_false (by omega : ¬ (bv.sz < bv.sz ∨ newSize < bv.sz))]
        rfl
      · intro _ _
        refine ⟨c1, c2, ?_⟩
        rw [hex, c2, ← BitVector.count_eq_setBitsBelowSize _ h0]
        exact ((BitVector.countTrueBits_exact_iff _).mpr hc).symm
    · have hle2 : newSize ≤ bv.sz := Nat.le_of_not_lt hgt
      have hbit := fun j => testBit_shrink bv newSize j hv hle2
      have hs0 : ((bv.toBitVector.clearInterval newSize bv.sz).setSize newSize).startOffset
          = 0 := by
        rw [BitVector.setSize_startOffset]
        show (bv.toBitVector.clearIntervalNoInvalidation newSize bv.sz).startOffset = 0
        rw [BitVector.clearIntervalNoInvalidation_startOffset]
        exact h0
      refine ⟨_, none, grow_eq_shrink junk bv newSize hle2 hle, rfl, ?_, ?_, ?_, ?_⟩
      · show ((bv.toBitVector.clearInterval newSize bv.sz).setSize newSize).countTrueBits.1 = _
        rw [← BitVector.count_eq_setBitsBelowSize _ hs0, BitVector.countTrueBits_exact_iff,
          BitVector.setSize_numTrueBits]
        exact Or.inl rfl
      · show ((bv.toBitVector.clearInterval newSize bv.sz).setSize newSize).testBit newSize
          = true
        rw [hbit, decide_eq_true (rfl : newSize = newSize)]
        rfl
      · intro h
        exact absurd h hgt
      · intro _ h
        exact absurd h hgt
  · obtain ⟨bv2, hg, r1, r2, r3, r4, r5⟩ := count_after_realloc junk bv newSize newCapacity hle hne hb
    refine ⟨bv2, _, hg, r1, ?_, r4, r5, fun h => absurd h hne⟩
    rw [← BitVector.count_eq_setBitsBelowSize _ r2, BitVector.countTrueBits_exact_iff]
    exact r3

theorem grow_keeps_count_exact_witness :
    ∃ (bv2 : AllocatedBitVector) (held : Option GenerationHeldAlloc),
      grow (fun _ => 0) sample10 30 2047 = .ok (bv2, held) ∧
      bv2.sz = 30 ∧
      bv2.toBitVector.countTrueBits.1 = bv2.toBitVector.setBitsBelowSize ∧
      bv2.testBit 30 = true ∧
      (sample10.sz < 30 → bv2.testBit sample10.sz = false) ∧
      (2047 = sample10.capacity → sample10.sz < 30 →
        bv2.numTrueBits = sample10.numTrueBits ∧
        bv2.toBitVector.setBitsBelowSize = sample10.toBitVector.setBitsBelowSize ∧
        bv2.toBitVector.countTrueBits.1 = sample10.toBitVector.countTrueBits.1) :=
  grow_keeps_count_exact (fun _ => 0) sample10 30 2047 (by decide) (by decide) (by decide)
    (by decide)

end AllocatedBitVector

/-! ## `getEnum` and `get` -/

namespace MultiValueEnumAttribute

variable {M : Type} [MultiValueType M] [Inhabited M]

/-- C22: `getEnum(doc)` is the maximum `uint32_t` value when `doc` has no values and otherwise
the enum handle of the first stored value, which is the `e[0]` that `get(doc, e, 1)` writes;
and `get(doc, e, sz)` returns 0 exactly when `getEnum` takes its empty branch. -/
theorem getEnum_agrees_with_get (a : MultiValueEnumAttribute M) (doc : Nat) (e : Nat → Nat)
    (sz : Nat) (h : (a.mvMapping doc).length < 2 ^ 32) :
    ((a.mvMapping doc).length = 0 → a.getEnum doc = 2 ^ 32 - 1 ∧ a.getEnum doc = 0xFFFFFFFF) ∧
    (∀ hpos : 0 < (a.mvMapping doc).length,
      a.getEnum doc = (MultiValueType.value ((a.mvMapping doc).get ⟨0, hpos⟩)).ref ∧
      a.getEnum doc = (a.get doc e 1).1 0) ∧
    ((a.get doc e sz).2 = 0 ↔ (a.mvMapping doc).length = 0) := by
  have hm : (a.mvMapping doc).length % 2 ^ 32 = (a.mvMapping doc).length := Nat.mod_eq_of_lt h
  refine ⟨?_, ?_, ?_⟩
  · intro h0
    unfold getEnum
    simp only []
    rw [if_pos h0]
    exact ⟨rfl, rfl⟩
  · intro hpos
    have hne : ¬ (a.mvMapping doc).length = 0 := Nat.pos_iff_ne_zero.mp hpos
    have hget : (a.mvMapping doc).getD 0 default = (a.mvMapping doc).get ⟨0, hpos⟩ := by
      rw [List.getD_eq_getElem _ _ hpos]
      rfl
    constructor
    · unfold getEnum
      simp only []
      rw [if_neg hne, hget]
    · unfold getEnum get
      simp only []
      rw [if_neg hne, hm,
        foldl_update_range (fun i => (MultiValueType.value ((a.mvMapping doc).getD i default)).ref),
        if_pos (by omega : 0 < min 1 (a.mvMapping doc).length)]
  · show (a.mvMapping doc).length % 2 ^ 32 = 0 ↔ _
    rw [hm]

theorem getEnum_agrees_with_get_witness :
    ((sampleAttr.mvMapping 7).length = 0 →
      sampleAttr.getEnum 7 = 2 ^ 32 - 1 ∧ sampleAttr.getEnum 7 = 0xFFFFFFFF) ∧
    (∀ hpos : 0 < (sampleAttr.mvMapping 7).length,
      sampleAttr.getEnum 7
        = (MultiValueType.value ((sampleAttr.mvMapping 7).get ⟨0, hpos⟩)).ref ∧
      sampleAttr.getEnum 7 = (sampleAttr.get 7 (fun _ => 0) 1).1 0) ∧
    ((sampleAttr.get 7 (fun _ => 0) 5).2 = 0 ↔ (sampleAttr.mvMapping 7).length = 0) :=
  getEnum_agrees_with_get sampleAttr 7 (fun _ => 0) 5 (by decide)

end MultiValueEnumAttribute

/-! ## `DocumentDBConfig`: `operator==` and `compare` -/

namespace proton

namespace DocumentDBConfig

variable {K : ConfigClasses}

theorem compare_some (a b : DocumentDBConfig K)
    (ma mb : Shared (K.content .DocumentDBMaintenanceConfig))
    (ha : a.maintenance = some ma) (hb : b.maintenance = some mb) :
    compare a b = some
      { ComparisonResult.create with
        rankProfilesChanged := !equals a.rankProfiles b.rankProfiles,
        rankingConstantsChanged := !equals a.rankingConstants b.rankingConstants,
        rankingExpressionsChanged := !equals a.rankingExpressions b.rankingExpressions,
        onnxModelsChanged := !equals a.onnxModels b.onnxModels,
        indexschemaChanged := !equals a.indexschema b.indexschema,
        attributesChanged := !equals a.attributes b.attributes,
        summaryChanged := !equals a.summary b.summary,
        summarymapChanged := !equals a.summarymap b.summarymap,
        juniperrcChanged := !equals a.juniperrc b.juniperrc,
        documenttypesChanged := !equals a.documenttypes b.documenttypes,
        documentTypeRepoChanged := decide (get a.repo ≠ get b.repo),
        importedFieldsChanged := !equals a.importedFields b.importedFields,
        tuneFileDocumentDBChanged := !equals a.tuneFileDocumentDB b.tuneFileDocumentDB,
        schemaChanged := !equals a.schema b.schema,
        maintenanceChanged := !equals a.maintenance b.maintenance,
        storeChanged := decide (a.storeConfig ≠ b.storeConfig),
        visibilityDelayChanged :=
          decide (K.getVisibilityDelay ma.val ≠ K.getVisibilityDelay mb.val),
        flushChanged := !equalsBy a.maintenance b.maintenance
          fun l r => decide (K.getFlushConfig l = K.getFlushConfig r),
        threading_service_config_changed :=
          !equals a.threading_service_config b.threading_service_config,
        alloc_config_changed := !equals a.alloc_config b.alloc_config } := by
  unfold compare
  rw [ha, hb]

/-- C23: for configs with non-null maintenance configs `compare` returns a result, `a == b`
holds exactly when every component flag of that result is false, and a false
`maintenanceChanged` comes with a false `visibilityDelayChanged` and a false `flushChanged`. -/
theorem eq_iff_compare_reports_no_change (a b : DocumentDBConfig K)
    (ma mb : Shared (K.content .DocumentDBMaintenanceConfig))
    (ha : a.maintenance = some ma) (hb : b.maintenance = some mb) :
    ∃ r : ComparisonResult, compare a b = some r ∧
      (eq a b = true ↔ ∀ flag ∈ r.componentFlags, flag = false) ∧
      (eq a b = true ↔
        (r.rankProfilesChanged = false ∧ r.rankingConstantsChanged = false ∧
         r.rankingExpressionsChanged = false ∧ r.onnxModelsChanged = false ∧
         r.indexschemaChanged = false ∧ r.attributesChanged = false ∧
         r.summaryChanged = false ∧ r.summarymapChanged = false ∧
         r.juniperrcChanged = false ∧ r.documenttypesChanged = false ∧
         r.documentTypeRepoChanged = false ∧ r.importedFieldsChanged = false ∧
         r.tuneFileDocumentDBChanged = false ∧ r.schemaChanged = false ∧
         r.maintenanceChanged = false ∧ r.storeChanged = false ∧
         r.threading_service_config_changed = false ∧ r.alloc_config_changed = false)) ∧
      (r.maintenanceChanged = false →
        r.visibilityDelayChanged = false ∧ r.flushChanged = false) := by
  refine ⟨_, compare_some a b ma mb ha hb, ?_, ?_, ?_⟩
  · unfold eq ComparisonResult.componentFlags
    simp only [List.mem_cons, List.mem_singleton, forall_eq_or_imp, forall_eq,
      Bool.and_eq_true, Bool.not_eq_false', decide_eq_true_eq, decide_eq_false_iff_not,
      not_not, List.not_mem_nil, false_implies, implies_true, and_true, and_assoc]
  · unfold eq
    simp only [Bool.and_eq_true, Bool.not_eq_false', decide_eq_true_eq,
      decide_eq_false_iff_not, not_not, and_assoc]
  · intro hm
    have hm2 : equals a.maintenance b.maintenance = true := by
      simpa using hm
    rw [ha, hb] at hm2
    have hval : ma.val = mb.val := by
      simpa [equals, equalsBy] using hm2
    constructor
    · show decide (K.getVisibilityDelay ma.val ≠ K.getVisibilityDelay mb.val) = false
      rw [hval]
      simp
    · show (!equalsBy a.maintenance b.maintenance
        fun l r => decide (K.getFlushConfig l = K.getFlushConfig r)) = false
      rw [ha, hb]
      simp [equalsBy, hval]

theorem eq_iff_compare_reports_no_change_witness :
    ∃ r : ComparisonResult, compare sampleConfig sampleConfig = some r ∧
      (eq sampleConfig sampleConfig = true ↔ ∀ flag ∈ r.componentFlags, flag = false) ∧
      (eq sampleConfig sampleConfig = true ↔
        (r.rankProfilesChanged = false ∧ r.rankingConstantsChanged = false ∧
         r.rankingExpressionsChanged = false ∧ r.onnxModelsChanged = false ∧
         r.indexschemaChanged = false ∧ r.attributesChanged = false ∧
         r.summaryChanged = false ∧ r.summarymapChanged = false ∧
         r.juniperrcChanged = false ∧ r.documenttypesChanged = false ∧
         r.documentTypeRepoChanged = false ∧ r.importedFieldsChanged = false ∧
         r.tuneFileDocumentDBChanged = false ∧ r.schemaChanged = false ∧
         r.maintenanceChanged = false ∧ r.storeChanged = false ∧
         r.threading_service_config_changed = false ∧ r.alloc_config_changed = false)) ∧
      (r.maintenanceChanged = false →
        r.visibilityDelayChanged = false ∧ r.flushChanged = false) :=
  eq_iff_compare_reports_no_change sampleConfig sampleConfig ⟨15, (3 : Nat)⟩ ⟨15, (3 : Nat)⟩
    rfl rfl

end DocumentDBConfig

end proton

/-! ## `DocumentDBConfig`: replay configs -/

namespace proton

namespace DocumentDBConfig

variable {K : ConfigClasses}

theorem emptyConfig_spec (h : ConfigHeap K) (c : ConfigClass) (config : SP (K.content c)) :
    (emptyConfig h c config).1 = { h with nextAddr := h.nextAddr + 1 } ∧
    ∃ s : Shared (K.content c), (emptyConfig h c config).2 = some s ∧ s.val = K.make c := by
  unfold emptyConfig make_shared
  cases config with
  | none => exact ⟨rfl, _, rfl, rfl⟩
  | some cfg =>
    by_cases hne : cfg.val ≠ K.make c
    · have e : (if cfg.val ≠ K.make c then
          (({ h with nextAddr := h.nextAddr + 1 } : ConfigHeap K),
            some ({ addr := h.nextAddr, val := K.make c } : Shared (K.content c)))
          else ({ h with nextAddr := h.nextAddr + 1 }, some cfg))
          = ({ h with nextAddr := h.nextAddr + 1 }, some { addr := h.nextAddr, val := K.make c }) :=
        if_pos hne
      exact ⟨congrArg Prod.fst e, _, congrArg Prod.snd e, rfl⟩
    · have e : (if cfg.val ≠ K.make c then
          (({ h with nextAddr := h.nextAddr + 1 } : ConfigHeap K),
            some ({ addr := h.nextAddr, val := K.make c } : Shared (K.content c)))
          else ({ h with nextAddr := h.nextAddr + 1 }, some cfg))
          = ({ h with nextAddr := h.nextAddr + 1 }, some cfg) :=
        if_neg hne
      exact ⟨congrArg Prod.fst e, _, congrArg Prod.snd e, not_not.mp hne⟩

theorem makeReplayConfig_spec (h : ConfigHeap K) (a : Nat) (o : DocumentDBConfig K)
    (ho : h.configs[a]? = some o) :
    ∃ (h2 : ConfigHeap K) (c : DocumentDBConfig K),
      makeReplayConfig h (some a) = some (h2, some h.configs.length) ∧
      h2.configs = h.configs ++ [c] ∧
      c.orig = some a ∧
      (c.generation = o.generation ∧ c.indexschema = o.indexschema ∧
       c.attributes = o.attributes ∧ c.summary = o.summary ∧ c.juniperrc = o.juniperrc ∧
       c.documenttypes = o.documenttypes ∧ c.repo = o.repo ∧
       c.tuneFileDocumentDB = o.tuneFileDocumentDB ∧ c.schema = o.schema ∧
       c.maintenance = o.maintenance ∧ c.storeConfig = o.storeConfig ∧
       c.threading_service_config = o.threading_service_config ∧
       c.alloc_config = o.alloc_config ∧ c.configId = o.configId ∧
       c.docTypeName = o.docTypeName) ∧
      ((∃ s, c.rankProfiles = some s ∧ s.val = K.make .RankProfilesConfig) ∧
       (∃ s, c.rankingConstants = some s ∧ s.val = K.make .RankingConstants) ∧
       (∃ s, c.rankingExpressions = some s ∧ s.val = K.make .RankingExpressions) ∧
       (∃ s, c.onnxModels = some s ∧ s.val = K.make .OnnxModels) ∧
       (∃ s, c.summarymap = some s ∧ s.val = K.make .SummarymapConfig) ∧
       (∃ s, c.importedFields = some s ∧ s.val = K.make .ImportedFieldsConfig)) := by
  obtain ⟨e1, s, e2, e3⟩ := emptyConfig_spec h .RankProfilesConfig o.rankProfiles
  have hpair : emptyConfig h .RankProfilesConfig o.rankProfiles
      = ({ h with nextAddr := h.nextAddr + 1 }, some s) := Prod.ext e1 e2
  unfold makeReplayConfig
  simp only [ho, hpair, make_shared]
  exact ⟨_, _, rfl, rfl, rfl,
    ⟨rfl, rfl, rfl, rfl, rfl, rfl, rfl, rfl, rfl, rfl, rfl, rfl, rfl, rfl, rfl⟩,
    ⟨⟨s, rfl, e3⟩, ⟨_, rfl, rfl⟩, ⟨_, rfl, rfl⟩, ⟨_, rfl, rfl⟩, ⟨_, rfl, rfl⟩, ⟨_, rfl, rfl⟩⟩⟩

theorem getElem?_length_append {α : Type} (l : List α) (c : α) :
    (l ++ [c])[l.length]? = some c := by
  simp

theorem getElem?_append_of_some {α : Type} (l : List α) (c y : α) (x : Nat)
    (hx : l[x]? = some y) : (l ++ [c])[x]? = some y := by
  have hlt : x < l.length := by
    by_contra hge
    rw [List.getElem?_eq_none (Nat.le_of_not_lt hge)] at hx
    cases hx
  rw [List.getElem?_append_left hlt]
  exact hx

/-- C24: for a config `orig` that is not null, `makeReplayConfig(orig)` returns a new shared
config (at an address not used before, every config made before is as it was) whose
`getOriginalConfig()` is `orig` and for which `preferOriginalConfig` returns `orig`, the same
shared object; and `preferOriginalConfig(self)` returns `self` for every `self` without an
original config and for a null `self`. -/
theorem makeReplayConfig_round_trip (h : ConfigHeap K) :
    (∀ (a : Nat) (o : DocumentDBConfig K), h.configs[a]? = some o →
      ∃ (h2 : ConfigHeap K) (r : Nat) (c : DocumentDBConfig K),
        makeReplayConfig h (some a) = some (h2, some r) ∧
        h.configs[r]? = none ∧ r ≠ a ∧ h2.configs[r]? = some c ∧
        (∀ (x : Nat) (y : DocumentDBConfig K), h.configs[x]? = some y → h2.configs[x]? = some y) ∧
        c.getOriginalConfig = some a ∧
        preferOriginalConfig h2 (some r) = some (some a)) ∧
    (∀ (self : Nat) (s : DocumentDBConfig K), h.configs[self]? = some s →
      s.getOriginalConfig = none → preferOriginalConfig h (some self) = some (some self)) ∧
    preferOriginalConfig h none = some none := by
  refine ⟨?_, ?_, rfl⟩
  · intro a o ho
    obtain ⟨h2, c, hm, hc, horig, _, _⟩ := makeReplayConfig_spec h a o ho
    have hr : h2.configs[h.configs.length]? = some c := by
      rw [hc]
      exact getElem?_length_append _ _
    have hnone : h.configs[h.configs.length]? = none :=
      List.getElem?_eq_none (Nat.le_refl _)
    refine ⟨h2, h.configs.length, c, hm, hnone, ?_, hr, ?_, horig, ?_⟩
    · intro e
      rw [e, ho] at hnone
      cases hnone
    · intro x y hx
      rw [hc]
      exact getElem?_append_of_some _ _ _ _ hx
    · unfold preferOriginalConfig
      simp only [hr, horig, Option.isSome_some, if_true]
  · intro self s hs hnone
    unfold preferOriginalConfig
    simp only [hs]
    unfold getOriginalConfig at hnone
    rw [hnone]
    rfl

theorem makeReplayConfig_round_trip_witness :
    ∃ (h2 : ConfigHeap sampleClasses) (r : Nat) (c : DocumentDBConfig sampleClasses),
      makeReplayConfig sampleHeap (some 0) = some (h2, some r) ∧
      sampleHeap.configs[r]? = none ∧ r ≠ 0 ∧ h2.configs[r]? = some c ∧
      (∀ (x : Nat) (y : DocumentDBConfig sampleClasses),
        sampleHeap.configs[x]? = some y → h2.configs[x]? = some y) ∧
      c.getOriginalConfig = some 0 ∧
      preferOriginalConfig h2 (some r) = some (some 0) :=
  (makeReplayConfig_round_trip sampleHeap).1 0 sampleConfig rfl

/-- C25: `valid()` is true exactly when the seventeen shared config pointers are not null; the
replay config of a valid config is valid; it shares the generation, index schema, attributes,
summary, juniperrc, document types, document type repo, tune file, schema, maintenance, store
config, threading and alloc configs, config id and document type name of the original, and its
rank profiles, ranking constants, ranking expressions, onnx models, summary map and imported
fields are equal to default-constructed configs. -/
theorem makeReplayConfig_keeps_valid (h : ConfigHeap K) (a : Nat) (o : DocumentDBConfig K)
    (ho : h.configs[a]? = some o) :
    ∃ (h2 : ConfigHeap K) (r : Nat) (c : DocumentDBConfig K),
      makeReplayConfig h (some a) = some (h2, some r) ∧ h2.configs[r]? = some c ∧
      (o.valid = true → c.valid = true) ∧
      (c.generation = o.generation ∧ c.indexschema = o.indexschema ∧
       c.attributes = o.attributes ∧ c.summary = o.summary ∧ c.juniperrc = o.juniperrc ∧
       c.documenttypes = o.documenttypes ∧ c.repo = o.repo ∧
       c.tuneFileDocumentDB = o.tuneFileDocumentDB ∧ c.schema = o.schema ∧
       c.maintenance = o.maintenance ∧ c.storeConfig = o.storeConfig ∧
       c.threading_service_config = o.threading_service_config ∧
       c.alloc_config = o.alloc_config ∧ c.configId = o.configId ∧
       c.docTypeName = o.docTypeName) ∧
      ((∃ s, c.rankProfiles = some s ∧ s.val = K.make .RankProfilesConfig) ∧
       (∃ s, c.rankingConstants = some s ∧ s.val = K.make .RankingConstants) ∧
       (∃ s, c.rankingExpressions = some s ∧ s.val = K.make .RankingExpressions) ∧
       (∃ s, c.onnxModels = some s ∧ s.val = K.make .OnnxModels) ∧
       (∃ s, c.summarymap = some s ∧ s.val = K.make .SummarymapConfig) ∧
       (∃ s, c.importedFields = some s ∧ s.val = K.make .ImportedFieldsConfig)) ∧
      (∀ x : DocumentDBConfig K, x.valid = true ↔
        (x.rankProfiles ≠ none ∧ x.rankingConstants ≠ none ∧ x.rankingExpressions ≠ none ∧
         x.onnxModels ≠ none ∧ x.indexschema ≠ none ∧ x.attributes ≠ none ∧
         x.summary ≠ none ∧ x.summarymap ≠ none ∧ x.juniperrc ≠ none ∧
         x.documenttypes ≠ none ∧ x.repo ≠ none ∧ x.importedFields ≠ none ∧
         x.tuneFileDocumentDB ≠ none ∧ x.schema ≠ none ∧ x.maintenance ≠ none ∧
         x.threading_service_config ≠ none ∧ x.alloc_config ≠ none)) := by
  have hvalid : ∀ x : DocumentDBConfig K, x.valid = true ↔
      (x.rankProfiles ≠ none ∧ x.rankingConstants ≠ none ∧ x.rankingExpressions ≠ none ∧
       x.onnxModels ≠ none ∧ x.indexschema ≠ none ∧ x.attributes ≠ none ∧
       x.summary ≠ none ∧ x.summarymap ≠ none ∧ x.juniperrc ≠ none ∧
       x.documenttypes ≠ none ∧ x.repo ≠ none ∧ x.importedFields ≠ none ∧
       x.tuneFileDocumentDB ≠ none ∧ x.schema ≠ none ∧ x.maintenance ≠ none ∧
       x.threading_service_config ≠ none ∧ x.alloc_config ≠ none) := by
    intro x
    unfold valid
    simp only [Bool.and_eq_true, Option.isSome_iff_ne_none, and_assoc]
  obtain ⟨h2, c, hm, hc, _, hshare, hempty⟩ := makeReplayConfig_spec h a o ho
  refine ⟨h2, h.configs.length, c, hm, ?_, ?_, hshare, hempty, hvalid⟩
  · rw [hc]
    exact getElem?_length_append _ _
  · intro hv
    rw [hvalid] at hv ⊢
    obtain ⟨_, _, _, _, v5, v6, v7, _, v9, v10, v11, _, v13, v14, v15, v16, v17⟩ := hv
    obtain ⟨_, s2, s3, s4, s5, s6, s7, s8, s9, s10, _, s12, s13, _, _⟩ := hshare
    obtain ⟨⟨_, e1, _⟩, ⟨_, e2, _⟩, ⟨_, e3, _⟩, ⟨_, e4, _⟩, ⟨_, e5, _⟩, ⟨_, e6, _⟩⟩ := hempty
    rw [e1, e2, e3, e4, e5, e6, s2, s3, s4, s5, s6, s7, s8, s9, s10, s12, s13]
    exact ⟨Option.some_ne_none _, Option.some_ne_none _, Option.some_ne_none _,
      Option.some_ne_none _, v5, v6, v7, Option.some_ne_none _, v9, v10, v11,
      Option.some_ne_none _, v13, v14, v15, v16, v17⟩

theorem makeReplayConfig_keeps_valid_witness :
    sampleConfig.valid = true ∧
    ∃ (h2 : ConfigHeap sampleClasses) (r : Nat) (c : DocumentDBConfig sampleClasses),
      makeReplayConfig sampleHeap (some 0) = some (h2, some r) ∧ h2.configs[r]? = some c ∧
      c.valid = true ∧ c.maintenance = sampleConfig.maintenance :=
  ⟨rfl,
    (makeReplayConfig_keeps_valid sampleHeap 0 sampleConfig rfl).elim fun h2 hx =>
      hx.elim fun r hy => hy.elim fun c hz =>
        ⟨h2, r, c, hz.1, hz.2.1, hz.2.2.1 rfl, hz.2.2.2.1.2.2.2.2.2.2.2.2.2.1⟩⟩

end DocumentDBConfig

end proton

/-! ## FlattenDocsumWriter -/

namespace vsm

namespace FlattenDocsumWriter

theorem onPrimitive_eq (w : FlattenDocsumWriter) (fv : FieldValue) :
    w.onPrimitive fv
      = { output := (if w.useSeparator then w.output ++ w.separator else w.output) ++ text fv,
          separator := w.separator, useSeparator := true } := by
  unfold onPrimitive considerSeparator text
  cases w.useSeparator <;> cases fv.inheritsLiteral <;> cases fv.inheritsNumeric <;>
    cases fv.inheritsBool <;> rfl

theorem foldl_onPrimitive_go (s acc : String) (fvs : List FieldValue) :
    (fvs.foldl onPrimitive { output := acc, separator := s, useSeparator := true }).output
      = String.intercalate.go acc s (fvs.map text) ∧
    (fvs.foldl onPrimitive { output := acc, separator := s, useSeparator := true }).separator
      = s := by
  induction fvs generalizing acc with
  | nil => exact ⟨rfl, rfl⟩
  | cons fv rest ih =>
    rw [List.foldl_cons, onPrimitive_eq]
    simp only [if_true, List.map_cons, String.intercalate.go]
    exact ih _

/-- C26: after `onPrimitive` has been called with the values `v1 .. vn` on a freshly
constructed writer with separator `s`, the output holds the texts of the values joined by
`s`: nothing for `n = 0`, `text(v1)` for `n = 1`, and for every further value the separator
and then its text, so no separator stands before the first text or after the last. -/
theorem onPrimitive_joins_with_separator (s : String) (fvs : List FieldValue) :
    (fvs.foldl onPrimitive (create s)).output = s.intercalate (fvs.map text) ∧
    (([] : List FieldValue).foldl onPrimitive (create s)).output = "" ∧
    (∀ fv, ([fv].foldl onPrimitive (create s)).output = text fv) ∧
    (∀ fv, 0 < fvs.length →
      ((fvs ++ [fv]).foldl onPrimitive (create s)).output
        = (fvs.foldl onPrimitive (create s)).output ++ s ++ text fv) := by
  have hfirst : ∀ fv, (create s).onPrimitive fv
      = { output := text fv, separator := s, useSeparator := true } := by
    intro fv
    rw [onPrimitive_eq]
    show ({ output := "" ++ text fv, separator := s, useSeparator := true }
      : FlattenDocsumWriter) = _
    rw [String.empty_append]
  refine ⟨?_, rfl, ?_, ?_⟩
  · cases fvs with
    | nil => rfl
    | cons fv rest =>
      rw [List.foldl_cons, hfirst]
      exact (foldl_onPrimitive_go s (text fv) rest).1
  · intro fv
    rw [List.foldl_cons, hfirst]
    rfl
  · intro fv hpos
    cases fvs with
    | nil => exact absurd hpos (Nat.lt_irrefl 0)
    | cons f0 rest =>
      rw [List.foldl_append, List.foldl_cons, List.foldl_nil, List.foldl_cons, hfirst,
        onPrimitive_eq]
      have hsep := (foldl_onPrimitive_go s (text f0) rest).2
      have huse : (rest.foldl onPrimitive
          { output := text f0, separator := s, useSeparator := true }).useSeparator = true := by
        clear hsep hpos
        generalize text f0 = acc
        induction rest generalizing acc with
        | nil => rfl
        | cons f1 rest ih =>
          rw [List.foldl_cons, onPrimitive_eq]
          exact ih _
      simp only [huse, if_true, hsep]

theorem onPrimitive_joins_with_separator_witness :
    (sampleValues.foldl onPrimitive (create ", ")).output = "foo, 42, Pos(1, 2)" ∧
    ((sampleValues ++ [(⟨true, false, false, "bar", "", ""⟩ : FieldValue)]).foldl onPrimitive
        (create ", ")).output
      = (sampleValues.foldl onPrimitive (create ", ")).output ++ ", "
          ++ text ⟨true, false, false, "bar", "", ""⟩ :=
  ⟨(onPrimitive_joins_with_separator ", " sampleValues).1.trans (by decide),
   (onPrimitive_joins_with_separator ", " sampleValues).2.2.2
     ⟨true, false, false, "bar", "", ""⟩ (by decide)⟩

end FlattenDocsumWriter

end vsm

/-! ## Aggregator -/

namespace vespamalloc

theorem foldl_append_join (l : List String) (acc : String) :
    l.foldl (fun r s => r ++ s) acc = acc ++ String.join l := by
  unfold String.join
  induction l generalizing acc with
  | nil => exact (String.append_empty acc).symm
  | cons a rest ih =>
    rw [List.foldl_cons, List.foldl_cons, ih (acc ++ a), ih ("" ++ a), String.empty_append,
      String.append_assoc]

theorem foldl_lines (l : List (Nat × String)) (os : String) :
    l.foldl (fun os it => os ++ toString it.1 ++ " : " ++ c_str it.2 ++ "\n") os
      = os ++ String.join (l.map line) := by
  rw [← foldl_append_join]
  induction l generalizing os with
  | nil => rfl
  | cons a rest ih =>
    rw [List.foldl_cons, List.map_cons, List.foldl_cons, ih]
    unfold line
    simp only [String.append_assoc]

theorem c_str_eq_self (s : String) (h : Char.ofNat 0 ∉ s.toList) : c_str s = s := by
  unfold c_str
  have hall : s.toList.takeWhile (fun c => decide (c ≠ Char.ofNat 0)) = s.toList := by
    rw [List.takeWhile_eq_self_iff]
    intro c hc
    exact decide_eq_true (fun e => h (e ▸ hc))
  rw [hall]
  rfl

theorem sort_spec (l : List (Nat × String)) :
    (sort CmpGraph l).Perm l ∧ (sort CmpGraph l).Pairwise (fun a b => a.1 ≤ b.1) := by
  have htotal : IsTotal (Nat × String) (fun a b => CmpGraph b a = false) :=
    ⟨fun a b => by
      unfold CmpGraph
      simp only [decide_eq_false_iff_not]
      omega⟩
  have htrans : IsTrans (Nat × String) (fun a b => CmpGraph b a = false) :=
    ⟨fun a b c => by
      unfold CmpGraph
      simp only [decide_eq_false_iff_not]
      omega⟩
  constructor
  · exact List.perm_insertionSort _ l
  · have hs := List.sorted_insertionSort (fun a b : Nat × String => CmpGraph b a = false) l
    refine List.Pairwise.imp ?_ hs
    intro a b hab
    unfold CmpGraph at hab
    simp only [decide_eq_false_iff_not] at hab
    omega

/-- C27: `operator<<` writes, after what the stream held, one line `<count> : <text>` with a
newline for every entry of the aggregator and nothing else; the entries written are a
permutation of the entries of the map, their counts never decrease from one line to the next,
and the aggregator is left as it was.  The text of a line is the text of the entry up to its
first NUL character, so all of it when it holds none. -/
theorem shiftLeft_sorted_by_count (os : String) (v : Aggregator) :
    ∃ lines : List (Nat × String),
      (shiftLeft os v).1 = os ++ String.join (lines.map line) ∧
      lines.Perm v.map ∧ lines.length = v.map.length ∧
      lines.Pairwise (fun a b => a.1 ≤ b.1) ∧
      (shiftLeft os v).2 = v ∧
      ∀ e : Nat × String, Char.ofNat 0 ∉ e.2.toList →
        line e = toString e.1 ++ " : " ++ e.2 ++ "\n" := by
  obtain ⟨hperm, hsorted⟩ := sort_spec v.map
  refine ⟨sort CmpGraph v.map, foldl_lines _ os, hperm, hperm.length_eq, hsorted, rfl, ?_⟩
  intro e he
  unfold line
  rw [c_str_eq_self e.2 he]

theorem shiftLeft_sorted_by_count_witness :
    line (2, "b") = toString 2 ++ " : " ++ "b" ++ "\n" ∧
    (shiftLeft "" sampleAggregator).1 = "2 : b\n5 : a\n9 : c\n" ∧
    (shiftLeft "" sampleAggregator).2 = sampleAggregator :=
  ⟨(shiftLeft_sorted_by_count "" sampleAggregator).elim fun _ h =>
      h.2.2.2.2.2 (2, "b") (by decide),
   by decide, by decide⟩

end vespamalloc

/-! ## HandlerThread -/

namespace vbench

namespace HandlerThread

variable {T : Type}

theorem exec_cons (s : HandlerThread T) (a : Action T) (rest : List (Action T)) :
    exec s (a :: rest) = exec (step s a) rest := rfl

theorem handle_eq (s : HandlerThread T) (obj : T) :
    s.handle obj = if s.done = true then s else { s with queue := s.queue ++ [obj] } := by
  unfold handle
  cases s.done <;> rfl

theorem exec_order (actions : List (Action T)) (s : HandlerThread T) :
    (exec s actions).next ++ (exec s actions).queue
      = s.next ++ s.queue ++ accepted s.done actions := by
  induction actions generalizing s with
  | nil => exact (List.append_nil _).symm
  | cons a rest ih =>
    rw [exec_cons, ih]
    cases a with
    | handle obj =>
      cases hd : s.done
      · have hs : step s (.handle obj) = { s with queue := s.queue ++ [obj] } := by
          show s.handle obj = _
          rw [handle_eq, hd]
          rfl
        rw [hs]
        simp only [accepted, hd, Bool.false_eq_true, if_false, List.append_assoc,
          List.singleton_append]
      · have hs : step s (.handle obj) = s := by
          show s.handle obj = _
          rw [handle_eq, hd]
          rfl
        rw [hs]
        simp only [accepted, hd, if_true]
    | join =>
      show s.joinLocked.next ++ s.joinLocked.queue ++ accepted s.joinLocked.done rest = _
      rfl
    | run =>
      show s.runRound.next ++ s.runRound.queue ++ accepted s.runRound.done rest
        = s.next ++ s.queue ++ accepted s.done rest
      obtain ⟨q, d, n, r⟩ := s
      cases r
      · cases q with
        | nil => cases d <;> rfl
        | cons obj q =>
          show n ++ [obj] ++ q ++ accepted d rest = n ++ (obj :: q) ++ accepted d rest
          simp only [List.append_assoc, List.singleton_append]
      · rfl

theorem exec_returned (actions : List (Action T)) (s : HandlerThread T)
    (h : s.returned = true → s.done = true ∧ s.queue = []) :
    (exec s actions).returned = true → (exec s actions).done = true ∧ (exec s actions).queue = [] := by
  induction actions generalizing s with
  | nil => exact h
  | cons a rest ih =>
    rw [exec_cons]
    apply ih
    cases a with
    | handle obj =>
      show (s.handle obj).returned = true → (s.handle obj).done = true ∧ (s.handle obj).queue = []
      rw [handle_eq]
      cases hd : s.done
      · intro hr
        have := (h hr).1
        rw [hd] at this
        cases this
      · exact h
    | join =>
      intro hr
      exact ⟨rfl, (h hr).2⟩
    | run =>
      show s.runRound.returned = true → s.runRound.done = true ∧ s.runRound.queue = []
      obtain ⟨q, d, n, r⟩ := s
      cases r
      · cases q with
        | nil =>
          cases d
          · intro h2
            cases h2
          · intro _
            exact ⟨rfl, rfl⟩
        | cons obj q =>
          intro h2
          cases h2
      · intro _
        exact h rfl

theorem run_returned (fuel : Nat) (s : HandlerThread T) (h : s.returned = true) :
    run fuel s = some s := by
  cases fuel <;> simp [run, h]

theorem run_done (fuel : Nat) (s : HandlerThread T) (hd : s.done = true)
    (hinv : s.returned = true → s.queue = []) (hf : s.queue.length + 1 ≤ fuel) :
    run fuel s
      = some { queue := [], done := true, next := s.next ++ s.queue, returned := true } := by
  induction fuel generalizing s with
  | zero => omega
  | succ fuel ih =>
    obtain ⟨q, d, n, r⟩ := s
    simp only at hd hinv hf
    subst hd
    cases r with
    | true =>
      rw [run_returned _ _ rfl, hinv rfl, List.append_nil]
    | false =>
      cases q with
      | nil =>
        show run fuel { queue := [], done := true, next := n, returned := true } = _
        rw [run_returned _ _ rfl, List.append_nil]
      | cons obj rest =>
        show run fuel { queue := rest, done := true, next := n ++ [obj], returned := false } = _
        rw [ih _ rfl (fun h2 => by cases h2) (by simp only [List.length_cons] at hf ⊢; omega)]
        simp only [List.append_assoc, List.singleton_append]

/-- C28: `handle(obj)` puts `obj` at the back of the queue while `_done` is not set and drops it
afterwards; a round of `run` takes the object at the front of the queue and passes it to the
next handler; so after any sequence of calls the objects passed on followed by the objects
still queued are the accepted objects in the order of their acceptance; `run` has returned only
with `_done` set and the queue empty; and the destructor, after `join`, finds the queue empty,
every accepted object having been passed on. -/
theorem handler_thread_delivers_in_order (actions : List (Action T)) :
    (∀ (s : HandlerThread T) (obj : T),
      s.handle obj = if s.done = true then s else { s with queue := s.queue ++ [obj] }) ∧
    (∀ (obj : T) (rest delivered : List T) (done : Bool),
      runRound { queue := obj :: rest, done := done, next := delivered, returned := false }
        = { queue := rest, done := done, next := delivered ++ [obj], returned := false }) ∧
    (exec create actions).next ++ (exec create actions).queue = accepted false actions ∧
    ((exec create actions).returned = true →
      (exec create actions).done = true ∧ (exec create actions).queue = []) ∧
    (∀ fuel, (exec create actions).queue.length + 1 ≤ fuel →
      destroy fuel (exec create actions)
        = some (.ok { queue := [], done := true, next := accepted false actions,
                      returned := true })) := by
  have hret := exec_returned actions (create : HandlerThread T) (fun h => by cases h)
  have hord : (exec create actions).next ++ (exec create actions).queue
      = accepted false actions := exec_order actions (create : HandlerThread T)
  refine ⟨handle_eq, fun _ _ _ _ => rfl, hord, hret, ?_⟩
  intro fuel hf
  unfold destroy
  rw [run_done fuel (exec create actions).joinLocked rfl (fun h => (hret h).2) hf, ← hord]
  rfl

theorem handler_thread_delivers_in_order_witness :
    (exec (create : HandlerThread Nat) [.handle 1, .handle 2, .run, .join, .handle 3]).queue
      = [2] ∧
    destroy 2 (exec (create : HandlerThread Nat) [.handle 1, .handle 2, .run, .join, .handle 3])
      = some (.ok { queue := [], done := true, next := [1, 2], returned := true }) :=
  ⟨by decide,
   (handler_thread_delivers_in_order
      ([.handle 1, .handle 2, .run, .join, .handle 3] : List (Action Nat))).2.2.2.2 2
      (by decide)⟩

end HandlerThread

end vbench

end search
